import Mathlib

/-!
# Kaleidoscope front end: lexer and operator-precedence parser

A shallow embedding of `src/lexer.cc` and `src/parser.cc`.

* C `int` values (characters returned by `getchar`, tokens) are `Int`;
  `EOF` is `-1`.
* Standard input is the list of characters still to be read.  `getchar`
  pops the head of the list and returns `EOF` forever once it is empty.
* The globals `LastChar`, `NumVal`, `IdentifierStr`, `CurTok`,
  `BinopPrecedence` and the text written to `stderr` become fields of an
  explicit state that every function receives and returns.
* `strtod` is a parameter: the numeric payload has an arbitrary type `ν`.
* Recursion that is not structural in the source (the recursive call of
  `gettok` after a comment, the recursive-descent parser, the driver loop)
  is indexed by a fuel argument; the outer `Option` of such a function is
  `none` exactly when the fuel ran out.
-/

namespace Kaleidoscope

/-! ## `<ctype.h>` in the "C" locale and `<stdio.h>` -/

/-- The value `getchar` returns at end of input. -/
def EOF : Int := -1

/-- C `isspace`: space, `\t`, `\n`, `\v`, `\f`, `\r`. -/
def isspace (c : Int) : Bool := c == 32 || (decide (9 ≤ c) && decide (c ≤ 13))

/-- C `isalpha`: `A`..`Z` or `a`..`z`. -/
def isalpha (c : Int) : Bool :=
  (decide (65 ≤ c) && decide (c ≤ 90)) || (decide (97 ≤ c) && decide (c ≤ 122))

/-- C `isdigit`: `0`..`9`. -/
def isdigit (c : Int) : Bool := decide (48 ≤ c) && decide (c ≤ 57)

/-- C `isalnum`. -/
def isalnum (c : Int) : Bool := isalpha c || isdigit c

/-- C `isascii`: no bit above the low seven is set. -/
def isascii (c : Int) : Bool := decide (0 ≤ c) && decide (c ≤ 127)

/-- The `int` that `getchar` returns for a character that was read. -/
def code (c : Char) : Int := (c.toNat : Int)

/-- Conversion of an `int` to `char` (the low eight bits), as performed when
an `int` is appended to a `std::string` or used as a `std::map<char,int>` key. -/
def toChar (i : Int) : Char := Char.ofNat (i % 256).toNat

/-- One call of `getchar` on the remaining input. -/
def getchar : List Char → Int × List Char
  | [] => (EOF, [])
  | c :: rest => (code c, rest)

/-! ## Tokens (`lexer.hh`) -/

def tok_eof : Int := -1
def tok_def : Int := -2
def tok_extern : Int := -3
def tok_identifier : Int := -4
def tok_number : Int := -5

/-! ## Lexer (`lexer.cc`) -/

/-- The lexer's globals: the static `LastChar` of `gettok`, the unread part of
standard input, and the two payload variables. -/
structure LexState (ν : Type) where
  LastChar : Int
  stdin : List Char
  NumVal : ν
  IdentifierStr : String

/-- The state before the first call of `gettok`: `LastChar = ' '`,
`IdentifierStr` empty, `NumVal` as initialised (`zero` stands for `0.0`). -/
def LexState.init {ν : Type} (zero : ν) (input : List Char) : LexState ν :=
  { LastChar := 32, stdin := input, NumVal := zero, IdentifierStr := "" }

/-- The loop `while (isspace(LastChar)) LastChar = getchar();`. -/
def skipSpace : Int → List Char → Int × List Char
  | lc, [] => if isspace lc then (EOF, []) else (lc, [])
  | lc, c :: rest => if isspace lc then skipSpace (code c) rest else (lc, c :: rest)

/-- The loop `while (isalnum((LastChar = getchar()))) IdentifierStr += LastChar;`.
Returns the identifier text, the new `LastChar` and the remaining input. -/
def readIdentifier : String → List Char → String × Int × List Char
  | id, [] => (id, EOF, [])
  | id, c :: rest =>
    if isalnum (code c) then readIdentifier (id.push (toChar (code c))) rest
    else (id, code c, rest)

/-- The loop `do { NumStr += LastChar; LastChar = getchar(); }
while (isdigit(LastChar) || LastChar == '.');`. -/
def readNumber : String → Int → List Char → String × Int × List Char
  | ns, lc, [] => (ns.push (toChar lc), EOF, [])
  | ns, lc, c :: rest =>
    if isdigit (code c) || code c == 46 then readNumber (ns.push (toChar lc)) (code c) rest
    else (ns.push (toChar lc), code c, rest)

/-- The loop `do LastChar = getchar();
while (LastChar != EOF && LastChar != '\n' && LastChar != '\r');`. -/
def skipComment : List Char → Int × List Char
  | [] => (EOF, [])
  | c :: rest =>
    if code c != EOF && code c != 10 && code c != 13 then skipComment rest
    else (code c, rest)

/-- The last two statements of `gettok`: report end of file without eating it,
otherwise return the character itself and read the next one. -/
def gettokChar {ν : Type} (s : LexState ν) (lc : Int) (inp : List Char) :
    Int × LexState ν :=
  if lc == EOF then (tok_eof, { s with LastChar := lc, stdin := inp })
  else
    let ThisChar := lc
    (ThisChar, { s with LastChar := (getchar inp).1, stdin := (getchar inp).2 })

/-- The body of `gettok`; `fuel` bounds the depth of the recursive call made
after a comment. -/
def gettokAux {ν : Type} (strtod : String → ν) : Nat → LexState ν → Option (Int × LexState ν)
  | 0, _ => none
  | fuel + 1, s =>
    match skipSpace s.LastChar s.stdin with
    | (lc, inp) =>
      if isalpha lc then
        match readIdentifier (String.singleton (toChar lc)) inp with
        | (id, lc1, inp1) =>
          let s1 : LexState ν := { s with LastChar := lc1, stdin := inp1, IdentifierStr := id }
          if id = "def" then some (tok_def, s1)
          else if id = "extern" then some ( tok_extern, s1)
          else some (tok_identifier, s1)
      else if isdigit lc || lc == 46 then
        match readNumber "" lc inp with
        | (NumStr, lc1, inp1) =>
          some (tok_number, { s with LastChar := lc1, stdin := inp1, NumVal := strtod NumStr })
      else if lc == 35 then
        match skipComment inp with
        | (lc1, inp1) =>
          if lc1 != EOF then gettokAux strtod fuel { s with LastChar := lc1, stdin := inp1 }
          else some (gettokChar s lc1 inp1)
      else some (gettokChar s lc inp)

/-- The function `gettok`: every recursive call follows a comment that consumed
at least one character, so one unit of fuel per unread character (plus one
for the outermost call) is enough. -/
def gettok {ν : Type} (strtod : String → ν) (s : LexState ν) : Option (Int × LexState ν) :=
  gettokAux strtod (s.stdin.length + 1) s

/-- The result of the last of `n + 1` consecutive calls of `gettok`, the first
of them made in state `s`. -/
def gettokNth {ν : Type} (strtod : String → ν) : Nat → LexState ν → Option (Int × LexState ν)
  | 0, s => gettok strtod s
  | n + 1, s =>
    match gettok strtod s with
    | none => none
    | some (_, s1) => gettokNth strtod n s1

/-- The function `chktok` of `lexer.cc`.  The loop keeps every alphanumeric
character of the whole string; `s[0] == EOF` compares a `char` that was
promoted to `int`. -/
def chktok (s : String) : Int :=
  match s.data with
  | [] => 0
  | c0 :: cs =>
    if isalpha (code c0) then
      let _identifierStr : String :=
        cs.foldl (fun acc c => if isalnum (code c) then acc.push c else acc) (String.singleton c0)
      if _identifierStr = "def" then tok_def
      else if _identifierStr = "extern" then tok_extern
      else tok_identifier
    else if isdigit (code c0) || code c0 == 46 then tok_number
    else if code c0 % 256 == 255 then tok_eof
    else 0

/-- The function `tok2str` of `lexer.cc`. -/
def tok2str (tok : Int) : String :=
  if tok = tok_eof then "tok_eof"
  else if tok = tok_def then "tok_def"
  else if tok = tok_extern then "tok_extern"
  else if tok = tok_identifier then "tok_identifier"
  else if tok = tok_number then "tok_number"
  else "none"

/-! ## Abstract syntax tree (`parser.hh`) -/

/-- The classes `NumberExprAST`, `VariableExprAST`, `BinaryExprAST` and
`CallExprAST`. -/
inductive ExprAST (ν : Type) where
  | Number (Val : ν) : ExprAST ν
  | Variable (Name : String) : ExprAST ν
  | Binary (Op : Char) (LHS RHS : ExprAST ν) : ExprAST ν
  | Call (Callee : String) (Args : List (ExprAST ν)) : ExprAST ν

/-- The class `PrototypeAST`. -/
structure PrototypeAST where
  Name : String
  Args : List String
deriving DecidableEq

/-- The class `FunctionAST`. -/
structure FunctionAST (ν : Type) where
  Proto : PrototypeAST
  Body : ExprAST ν

/-! ## Parser state (`parser.cc`) -/

/-- What the program writes to `stderr`: a `LogError` line, the report that a
handler dumps for a parsed prototype (its `type`, the name with its `chktok`
kind, and each parameter with its `chktok` kind), or the `ready> ` prompt. -/
inductive Output where
  | error (Str : String) : Output
  | report (type : String) (name : String × String) (args : List (String × String)) : Output
  | prompt : Output
deriving DecidableEq

/-- The globals of the parser together with those of the lexer.
`BinopPrecedence` is the `std::map<char, int>`, as its list of entries. -/
structure ParserState (ν : Type) where
  lexer : LexState ν
  CurTok : Int
  BinopPrecedence : List (Char × Int)
  stderr : List Output

/-- The state at program start: `CurTok = 0`, the table as the embedding
application filled it, nothing written yet. -/
def ParserState.init {ν : Type} (zero : ν) (table : List (Char × Int)) (input : List Char) :
    ParserState ν :=
  { lexer := LexState.init zero input, CurTok := 0, BinopPrecedence := table, stderr := [] }

/-- The function `getNextToken`: `return CurTok = gettok();`. -/
def getNextToken {ν : Type} (strtod : String → ν) (s : ParserState ν) : Option (ParserState ν) :=
  match gettok strtod s.lexer with
  | none => none
  | some (tok, l) => some { s with lexer := l, CurTok := tok }

/-- Insertion of a new key into a `std::map`, which keeps its keys ordered. -/
def mapInsert (k : Char) (v : Int) : List (Char × Int) → List (Char × Int)
  | [] => [(k, v)]
  | (k1, v1) :: m => if k < k1 then (k, v) :: (k1, v1) :: m else (k1, v1) :: mapInsert k v m

/-- The operator `std::map::operator[]`: the mapped value of `k`; an absent key is
first inserted with the value-initialised `int`, `0`. -/
def mapIndex (m : List (Char × Int)) (k : Char) : Int × List (Char × Int) :=
  match m.lookup k with
  | some v => (v, m)
  | none => (0, mapInsert k 0 m)

/-- The function `GetTokPrecedence`. -/
def GetTokPrecedence {ν : Type} (s : ParserState ν) : Int × ParserState ν :=
  if !isascii s.CurTok then (-1, s)
  else
    let TokPrec := (mapIndex s.BinopPrecedence (toChar s.CurTok)).1
    let s1 : ParserState ν :=
      { s with BinopPrecedence := (mapIndex s.BinopPrecedence (toChar s.CurTok)).2 }
    if TokPrec ≤ 0 then (-1, s1) else (TokPrec, s1)

/-- The function `LogError` (and `LogErrorP`): print the message, return `nullptr`. -/
def LogError {ν α : Type} (Str : String) (s : ParserState ν) : Option α × ParserState ν :=
  (none, { s with stderr := s.stderr ++ [Output.error Str] })

/-- The function `ParseNumberExpr`. -/
def ParseNumberExpr {ν : Type} (strtod : String → ν) (s : ParserState ν) :
    Option (Option (ExprAST ν) × ParserState ν) :=
  let Result := ExprAST.Number s.lexer.NumVal
  match getNextToken strtod s with
  | none => none
  | some s1 => some (some Result, s1)

mutual

/-- The function `ParseParenExpr`. -/
def ParseParenExpr {ν : Type} (strtod : String → ν) :
    Nat → ParserState ν → Option (Option (ExprAST ν) × ParserState ν)
  | 0, _ => none
  | fuel + 1, s =>
    match getNextToken strtod s with
    | none => none
    | some s1 =>
      match ParseExpression strtod fuel s1 with
      | none => none
      | some (none, s2) => some (none, s2)
      | some (some V, s2) =>
        if s2.CurTok != 41 then some (LogError "expected ')'" s2)
        else
          match getNextToken strtod s2 with
          | none => none
          | some s3 => some (some V, s3)

/-- The `while (true)` loop of `ParseIdentifierExpr` that collects the call
arguments; the inner `none` is its `return nullptr`. -/
def ParseCallArgs {ν : Type} (strtod : String → ν) :
    Nat → List (ExprAST ν) → ParserState ν → Option (Option (List (ExprAST ν)) × ParserState ν)
  | 0, _, _ => none
  | fuel + 1, Args, s =>
    match ParseExpression strtod fuel s with
    | none => none
    | some (none, s1) => some (none, s1)
    | some (some Arg, s1) =>
      if s1.CurTok == 41 then some (some (Args ++ [Arg]), s1)
      else if s1.CurTok != 44 then some (LogError "Expected ')' or ',' in argument list" s1)
      else
        match getNextToken strtod s1 with
        | none => none
        | some s2 => ParseCallArgs strtod fuel (Args ++ [Arg]) s2

/-- The function `ParseIdentifierExpr`. -/
def ParseIdentifierExpr {ν : Type} (strtod : String → ν) :
    Nat → ParserState ν → Option (Option (ExprAST ν) × ParserState ν)
  | 0, _ => none
  | fuel + 1, s =>
    let IdName := s.lexer.IdentifierStr
    match getNextToken strtod s with
    | none => none
    | some s1 =>
      if s1.CurTok != 40 then some (some (ExprAST.Variable IdName), s1)
      else
        match getNextToken strtod s1 with
        | none => none
        | some s2 =>
          if s2.CurTok != 41 then
            match ParseCallArgs strtod fuel [] s2 with
            | none => none
            | some (none, s3) => some (none, s3)
            | some (some Args, s3) =>
              match getNextToken strtod s3 with
              | none => none
              | some s4 => some (some (ExprAST.Call IdName Args), s4)
          else
            match getNextToken strtod s2 with
            | none => none
            | some s4 => some (some (ExprAST.Call IdName []), s4)

/-- The function `ParsePrimary`. -/
def ParsePrimary {ν : Type} (strtod : String → ν) :
    Nat → ParserState ν → Option (Option (ExprAST ν) × ParserState ν)
  | 0, _ => none
  | fuel + 1, s =>
    if s.CurTok = tok_identifier then ParseIdentifierExpr strtod fuel s
    else if s.CurTok = tok_number then ParseNumberExpr strtod s
    else if s.CurTok = 40 then ParseParenExpr strtod fuel s
    else some (LogError "unknown token when expecting an expression" s)

/-- The function `ParseBinOpRHS`; each turn of its `while (true)` loop is one
recursive call. -/
def ParseBinOpRHS {ν : Type} (strtod : String → ν) :
    Nat → Int → ExprAST ν → ParserState ν → Option (Option (ExprAST ν) × ParserState ν)
  | 0, _, _, _ => none
  | fuel + 1, ExprPrec, LHS, s =>
    match GetTokPrecedence s with
    | (TokPrec, s1) =>
      if TokPrec < ExprPrec then some (some LHS, s1)
      else
        let BinOp := s1.CurTok
        match getNextToken strtod s1 with
        | none => none
        | some s2 =>
          match ParsePrimary strtod fuel s2 with
          | none => none
          | some (none, s3) => some (none, s3)
          | some (some RHS, s3) =>
            match GetTokPrecedence s3 with
            | (NextPrec, s4) =>
              if TokPrec < NextPrec then
                match ParseBinOpRHS strtod fuel (TokPrec + 1) RHS s4 with
                | none => none
                | some (none, s5) => some (none, s5)
                | some (some RHS1, s5) =>
                  ParseBinOpRHS strtod fuel ExprPrec (ExprAST.Binary (toChar BinOp) LHS RHS1) s5
              else ParseBinOpRHS strtod fuel ExprPrec (ExprAST.Binary (toChar BinOp) LHS RHS) s4

/-- The function `ParseExpression`. -/
def ParseExpression {ν : Type} (strtod : String → ν) :
    Nat → ParserState ν → Option (Option (ExprAST ν) × ParserState ν)
  | 0, _ => none
  | fuel + 1, s =>
    match ParsePrimary strtod fuel s with
    | none => none
    | some (none, s1) => some (none, s1)
    | some (some LHS, s1) => ParseBinOpRHS strtod fuel 0 LHS s1

end

/-- The loop `while (getNextToken() == tok_identifier)
ArgNames.push_back(IdentifierStr);` of `ParsePrototype`. -/
def ParsePrototypeArgs {ν : Type} (strtod : String → ν) :
    Nat → List String → ParserState ν → Option (List String × ParserState ν)
  | 0, _, _ => none
  | fuel + 1, ArgNames, s =>
    match getNextToken strtod s with
    | none => none
    | some s1 =>
      if s1.CurTok = tok_identifier then
        ParsePrototypeArgs strtod fuel (ArgNames ++ [s1.lexer.IdentifierStr]) s1
      else some (ArgNames, s1)

/-- The function `ParsePrototype`. -/
def ParsePrototype {ν : Type} (strtod : String → ν) (fuel : Nat) (s : ParserState ν) :
    Option (Option PrototypeAST × ParserState ν) :=
  if s.CurTok != tok_identifier then some (LogError "Expected function name in prototype" s)
  else
    let FnName := s.lexer.IdentifierStr
    match getNextToken strtod s with
    | none => none
    | some s1 =>
      if s1.CurTok != 40 then some (LogError "Expected '(' in prototype" s1)
      else
        match ParsePrototypeArgs strtod fuel [] s1 with
        | none => none
        | some (ArgNames, s2) =>
          if s2.CurTok != 41 then some (LogError "Expected ')' in prototype" s2)
          else
            match getNextToken strtod s2 with
            | none => none
            | some s3 => some (some { Name := FnName, Args := ArgNames }, s3)

/-- The function `ParseDefinition`. -/
def ParseDefinition {ν : Type} (strtod : String → ν) (fuel : Nat) (s : ParserState ν) :
    Option (Option (FunctionAST ν) × ParserState ν) :=
  match getNextToken strtod s with
  | none => none
  | some s1 =>
    match ParsePrototype strtod fuel s1 with
    | none => none
    | some (none, s2) => some (none, s2)
    | some (some Proto, s2) =>
      match ParseExpression strtod fuel s2 with
      | none => none
      | some (some E, s3) => some (some { Proto := Proto, Body := E }, s3)
      | some (none, s3) => some (none, s3)

/-- The function `ParseTopLevelExpr`. -/
def ParseTopLevelExpr {ν : Type} (strtod : String → ν) (fuel : Nat) (s : ParserState ν) :
    Option (Option (FunctionAST ν) × ParserState ν) :=
  match ParseExpression strtod fuel s with
  | none => none
  | some (some E, s1) =>
    some (some { Proto := { Name := "__anon_expr", Args := [] }, Body := E }, s1)
  | some (none, s1) => some (none, s1)

/-- The function `ParseExtern`. -/
def ParseExtern {ν : Type} (strtod : String → ν) (fuel : Nat) (s : ParserState ν) :
    Option (Option PrototypeAST × ParserState ν) :=
  match getNextToken strtod s with
  | none => none
  | some s1 => ParsePrototype strtod fuel s1

/-! ## Top-level driver (`parser.cc`) -/

/-- What `HandleDefinition` and `HandleExtern` dump for a prototype: the name and
every parameter, each with `tok2str(chktok(..))` as its type. -/
def prototypeReport (type : String) (Proto : PrototypeAST) : Output :=
  Output.report type (tok2str (chktok Proto.Name), Proto.Name)
    (Proto.Args.map (fun a => (tok2str (chktok a), a)))

/-- The function `HandleDefinition`: on success dump the prototype (no branch
for the body writes anything), otherwise skip one token. -/
def HandleDefinition {ν : Type} (strtod : String → ν) (fuel : Nat) (s : ParserState ν) :
    Option (ParserState ν) :=
  match ParseDefinition strtod fuel s with
  | none => none
  | some (some d, s1) =>
    some { s1 with stderr := s1.stderr ++ [prototypeReport "tok_def" d.Proto] }
  | some (none, s1) => getNextToken strtod s1

/-- The function `HandleExtern`. -/
def HandleExtern {ν : Type} (strtod : String → ν) (fuel : Nat) (s : ParserState ν) :
    Option (ParserState ν) :=
  match ParseExtern strtod fuel s with
  | none => none
  | some (some ext, s1) =>
    some { s1 with stderr := s1.stderr ++ [prototypeReport "tok_extern" ext] }
  | some (none, s1) => getNextToken strtod s1

/-- The function `HandleTopLevelExpression`. -/
def HandleTopLevelExpression {ν : Type} (strtod : String → ν) (fuel : Nat) (s : ParserState ν) :
    Option (ParserState ν) :=
  match ParseTopLevelExpr strtod fuel s with
  | none => none
  | some (some _, s1) => some s1
  | some (none, s1) => getNextToken strtod s1

/-- The `switch (CurTok)` of `MainLoop`.  The flag is `true` when the case
executed `return`. -/
def MainLoopSwitch {ν : Type} (strtod : String → ν) (fuel : Nat) (s : ParserState ν) :
    Option (Bool × ParserState ν) :=
  if s.CurTok = tok_eof then some (true, s)
  else if s.CurTok = 59 then (getNextToken strtod s).map (fun s1 => (false, s1))
  else if s.CurTok = tok_def then (HandleDefinition strtod fuel s).map (fun s1 => (false, s1))
  else if s.CurTok = tok_extern then (HandleExtern strtod fuel s).map (fun s1 => (false, s1))
  else (HandleTopLevelExpression strtod fuel s).map (fun s1 => (false, s1))

/-- The `while (true)` loop of `MainLoop`: print the prompt, dispatch, repeat. -/
def MainLoopWhile {ν : Type} (strtod : String → ν) : Nat → ParserState ν → Option (ParserState ν)
  | 0, _ => none
  | fuel + 1, s =>
    match MainLoopSwitch strtod fuel { s with stderr := s.stderr ++ [Output.prompt] } with
    | none => none
    | some (true, s1) => some s1
    | some (false, s1) => MainLoopWhile strtod fuel s1

/-- The function `MainLoop`: one dispatch, then the loop. -/
def MainLoop {ν : Type} (strtod : String → ν) (fuel : Nat) (s : ParserState ν) :
    Option (ParserState ν) :=
  match MainLoopSwitch strtod fuel s with
  | none => none
  | some (true, s1) => some s1
  | some (false, s1) => MainLoopWhile strtod fuel s1

/-! ## Token sequences, as the parser meets them

The properties of calls and prototypes speak of the tokens that follow the
lookahead.  These relations say that the tokens from a state on have a given
shape, in terms of what `getNextToken` and `ParseExpression` return. -/

/-- The relation `CallArguments strtod f s ts e`: from `s` on the tokens are one or more
argument expressions separated by `','`, the i-th parsed by `ParseExpression`
(with fuel `f`) to the i-th tree of `ts`, and the last one followed by `')'`,
which is the lookahead of `e`. -/
inductive CallArguments {ν : Type} (strtod : String → ν) (f : Nat) :
    ParserState ν → List (ExprAST ν) → ParserState ν → Prop where
  | last {s e : ParserState ν} {t : ExprAST ν} :
      ParseExpression strtod f s = some (some t, e) → e.CurTok = 41 →
      CallArguments strtod f s [t] e
  | more {s s1 s2 e : ParserState ν} {t : ExprAST ν} {ts : List (ExprAST ν)} :
      ParseExpression strtod f s = some (some t, s1) → s1.CurTok = 44 →
      getNextToken strtod s1 = some s2 → CallArguments strtod f s2 ts e →
      CallArguments strtod f s (t :: ts) e

/-- The relation `ParameterNames strtod s ps e`: the tokens after the lookahead of `s` are
the identifiers `ps`, in this order, and then a token that is not an
identifier, which is the lookahead of `e`. -/
inductive ParameterNames {ν : Type} (strtod : String → ν) :
    ParserState ν → List String → ParserState ν → Prop where
  | done {s e : ParserState ν} :
      getNextToken strtod s = some e → e.CurTok ≠ tok_identifier →
      ParameterNames strtod s [] e
  | param {s s1 e : ParserState ν} {ps : List String} :
      getNextToken strtod s = some s1 → s1.CurTok = tok_identifier →
      ParameterNames strtod s1 ps e →
      ParameterNames strtod s (s1.lexer.IdentifierStr :: ps) e

/-- Two tables that `BinopPrecedence[k]` cannot tell apart: every key reads the
same value in both (an absent key reads `0`). -/
def sameLookups (m1 m2 : List (Char × Int)) : Prop :=
  ∀ k : Char, (mapIndex m1 k).1 = (mapIndex m2 k).1

/-! ## Shapes of input text

The property of definitions speaks of the characters of the input.  These
functions say that a piece of text is a run of whitespace, or an identifier
that is not a keyword, and build the text of a parameter list. -/

/-- A run of whitespace characters (possibly empty). -/
def isWhitespaceText (ws : List Char) : Bool := ws.all (fun x => isspace (code x))

/-- A letter followed by letters and digits, other than `def` and `extern`:
the texts that `gettok` classifies as `tok_identifier`. -/
def isIdentifierText : List Char → Bool
  | [] => false
  | c0 :: w =>
    isalpha (code c0) && w.all (fun x => isalnum (code x)) &&
      decide (String.mk (c0 :: w) ≠ "def") && decide (String.mk (c0 :: w) ≠ "extern")

/-- The text of a parameter list: each name with the whitespace in front of it. -/
def parameterText : List (List Char × List Char) → List Char
  | [] => []
  | (ws, p) :: rest => ws ++ p ++ parameterText rest

/-- Every name of the list is an identifier, what stands in front of it is
whitespace, and from the second name on that whitespace is not empty. -/
def parametersSeparated : List (List Char × List Char) → Bool
  | [] => true
  | [(ws, p)] => isWhitespaceText ws && isIdentifierText p
  | (ws, p) :: (ws1, p1) :: rest =>
    isWhitespaceText ws && isIdentifierText p && !ws1.isEmpty &&
      parametersSeparated ((ws1, p1) :: rest)

/-- The lexer state once the lexer has read the text in front of `rest` and
retains its first character; `id` is the identifier payload at that point. -/
def lexerAt {ν : Type} (l : LexState ν) (id : String) (rest : List Char) : LexState ν :=
  { l with LastChar := (getchar rest).1, stdin := (getchar rest).2, IdentifierStr := id }

/-- The parser state moved on to the point where `tok` is the lookahead, `id`
the identifier payload, and the lexer stands in front of `rest`. -/
def ParserState.movedTo {ν : Type} (s : ParserState ν) (tok : Int) (id : String)
    (rest : List Char) : ParserState ν :=
  { s with lexer := lexerAt s.lexer id rest, CurTok := tok }

/-- The last name of a parameter list, or `id` when the list is empty: the
identifier payload once the list has been read. -/
def lastName (id : String) (params : List (List Char × List Char)) : String :=
  params.foldl (fun _ p => String.mk p.2) id

/-! ## What a call writes to `stderr` -/

/-- What a parsing call that started in `s` and ended in `s1` has written: nothing
when it returned a value (`ok`), exactly one `LogError` line when it did not. -/
def emitsOneErrorOnFailure {ν : Type} (s : ParserState ν) (ok : Bool) (s1 : ParserState ν) :
    Prop :=
  if ok = true then s1.stderr = s.stderr
  else ∃ msg : String, s1.stderr = s.stderr ++ [Output.error msg]

/-! ## How much input is left -/

/-- The number of characters the lexer has not turned into a token yet: the
unread ones, and the retained one unless it is `EOF`. -/
def unread {ν : Type} (l : LexState ν) : Nat :=
  l.stdin.length + (if l.LastChar = EOF then 0 else 1)

/-- The input the parser has not consumed yet: what the lexer has left, and the
lookahead token unless it is `tok_eof`. -/
def pendingInput {ν : Type} (s : ParserState ν) : Nat :=
  unread s.lexer + (if s.CurTok = tok_eof then 0 else 1)

/-! ## The shape of a prototype -/

/-- The relation `PrototypeTokens strtod s P s1`: the tokens from the lookahead
of `s` on are an identifier (the name of `P`), `'('`, the identifiers that are
the parameters of `P` in order, and `')'`; `s1` has the token after `')'` as
its lookahead. -/
def PrototypeTokens {ν : Type} (strtod : String → ν) (s : ParserState ν) (P : PrototypeAST)
    (s1 : ParserState ν) : Prop :=
  s.CurTok = tok_identifier ∧ P.Name = s.lexer.IdentifierStr ∧
    ∃ s2 e, getNextToken strtod s = some s2 ∧ s2.CurTok = 40 ∧
      ParameterNames strtod s2 P.Args e ∧ e.CurTok = 41 ∧ getNextToken strtod e = some s1

/-! ## How many tokens were read -/

/-- The relation `tokensRead strtod n s s1`: the lexer and the lookahead of `s1` are
those reached from `s` by reading `n` more tokens. -/
def tokensRead {ν : Type} (strtod : String → ν) (n : Nat) (s s1 : ParserState ν) : Prop :=
  match n with
  | 0 => s1.lexer = s.lexer ∧ s1.CurTok = s.CurTok
  | k + 1 => gettokNth strtod k s.lexer = some (s1.CurTok, s1.lexer)

/-- A relation between the state before and the state after that every step of
the parser keeps: reading a token, looking a precedence up, writing a line. -/
structure StepInvariant {ν : Type} (strtod : String → ν)
    (R : ParserState ν → ParserState ν → Prop) : Prop where
  refl : ∀ s, R s s
  trans : ∀ s1 s2 s3, R s1 s2 → R s2 s3 → R s1 s3
  next : ∀ s s1, getNextToken strtod s = some s1 → R s s1
  prec : ∀ s, R s (GetTokPrecedence s).2
  out : ∀ (x : Output) (s : ParserState ν), R s { s with stderr := s.stderr ++ [x] }

/-! ## Operator chains -/

/-- One entry of the in-order traversal of a tree: an operand (a tree that is
not a `Binary` node) or the operator of a `Binary` node. -/
inductive Item (ν : Type) where
  | operand (e : ExprAST ν) : Item ν
  | operator (Op : Char) : Item ν

/-- The in-order traversal of a tree: left subtree, operator, right subtree. -/
def inorder {ν : Type} : ExprAST ν → List (Item ν)
  | ExprAST.Number v => [Item.operand (ExprAST.Number v)]
  | ExprAST.Variable n => [Item.operand (ExprAST.Variable n)]
  | ExprAST.Call f args => [Item.operand (ExprAST.Call f args)]
  | ExprAST.Binary op l r => inorder l ++ Item.operator op :: inorder r

/-- The items of a run `o_1 x_1 ... o_n x_n` of operators and operands. -/
def chainItems {ν : Type} : List (Char × ExprAST ν) → List (Item ν)
  | [] => []
  | (op, x) :: c => Item.operator op :: Item.operand x :: chainItems c

/-- The relation `Operand strtod s x s1`: the lookahead of `s` is a number token, or
an identifier token that is not followed by `'('`; `x` is its tree and `s1` the
state with the token after it as the lookahead. -/
def Operand {ν : Type} (strtod : String → ν) (s : ParserState ν) (x : ExprAST ν)
    (s1 : ParserState ν) : Prop :=
  getNextToken strtod s = some s1 ∧
    ((s.CurTok = tok_number ∧ x = ExprAST.Number s.lexer.NumVal) ∨
      (s.CurTok = tok_identifier ∧ s1.CurTok ≠ 40 ∧ x = ExprAST.Variable s.lexer.IdentifierStr))

/-- The relation `OperatorChain strtod s c e`: from the lookahead of `s` on the tokens
are `o_1 x_1 ... o_n x_n`, every `o_i` a character of positive precedence and
every `x_i` an operand, followed by a token of precedence `-1`; `c` lists the
operators with the trees of their operands, and `e` is the state in which
that last token is the lookahead and has been looked up. -/
inductive OperatorChain {ν : Type} (strtod : String → ν) :
    ParserState ν → List (Char × ExprAST ν) → ParserState ν → Prop where
  | done {s : ParserState ν} :
      (GetTokPrecedence s).1 = -1 → OperatorChain strtod s [] (GetTokPrecedence s).2
  | step {s s1 s2 e : ParserState ν} {op : Char} {x : ExprAST ν}
      {c : List (Char × ExprAST ν)} :
      s.CurTok = code op → 0 < (GetTokPrecedence s).1 → getNextToken strtod s = some s1 →
      Operand strtod s1 x s2 → OperatorChain strtod s2 c e →
      OperatorChain strtod s ((op, x) :: c) e

/-! ## Grouping by precedence -/

/-- The precedence that `GetTokPrecedence` reports for the character `c` against
the table of `s`. -/
def precedenceOf {ν : Type} (s : ParserState ν) (c : Char) : Int :=
  (GetTokPrecedence { s with CurTok := code c }).1

/-- The grouping property of a tree, at every `Binary` node: a right child that
is a `Binary` node has an operator of strictly higher precedence, a left
child that is a `Binary` node has one of at least the same precedence. -/
inductive Grouped {ν : Type} (prec : Char → Int) : ExprAST ν → Prop where
  | number (v : ν) : Grouped prec (ExprAST.Number v)
  | variable (n : String) : Grouped prec (ExprAST.Variable n)
  | call (f : String) (args : List (ExprAST ν)) :
      (∀ a, a ∈ args → Grouped prec a) → Grouped prec (ExprAST.Call f args)
  | binary (op : Char) (l r : ExprAST ν) : Grouped prec l → Grouped prec r →
      (∀ op1 a b, r = ExprAST.Binary op1 a b → prec op < prec op1) →
      (∀ op1 a b, l = ExprAST.Binary op1 a b → prec op ≤ prec op1) →
      Grouped prec (ExprAST.Binary op l r)

/-- The relation `NoLParen strtod u s`: none of the tokens from the lookahead of `s` on
is `'('`, as far as the point of the input where `u` characters are unread. -/
def NoLParen {ν : Type} (strtod : String → ν) (u : Nat) (s : ParserState ν) : Prop :=
  ∀ k s1, tokensRead strtod k s s1 → u ≤ unread s1.lexer → s1.CurTok ≠ 40

/-- The relation `Along strtod a b`: the state `b` lies further along the input than `a`,
at a whole number of tokens from it, and its table reads the same values. -/
def Along {ν : Type} (strtod : String → ν) (a b : ParserState ν) : Prop :=
  unread b.lexer ≤ unread a.lexer ∧ sameLookups a.BinopPrecedence b.BinopPrecedence ∧
    ∃ n, tokensRead strtod n a b

/-! ## Where an error is detected -/

/-- Text that `chktok` is meant for: a letter followed by letters and digits only
(the shape of an identifier or a keyword), or text that starts with a digit
or `'.'`. -/
def isTokenText (cs : List Char) : Bool :=
  match cs with
  | [] => false
  | c0 :: w =>
    (isalpha (code c0) && w.all (fun x => isalnum (code x))) ||
      (isdigit (code c0) || code c0 == 46)

/-! ## Lemmas on characters -/

theorem toChar_code {c : Char} (h : c.toNat < 256) : toChar (code c) = c := by
  unfold toChar code
  have h1 : ((c.toNat : Int) % 256).toNat = c.toNat := by omega
  rw [h1]
  exact Char.ofNat_toNat c

theorem code_nonneg (c : Char) : 0 ≤ code c := by
  unfold code; omega

theorem code_ne_EOF (c : Char) : code c ≠ EOF := by
  unfold code EOF; omega

theorem isspace_EOF : isspace EOF = false := by decide

theorem isalnum_lt {c : Char} (h : isalnum (code c) = true) : c.toNat < 256 := by
  unfold isalnum isalpha isdigit code at h
  simp only [Bool.or_eq_true, Bool.and_eq_true, decide_eq_true_eq] at h
  omega

theorem isalpha_lt {c : Char} (h : isalpha (code c) = true) : c.toNat < 256 :=
  isalnum_lt (by unfold isalnum; rw [h]; rfl)

theorem numeric_lt {c : Char} (h : (isdigit (code c) || code c == 46) = true) :
    c.toNat < 256 := by
  unfold isdigit code at h
  simp only [Bool.or_eq_true, Bool.and_eq_true, decide_eq_true_eq, beq_iff_eq] at h
  omega

theorem isalpha_not_isspace {i : Int} (h : isalpha i = true) : isspace i = false := by
  unfold isalpha at h
  unfold isspace
  simp only [Bool.or_eq_true, Bool.and_eq_true, decide_eq_true_eq] at h
  simp only [Bool.or_eq_false_iff, Bool.and_eq_false_iff, decide_eq_false_iff_not, beq_eq_false_iff_ne]
  omega

theorem numeric_not_isspace {i : Int} (h : (isdigit i || i == 46) = true) :
    isspace i = false := by
  unfold isdigit at h
  unfold isspace
  simp only [Bool.or_eq_true, Bool.and_eq_true, decide_eq_true_eq, beq_iff_eq] at h
  simp only [Bool.or_eq_false_iff, Bool.and_eq_false_iff, decide_eq_false_iff_not, beq_eq_false_iff_ne]
  omega

theorem numeric_not_isalpha {i : Int} (h : (isdigit i || i == 46) = true) :
    isalpha i = false := by
  unfold isdigit at h
  unfold isalpha
  simp only [Bool.or_eq_true, Bool.and_eq_true, decide_eq_true_eq, beq_iff_eq] at h
  simp only [Bool.or_eq_false_iff, Bool.and_eq_false_iff, decide_eq_false_iff_not]
  omega

/-! ## Lemmas on the loops of `gettok` -/

theorem skipSpace_of_not_isspace {lc : Int} (h : isspace lc = false) (inp : List Char) :
    skipSpace lc inp = (lc, inp) := by
  cases inp <;> simp [skipSpace, h]

/-- Skipping a run of whitespace that is followed by a non-whitespace character. -/
theorem skipSpace_run (ws : List Char) (hws : ∀ c ∈ ws, isspace (code c) = true)
    (c0 : Char) (h0 : isspace (code c0) = false) (tail : List Char) :
    ∀ (c : Char) (inp : List Char), c :: inp = ws ++ c0 :: tail →
      skipSpace (code c) inp = (code c0, tail) := by
  induction ws with
  | nil =>
    intro c inp h
    simp only [List.nil_append, List.cons.injEq] at h
    obtain ⟨rfl, rfl⟩ := h
    exact skipSpace_of_not_isspace h0 _
  | cons a ws ih =>
    intro c inp h
    simp only [List.cons_append, List.cons.injEq] at h
    obtain ⟨rfl, rfl⟩ := h
    have ha : isspace (code c) = true := hws c (List.mem_cons_self _ _)
    have hws1 : ∀ x ∈ ws, isspace (code x) = true :=
      fun x hx => hws x (List.mem_cons_of_mem _ hx)
    cases hw : ws ++ c0 :: tail with
    | nil => simp at hw
    | cons x xs =>
      simp only [skipSpace, ha, if_true]
      exact ih hws1 x xs hw.symm

/-- Skipping a run of whitespace that reaches the end of the input. -/
theorem skipSpace_all (ws : List Char) (hws : ∀ c ∈ ws, isspace (code c) = true) :
    ∀ (lc : Int), isspace lc = true → skipSpace lc ws = (EOF, []) := by
  induction ws with
  | nil => intro lc h; simp [skipSpace, h]
  | cons a ws ih =>
    intro lc h
    simp only [skipSpace, h, if_true]
    exact ih (fun x hx => hws x (List.mem_cons_of_mem _ hx)) _ (hws a (List.mem_cons_self _ _))

theorem skipSpace_length (inp : List Char) :
    ∀ lc : Int, (skipSpace lc inp).2.length ≤ inp.length := by
  induction inp with
  | nil => intro lc; unfold skipSpace; split <;> simp
  | cons a inp ih =>
    intro lc
    unfold skipSpace
    split
    · exact Nat.le_succ_of_le (ih _)
    · simp

/-- The character `skipSpace` stops on is the retained one, one of the unread
ones, or `EOF`; what it leaves unread is part of what was unread. -/
theorem skipSpace_mem (inp : List Char) :
    ∀ lc : Int, ((skipSpace lc inp).1 = lc ∨ (skipSpace lc inp).1 = EOF ∨
        ∃ c ∈ inp, (skipSpace lc inp).1 = code c) ∧
      ∀ c ∈ (skipSpace lc inp).2, c ∈ inp := by
  induction inp with
  | nil => intro lc; unfold skipSpace; split <;> simp
  | cons a inp ih =>
    intro lc
    unfold skipSpace
    split
    · obtain ⟨h1, h2⟩ := ih (code a)
      refine ⟨?_, fun c hc => List.mem_cons_of_mem _ (h2 c hc)⟩
      rcases h1 with h | h | ⟨c, hc, h⟩
      · exact Or.inr (Or.inr ⟨a, List.mem_cons_self _ _, h⟩)
      · exact Or.inr (Or.inl h)
      · exact Or.inr (Or.inr ⟨c, List.mem_cons_of_mem _ hc, h⟩)
    · exact ⟨Or.inl rfl, fun c hc => hc⟩

theorem skipSpace_not_isspace (inp : List Char) :
    ∀ lc : Int, isspace (skipSpace lc inp).1 = false := by
  induction inp with
  | nil =>
    intro lc
    unfold skipSpace
    split
    · exact isspace_EOF
    · simpa using ‹¬ isspace lc = true›
  | cons a inp ih =>
    intro lc
    unfold skipSpace
    split
    · exact ih _
    · simpa using ‹¬ isspace lc = true›

/-- The identifier loop appends a run of alphanumeric characters and stops on
the first character that is not alphanumeric, or on `EOF`. -/
theorem readIdentifier_run (w : List Char) (hw : ∀ c ∈ w, isalnum (code c) = true)
    (rest : List Char) (hrest : ∀ c, rest.head? = some c → isalnum (code c) = false) :
    ∀ acc : List Char, readIdentifier (String.mk acc) (w ++ rest) =
      (String.mk (acc ++ w), (getchar rest).1, (getchar rest).2) := by
  induction w with
  | nil =>
    intro acc
    cases rest with
    | nil => simp [readIdentifier, getchar]
    | cons r rest =>
      have hr : isalnum (code r) = false := hrest r rfl
      simp [readIdentifier, getchar, hr]
  | cons a w ih =>
    intro acc
    have ha : isalnum (code a) = true := hw a (List.mem_cons_self _ _)
    have hpush : (String.mk acc).push (toChar (code a)) = String.mk (acc ++ [a]) := by
      rw [toChar_code (isalnum_lt ha)]; rfl
    show readIdentifier (String.mk acc) (a :: (w ++ rest)) = _
    simp only [readIdentifier, ha, if_true, hpush]
    rw [ih (fun x hx => hw x (List.mem_cons_of_mem _ hx))]
    simp

/-- The number loop appends the retained character and a run of digits and
dots, and stops on the first other character, or on `EOF`. -/
theorem readNumber_run (w : List Char) (hw : ∀ c ∈ w, (isdigit (code c) || code c == 46) = true)
    (rest : List Char)
    (hrest : ∀ c, rest.head? = some c → (isdigit (code c) || code c == 46) = false) :
    ∀ (acc : List Char) (c0 : Char), (isdigit (code c0) || code c0 == 46) = true →
      readNumber (String.mk acc) (code c0) (w ++ rest) =
        (String.mk (acc ++ c0 :: w), (getchar rest).1, (getchar rest).2) := by
  induction w with
  | nil =>
    intro acc c0 h0
    have hpush : (String.mk acc).push (toChar (code c0)) = String.mk (acc ++ [c0]) := by
      rw [toChar_code (numeric_lt h0)]; rfl
    cases rest with
    | nil => simp [readNumber, getchar, hpush]
    | cons r rest =>
      have hr := hrest r rfl
      simp only [List.nil_append, readNumber, hr, hpush, getchar]
      simp
  | cons a w ih =>
    intro acc c0 h0
    have ha := hw a (List.mem_cons_self _ _)
    have hpush : (String.mk acc).push (toChar (code c0)) = String.mk (acc ++ [c0]) := by
      rw [toChar_code (numeric_lt h0)]; rfl
    show readNumber (String.mk acc) (code c0) (a :: (w ++ rest)) = _
    simp only [readNumber, ha, if_true, hpush]
    rw [ih (fun x hx => hw x (List.mem_cons_of_mem _ hx)) _ a ha]
    simp

/-- The comment loop discards everything up to the first line end. -/
theorem skipComment_run (body : List Char) (hbody : ∀ c ∈ body, c ≠ '\n' ∧ c ≠ '\r')
    (rest : List Char) :
    skipComment (body ++ '\n' :: rest) = (10, rest) := by
  induction body with
  | nil => simp [skipComment, code]
  | cons a body ih =>
    have ha := hbody a (List.mem_cons_self _ _)
    have h10 : code a ≠ 10 := by
      intro h; apply ha.1; apply Char.ext; apply UInt32.ext
      unfold code at h; exact Int.ofNat.inj h
    have h13 : code a ≠ 13 := by
      intro h; apply ha.2; apply Char.ext; apply UInt32.ext
      unfold code at h; exact Int.ofNat.inj h
    have he := code_ne_EOF a
    show skipComment (a :: (body ++ '\n' :: rest)) = _
    have hc : (code a != EOF && code a != 10 && code a != 13) = true := by
      simp [he, h10, h13]
    simp only [skipComment, hc, if_true]
    exact ih (fun x hx => hbody x (List.mem_cons_of_mem _ hx))

theorem skipComment_length (inp : List Char) :
    (skipComment inp).1 ≠ EOF → (skipComment inp).2.length < inp.length := by
  induction inp with
  | nil => intro h; exact absurd rfl h
  | cons a inp ih =>
    unfold skipComment
    split
    · intro h; exact Nat.lt_succ_of_lt (ih h)
    · intro _; simp

theorem skipComment_mem (inp : List Char) :
    ((skipComment inp).1 = EOF ∨ ∃ c ∈ inp, (skipComment inp).1 = code c) ∧
      ∀ c ∈ (skipComment inp).2, c ∈ inp := by
  induction inp with
  | nil => simp [skipComment]
  | cons a inp ih =>
    unfold skipComment
    split
    · obtain ⟨h1, h2⟩ := ih
      refine ⟨?_, fun c hc => List.mem_cons_of_mem _ (h2 c hc)⟩
      rcases h1 with h | ⟨c, hc, h⟩
      · exact Or.inl h
      · exact Or.inr ⟨c, List.mem_cons_of_mem _ hc, h⟩
    · exact ⟨Or.inr ⟨a, List.mem_cons_self _ _, rfl⟩, fun c hc => List.mem_cons_of_mem _ hc⟩

/-! ## `gettok` terminates, whatever the fuel above the input length -/

/-- After a comment that did not reach `EOF`, strictly less input is unread
than before the call. -/
theorem comment_shorter {lc lc0 lc1 : Int} {inp0 inp inp1 : List Char}
    (hsk : skipSpace lc0 inp0 = (lc, inp)) (hco : skipComment inp = (lc1, inp1))
    (hne : (lc1 != EOF) = true) : inp1.length < inp0.length := by
  have h1 : inp.length ≤ inp0.length := by
    have := skipSpace_length inp0 lc0; rw [hsk] at this; exact this
  have h2 : inp1.length < inp.length := by
    have := skipComment_length inp; rw [hco] at this
    exact this (by simpa using hne)
  omega

/-- Any two amounts of fuel above the number of unread characters give the
same result. -/
theorem gettokAux_fuel {ν : Type} (strtod : String → ν) :
    ∀ (n : Nat) (s : LexState ν), s.stdin.length < n →
      ∀ m, s.stdin.length < m → gettokAux strtod n s = gettokAux strtod m s := by
  intro n
  induction n with
  | zero => intro s h; omega
  | succ n ih =>
    intro s h m hm
    cases m with
    | zero => omega
    | succ m =>
      simp only [gettokAux]
      rcases hsk : skipSpace s.LastChar s.stdin with ⟨lc, inp⟩
      simp only []
      by_cases h1 : isalpha lc = true
      · simp only [h1, if_true]
      · simp only [h1, Bool.false_eq_true, if_false]
        by_cases h2 : (isdigit lc || lc == 46) = true
        · simp only [h2, if_true]
        · simp only [h2, Bool.false_eq_true, if_false]
          by_cases h3 : (lc == 35) = true
          · simp only [h3, if_true]
            rcases hco : skipComment inp with ⟨lc1, inp1⟩
            simp only []
            by_cases h4 : (lc1 != EOF) = true
            · simp only [h4, if_true]
              have hlen := comment_shorter hsk hco h4
              exact ih _ (by simp only []; omega) m (by simp only []; omega)
            · simp only [h4, Bool.false_eq_true, if_false]
          · simp only [h3, Bool.false_eq_true, if_false]

/-- With more fuel than unread characters `gettok` returns, and the token is
one of the five named tokens, the retained character, or an unread character. -/
theorem gettokAux_total {ν : Type} (strtod : String → ν) :
    ∀ (n : Nat) (s : LexState ν), s.stdin.length < n →
      ∃ t s1, gettokAux strtod n s = some (t, s1) ∧
        (t = tok_eof ∨ t = tok_def ∨ t = tok_extern ∨ t = tok_identifier ∨ t = tok_number ∨
          t = s.LastChar ∨ ∃ c ∈ s.stdin, t = code c) := by
  intro n
  induction n with
  | zero => intro s h; omega
  | succ n ih =>
    intro s h
    simp only [gettokAux]
    have hmem := skipSpace_mem s.stdin s.LastChar
    rcases hsk : skipSpace s.LastChar s.stdin with ⟨lc, inp⟩
    rw [hsk] at hmem
    obtain ⟨hlc, hinp⟩ := hmem
    simp only [] at hlc hinp ⊢
    by_cases h1 : isalpha lc = true
    · simp only [h1, if_true]
      rcases readIdentifier (String.singleton (toChar lc)) inp with ⟨id, lc1, inp1⟩
      simp only []
      by_cases hd : id = "def"
      · rw [if_pos hd]
        exact ⟨_, _, rfl, Or.inr (Or.inl rfl)⟩
      · rw [if_neg hd]
        by_cases he : id = "extern"
        · rw [if_pos he]
          exact ⟨_, _, rfl, Or.inr (Or.inr (Or.inl rfl))⟩
        · rw [if_neg he]
          exact ⟨_, _, rfl, Or.inr (Or.inr (Or.inr (Or.inl rfl)))⟩
    · simp only [h1, Bool.false_eq_true, if_false]
      by_cases h2 : (isdigit lc || lc == 46) = true
      · simp only [h2, if_true]
        exact ⟨_, _, rfl, Or.inr (Or.inr (Or.inr (Or.inr (Or.inl rfl))))⟩
      · simp only [h2, Bool.false_eq_true, if_false]
        by_cases h3 : (lc == 35) = true
        · simp only [h3, if_true]
          have hmem2 := skipComment_mem inp
          rcases hco : skipComment inp with ⟨lc1, inp1⟩
          rw [hco] at hmem2
          obtain ⟨hlc1, hinp1⟩ := hmem2
          simp only [] at hlc1 hinp1 ⊢
          by_cases h4 : (lc1 != EOF) = true
          · simp only [h4, if_true]
            have hlen := comment_shorter hsk hco h4
            obtain ⟨t, s1, hr, hk⟩ := ih { s with LastChar := lc1, stdin := inp1 }
              (by simp only []; omega)
            refine ⟨t, s1, hr, ?_⟩
            simp only [] at hk
            rcases hk with hk | hk | hk | hk | hk | hk | ⟨c, hc, hk⟩
            · exact Or.inl hk
            · exact Or.inr (Or.inl hk)
            · exact Or.inr (Or.inr (Or.inl hk))
            · exact Or.inr (Or.inr (Or.inr (Or.inl hk)))
            · exact Or.inr (Or.inr (Or.inr (Or.inr (Or.inl hk))))
            · rcases hlc1 with hlc1 | ⟨c, hc, hlc1⟩
              · rw [hk, hlc1]; exact Or.inl rfl
              · exact Or.inr (Or.inr (Or.inr (Or.inr (Or.inr (Or.inr
                  ⟨c, hinp c hc, by rw [hk, hlc1]⟩)))))
            · exact Or.inr (Or.inr (Or.inr (Or.inr (Or.inr (Or.inr
                ⟨c, hinp c (hinp1 c hc), hk⟩)))))
          · simp only [h4, Bool.false_eq_true, if_false]
            have h5 : (lc1 == EOF) = true := by simpa using h4
            simp only [gettokChar, h5, if_true]
            exact ⟨_, _, rfl, Or.inl rfl⟩
        · simp only [h3, Bool.false_eq_true, if_false, gettokChar]
          by_cases h5 : (lc == EOF) = true
          · simp only [h5, if_true]
            exact ⟨_, _, rfl, Or.inl rfl⟩
          · simp only [h5, Bool.false_eq_true, if_false]
            refine ⟨_, _, rfl, ?_⟩
            rcases hlc with hlc | hlc | ⟨c, hc, hlc⟩
            · exact Or.inr (Or.inr (Or.inr (Or.inr (Or.inr (Or.inl hlc)))))
            · exact absurd (by simp [hlc]) h5
            · exact Or.inr (Or.inr (Or.inr (Or.inr (Or.inr (Or.inr ⟨c, hc, hlc⟩)))))

/-- A call that returns `tok_eof` leaves `EOF` as the retained character. -/
theorem gettokAux_eof {ν : Type} (strtod : String → ν) :
    ∀ (n : Nat) (s s1 : LexState ν), gettokAux strtod n s = some (tok_eof, s1) →
      s1.LastChar = EOF := by
  intro n
  induction n with
  | zero => intro s s1 h; simp [gettokAux] at h
  | succ n ih =>
    intro s s1 h
    simp only [gettokAux] at h
    rcases hsk : skipSpace s.LastChar s.stdin with ⟨lc, inp⟩
    rw [hsk] at h
    simp only [] at h
    by_cases h1 : isalpha lc = true
    · simp only [h1, if_true] at h
      by_cases hd : (readIdentifier (String.singleton (toChar lc)) inp).1 = "def"
      · simp [hd, tok_def, tok_eof] at h
      · by_cases he : (readIdentifier (String.singleton (toChar lc)) inp).1 = "extern"
        · simp [hd, he, tok_extern, tok_eof] at h
        · simp [hd, he, tok_identifier, tok_eof] at h
    · simp only [h1, Bool.false_eq_true, if_false] at h
      by_cases h2 : (isdigit lc || lc == 46) = true
      · simp only [h2, if_true] at h
        simp [tok_number, tok_eof] at h
      · simp only [h2, Bool.false_eq_true, if_false] at h
        by_cases h3 : (lc == 35) = true
        · simp only [h3, if_true] at h
          rcases hco : skipComment inp with ⟨lc1, inp1⟩
          rw [hco] at h
          simp only [] at h
          by_cases h4 : (lc1 != EOF) = true
          · simp only [h4, if_true] at h
            exact ih _ _ h
          · simp only [h4, Bool.false_eq_true, if_false] at h
            have h5 : lc1 = EOF := by simpa using h4
            simp only [gettokChar, h5, beq_self_eq_true, if_true, Option.some.injEq,
              Prod.mk.injEq, true_and] at h
            rw [← h]
        · simp only [h3, Bool.false_eq_true, if_false, gettokChar] at h
          by_cases h5 : (lc == EOF) = true
          · simp only [h5, if_true, Option.some.injEq, Prod.mk.injEq, true_and] at h
            rw [← h]; simpa using h5
          · simp only [h5, Bool.false_eq_true, if_false, Option.some.injEq, Prod.mk.injEq] at h
            exact absurd (by simp [h.1, tok_eof, EOF]) h5

/-- With `EOF` retained, `gettok` returns `tok_eof` and changes nothing. -/
theorem gettok_at_EOF {ν : Type} (strtod : String → ν) (s : LexState ν)
    (h : s.LastChar = EOF) : gettok strtod s = some (tok_eof, s) := by
  obtain ⟨lc, inp, nv, id⟩ := s
  simp only [] at h
  subst h
  simp only [gettok, gettokAux, skipSpace_of_not_isspace isspace_EOF]
  rfl

theorem skipSpace_of_isspace {lc lc1 : Int} (h : isspace lc = true) (h1 : isspace lc1 = true)
    (inp : List Char) : skipSpace lc inp = skipSpace lc1 inp := by
  cases inp <;> simp [skipSpace, h, h1]

/-- The result of `gettok` depends on the retained character and the unread
input only through the place where whitespace skipping stops. -/
theorem gettokAux_congr {ν : Type} (strtod : String → ν) (n : Nat) (lc lc1 : Int)
    (inp inp1 : List Char) (nv : ν) (id : String) (h : skipSpace lc inp = skipSpace lc1 inp1) :
    gettokAux strtod (n + 1) { LastChar := lc, stdin := inp, NumVal := nv, IdentifierStr := id } =
      gettokAux strtod (n + 1)
        { LastChar := lc1, stdin := inp1, NumVal := nv, IdentifierStr := id } := by
  simp only [gettokAux, gettokChar, h]

/-- After a comment that ends before the end of input, `gettok` calls itself. -/
theorem gettokAux_after_comment {ν : Type} (strtod : String → ν) (n : Nat) (s : LexState ν)
    (inp : List Char) (lc1 : Int) (inp1 : List Char)
    (hsk : skipSpace s.LastChar s.stdin = (35, inp)) (hco : skipComment inp = (lc1, inp1))
    (hne : (lc1 != EOF) = true) :
    gettokAux strtod (n + 1) s = gettokAux strtod n { s with LastChar := lc1, stdin := inp1 } := by
  have h35a : isalpha 35 = false := by decide
  have h35d : (isdigit 35 || (35 : Int) == 46) = false := by decide
  rw [gettokAux]
  simp only [hsk, h35a, h35d, Bool.false_eq_true, if_false, beq_self_eq_true, if_true, hco, hne]

/-- Lexing a word: after whitespace, a letter and a maximal run of letters and
digits give a keyword or identifier token with the word as payload. -/
theorem gettok_word {ν : Type} (strtod : String → ν) (s : LexState ν) (c c0 : Char)
    (ws w rest : List Char) (hlast : s.LastChar = code c)
    (hstream : c :: s.stdin = ws ++ (c0 :: w) ++ rest)
    (hws : ∀ x ∈ ws, isspace (code x) = true)
    (h0 : isalpha (code c0) = true) (hw : ∀ x ∈ w, isalnum (code x) = true)
    (hrest : ∀ x, rest.head? = some x → isalnum (code x) = false) :
    gettok strtod s =
      some (if String.mk (c0 :: w) = "def" then tok_def
            else if String.mk (c0 :: w) = "extern" then tok_extern else tok_identifier,
        { s with LastChar := (getchar rest).1, stdin := (getchar rest).2,
                 IdentifierStr := String.mk (c0 :: w) }) := by
  have hsk : skipSpace s.LastChar s.stdin = (code c0, w ++ rest) := by
    rw [hlast]
    exact skipSpace_run ws hws c0 (isalpha_not_isspace h0) (w ++ rest) c s.stdin
      (by rw [hstream]; simp)
  have hid : readIdentifier (String.singleton (toChar (code c0))) (w ++ rest) =
      (String.mk (c0 :: w), (getchar rest).1, (getchar rest).2) := by
    rw [toChar_code (isalpha_lt h0)]
    exact readIdentifier_run w hw rest hrest [c0]
  simp only [gettok, gettokAux, hsk, h0, if_true, hid]
  by_cases hd : String.mk (c0 :: w) = "def"
  · simp only [hd, if_true]
  · by_cases he : String.mk (c0 :: w) = "extern"
    · simp only [he, if_true]; rfl
    · simp only [hd, he, if_false]

/-- Lexing a number: after whitespace, a maximal run of digits and dots gives
`tok_number` with `strtod` of the run as payload. -/
theorem gettok_numeral {ν : Type} (strtod : String → ν) (s : LexState ν) (c c0 : Char)
    (ws w rest : List Char) (hlast : s.LastChar = code c)
    (hstream : c :: s.stdin = ws ++ (c0 :: w) ++ rest)
    (hws : ∀ x ∈ ws, isspace (code x) = true)
    (h0 : (isdigit (code c0) || code c0 == 46) = true)
    (hw : ∀ x ∈ w, (isdigit (code x) || code x == 46) = true)
    (hrest : ∀ x, rest.head? = some x → (isdigit (code x) || code x == 46) = false) :
    gettok strtod s =
      some (tok_number,
        { s with LastChar := (getchar rest).1, stdin := (getchar rest).2,
                 NumVal := strtod (String.mk (c0 :: w)) }) := by
  have hsk : skipSpace s.LastChar s.stdin = (code c0, w ++ rest) := by
    rw [hlast]
    exact skipSpace_run ws hws c0 (numeric_not_isspace h0) (w ++ rest) c s.stdin
      (by rw [hstream]; simp)
  have hnum : readNumber "" (code c0) (w ++ rest) =
      (String.mk (c0 :: w), (getchar rest).1, (getchar rest).2) :=
    readNumber_run w hw rest hrest [] c0 h0
  simp only [gettok, gettokAux, hsk, numeric_not_isalpha h0, Bool.false_eq_true, if_false, h0,
    if_true, hnum]

theorem getNextToken_some {ν : Type} (strtod : String → ν) (s : ParserState ν) :
    ∃ s1, getNextToken strtod s = some s1 := by
  obtain ⟨t, l, h, _⟩ := gettokAux_total strtod (s.lexer.stdin.length + 1) s.lexer (Nat.lt_succ_self _)
  exact ⟨{ s with lexer := l, CurTok := t }, by simp only [getNextToken, gettok, h]⟩

theorem getNextToken_table {ν : Type} (strtod : String → ν) {s s1 : ParserState ν}
    (h : getNextToken strtod s = some s1) :
    s1.BinopPrecedence = s.BinopPrecedence ∧ s1.stderr = s.stderr := by
  unfold getNextToken at h
  cases hg : gettok strtod s.lexer with
  | none => simp [hg] at h
  | some r =>
    simp only [hg, Option.some.injEq] at h
    rw [← h]
    exact ⟨rfl, rfl⟩

/-! ## The precedence table -/

theorem lookup_mapInsert (k : Char) (v : Int) (m : List (Char × Int)) (k1 : Char)
    (h : m.lookup k = none) :
    (mapInsert k v m).lookup k1 = if k1 = k then some v else m.lookup k1 := by
  induction m with
  | nil =>
    by_cases hk : k1 = k
    · simp [mapInsert, List.lookup, hk]
    · have : (k1 == k) = false := by simpa using hk
      simp [mapInsert, List.lookup, hk, this]
  | cons a m ih =>
    obtain ⟨ka, va⟩ := a
    have hka : k ≠ ka := by
      intro e; subst e; simp [List.lookup] at h
    have hm : m.lookup k = none := by
      have : (k == ka) = false := by simpa using hka
      simpa [List.lookup, this] using h
    unfold mapInsert
    by_cases hlt : k < ka
    · simp only [hlt, if_true]
      by_cases hk : k1 = k
      · simp [List.lookup, hk]
      · have : (k1 == k) = false := by simpa using hk
        simp [List.lookup, hk, this]
    · simp only [hlt, if_false]
      by_cases hk1 : k1 = ka
      · subst hk1
        have : ¬ k1 = k := fun e => hka e.symm
        simp [List.lookup, this]
      · have hb : (k1 == ka) = false := by simpa using hk1
        simp only [List.lookup, hb]
        exact ih hm

/-- The value `BinopPrecedence[k]` reads is the stored one, or `0`. -/
theorem mapIndex_fst (m : List (Char × Int)) (k : Char) :
    (mapIndex m k).1 = (m.lookup k).getD 0 := by
  unfold mapIndex
  cases m.lookup k <;> rfl

/-- Indexing the table never changes what any later index reads. -/
theorem mapIndex_sameLookups (m : List (Char × Int)) (k : Char) :
    sameLookups m (mapIndex m k).2 := by
  intro k1
  rw [mapIndex_fst, mapIndex_fst]
  unfold mapIndex
  cases h : m.lookup k with
  | some v => rfl
  | none =>
    simp only []
    rw [lookup_mapInsert k 0 m k1 h]
    by_cases hk : k1 = k
    · simp [hk, h]
    · simp [hk]

/-- A second index with the same key finds the entry and changes nothing. -/
theorem mapIndex_idem (m : List (Char × Int)) (k : Char) :
    mapIndex (mapIndex m k).2 k = mapIndex m k := by
  unfold mapIndex
  cases h : m.lookup k with
  | some v => simp [h]
  | none =>
    simp only []
    rw [lookup_mapInsert k 0 m k h]
    simp

/-- A key with a non-zero value is present: indexing it leaves the table alone. -/
theorem mapIndex_snd_of_ne_zero (m : List (Char × Int)) (k : Char)
    (h : (mapIndex m k).1 ≠ 0) : (mapIndex m k).2 = m := by
  unfold mapIndex at h ⊢
  cases hl : m.lookup k with
  | some v => rfl
  | none => simp [hl] at h

theorem sameLookups_refl (m : List (Char × Int)) : sameLookups m m := fun _ => rfl

theorem sameLookups_trans {m1 m2 m3 : List (Char × Int)} (h1 : sameLookups m1 m2)
    (h2 : sameLookups m2 m3) : sameLookups m1 m3 := fun k => (h1 k).trans (h2 k)

/-! ## `GetTokPrecedence` -/

/-- The result of `GetTokPrecedence`, case by case. -/
theorem GetTokPrecedence_eq {ν : Type} (s : ParserState ν) :
    (isascii s.CurTok = false ∧ GetTokPrecedence s = (-1, s)) ∨
    (isascii s.CurTok = true ∧ (mapIndex s.BinopPrecedence (toChar s.CurTok)).1 ≤ 0 ∧
      GetTokPrecedence s =
        (-1, { s with BinopPrecedence := (mapIndex s.BinopPrecedence (toChar s.CurTok)).2 })) ∨
    (isascii s.CurTok = true ∧ 0 < (mapIndex s.BinopPrecedence (toChar s.CurTok)).1 ∧
      GetTokPrecedence s = ((mapIndex s.BinopPrecedence (toChar s.CurTok)).1,
        { s with BinopPrecedence := (mapIndex s.BinopPrecedence (toChar s.CurTok)).2 })) := by
  cases h0 : isascii s.CurTok with
  | false => exact Or.inl ⟨rfl, by simp [GetTokPrecedence, h0]⟩
  | true =>
    by_cases h1 : (mapIndex s.BinopPrecedence (toChar s.CurTok)).1 ≤ 0
    · exact Or.inr (Or.inl ⟨rfl, h1, by simp [GetTokPrecedence, h0, h1]⟩)
    · exact Or.inr (Or.inr ⟨rfl, by omega, by simp [GetTokPrecedence, h0, h1]⟩)

theorem GetTokPrecedence_fields {ν : Type} (s : ParserState ν) :
    (GetTokPrecedence s).2.lexer = s.lexer ∧ (GetTokPrecedence s).2.CurTok = s.CurTok ∧
      (GetTokPrecedence s).2.stderr = s.stderr ∧
      sameLookups s.BinopPrecedence (GetTokPrecedence s).2.BinopPrecedence := by
  rcases GetTokPrecedence_eq s with ⟨_, h⟩ | ⟨_, _, h⟩ | ⟨_, _, h⟩ <;> rw [h]
  · exact ⟨rfl, rfl, rfl, sameLookups_refl _⟩
  · exact ⟨rfl, rfl, rfl, mapIndex_sameLookups _ _⟩
  · exact ⟨rfl, rfl, rfl, mapIndex_sameLookups _ _⟩

/-- The precedence reported depends on the current token and on what the table
yields when indexed, not on the other fields of the state. -/
theorem GetTokPrecedence_congr {ν : Type} (s s1 : ParserState ν) (hc : s.CurTok = s1.CurTok)
    (ht : sameLookups s.BinopPrecedence s1.BinopPrecedence) :
    (GetTokPrecedence s).1 = (GetTokPrecedence s1).1 := by
  have hk : (mapIndex s1.BinopPrecedence (toChar s1.CurTok)).1 =
      (mapIndex s.BinopPrecedence (toChar s.CurTok)).1 := by
    rw [← hc]; exact (ht _).symm
  have ha : isascii s1.CurTok = isascii s.CurTok := by rw [hc]
  rcases GetTokPrecedence_eq s with ⟨a, h⟩ | ⟨a, b, h⟩ | ⟨a, b, h⟩ <;>
    rcases GetTokPrecedence_eq s1 with ⟨a1, h1⟩ | ⟨a1, b1, h1⟩ | ⟨a1, b1, h1⟩ <;>
    simp only [h, h1] <;> rw [ha, a] at a1 <;> first
      | exact absurd a1 (by decide)
      | omega

/-- A token with a positive precedence has its entry in the table, so asking
for its precedence leaves the whole state as it was. -/
theorem GetTokPrecedence_of_pos {ν : Type} (s : ParserState ν)
    (h : 0 < (GetTokPrecedence s).1) : (GetTokPrecedence s).2 = s := by
  rcases GetTokPrecedence_eq s with ⟨_, h1⟩ | ⟨_, _, h1⟩ | ⟨_, b, h1⟩
  · rw [h1]
  · rw [h1] at h; simp only [] at h; omega
  · rw [h1]
    simp only []
    rw [mapIndex_snd_of_ne_zero _ _ (by omega)]

/-- Asking twice gives the same answer and the same state as asking once. -/
theorem GetTokPrecedence_idem {ν : Type} (s : ParserState ν) :
    GetTokPrecedence (GetTokPrecedence s).2 = GetTokPrecedence s := by
  rcases GetTokPrecedence_eq s with ⟨a, h1⟩ | ⟨a, b, h1⟩ | ⟨a, b, h1⟩
  · rw [h1]; exact h1
  · rw [h1]
    simp [GetTokPrecedence, a, b, mapIndex_idem]
  · rw [h1]
    have hb : ¬ (mapIndex s.BinopPrecedence (toChar s.CurTok)).1 ≤ 0 := by omega
    simp [GetTokPrecedence, a, hb, mapIndex_idem]

theorem GetTokPrecedence_range {ν : Type} (s : ParserState ν) :
    (GetTokPrecedence s).1 = -1 ∨ 0 < (GetTokPrecedence s).1 := by
  rcases GetTokPrecedence_eq s with ⟨_, h1⟩ | ⟨_, _, h1⟩ | ⟨_, b, h1⟩ <;> rw [h1]
  · exact Or.inl rfl
  · exact Or.inl rfl
  · exact Or.inr b

/-! ## More fuel never changes a result of the expression parser -/

theorem parse_fuel_succ {ν : Type} (strtod : String → ν) : ∀ n : Nat,
    (∀ s r, ParseParenExpr strtod n s = some r → ParseParenExpr strtod (n + 1) s = some r) ∧
    (∀ a s r, ParseCallArgs strtod n a s = some r → ParseCallArgs strtod (n + 1) a s = some r) ∧
    (∀ s r, ParseIdentifierExpr strtod n s = some r →
      ParseIdentifierExpr strtod (n + 1) s = some r) ∧
    (∀ s r, ParsePrimary strtod n s = some r → ParsePrimary strtod (n + 1) s = some r) ∧
    (∀ p e s r, ParseBinOpRHS strtod n p e s = some r →
      ParseBinOpRHS strtod (n + 1) p e s = some r) ∧
    (∀ s r, ParseExpression strtod n s = some r → ParseExpression strtod (n + 1) s = some r) := by
  intro n
  induction n with
  | zero =>
    refine ⟨?_, ?_, ?_, ?_, ?_, ?_⟩
    · intro s r h; simp [ParseParenExpr] at h
    · intro a s r h; simp [ParseCallArgs] at h
    · intro s r h; simp [ParseIdentifierExpr] at h
    · intro s r h; simp [ParsePrimary] at h
    · intro p e s r h; simp [ParseBinOpRHS] at h
    · intro s r h; simp [ParseExpression] at h
  | succ k ih =>
    obtain ⟨ihParen, ihArgs, ihId, ihPrim, ihBin, ihExpr⟩ := ih
    refine ⟨?_, ?_, ?_, ?_, ?_, ?_⟩
    · intro s r h
      rw [ParseParenExpr] at h ⊢
      cases h1 : getNextToken strtod s with
      | none => simp [h1] at h
      | some s1 =>
        simp only [h1] at h ⊢
        cases h2 : ParseExpression strtod k s1 with
        | none => simp [h2] at h
        | some r2 =>
          rw [ihExpr _ _ h2]
          simp only [h2] at h
          exact h
    · intro a s r h
      rw [ParseCallArgs] at h ⊢
      cases h2 : ParseExpression strtod k s with
      | none => simp [h2] at h
      | some r2 =>
        rw [ihExpr _ _ h2]
        simp only [h2] at h
        obtain ⟨V, s1⟩ := r2
        cases V with
        | none => exact h
        | some Arg =>
          simp only [] at h ⊢
          by_cases c1 : (s1.CurTok == 41) = true
          · simp only [c1, if_true] at h ⊢; exact h
          · simp only [c1, Bool.false_eq_true, if_false] at h ⊢
            by_cases c2 : (s1.CurTok != 44) = true
            · simp only [c2, if_true] at h ⊢; exact h
            · simp only [c2, Bool.false_eq_true, if_false] at h ⊢
              cases h3 : getNextToken strtod s1 with
              | none => simp [h3] at h
              | some s2 =>
                simp only [h3] at h ⊢
                exact ihArgs _ _ _ h
    · intro s r h
      rw [ParseIdentifierExpr] at h ⊢
      cases h1 : getNextToken strtod s with
      | none => simp [h1] at h
      | some s1 =>
        simp only [h1] at h ⊢
        by_cases c1 : (s1.CurTok != 40) = true
        · simp only [c1, if_true] at h ⊢; exact h
        · simp only [c1, Bool.false_eq_true, if_false] at h ⊢
          cases h2 : getNextToken strtod s1 with
          | none => simp [h2] at h
          | some s2 =>
            simp only [h2] at h ⊢
            by_cases c2 : (s2.CurTok != 41) = true
            · simp only [c2, if_true] at h ⊢
              cases h3 : ParseCallArgs strtod k [] s2 with
              | none => simp [h3] at h
              | some r3 =>
                rw [ihArgs _ _ _ h3]
                simp only [h3] at h
                exact h
            · simp only [c2, Bool.false_eq_true, if_false] at h ⊢; exact h
    · intro s r h
      rw [ParsePrimary] at h ⊢
      by_cases c1 : s.CurTok = tok_identifier
      · simp only [c1, if_true] at h ⊢; exact ihId _ _ h
      · simp only [c1, if_false] at h ⊢
        by_cases c2 : s.CurTok = tok_number
        · simp only [c2, if_true] at h ⊢; exact h
        · simp only [c2, if_false] at h ⊢
          by_cases c3 : s.CurTok = 40
          · simp only [c3, if_true] at h ⊢; exact ihParen _ _ h
          · simp only [c3, if_false] at h ⊢; exact h
    · intro p e s r h
      rw [ParseBinOpRHS] at h ⊢
      simp only [] at h ⊢
      by_cases c1 : (GetTokPrecedence s).1 < p
      · simp only [c1, if_true] at h ⊢; exact h
      · simp only [c1, if_false] at h ⊢
        cases h1 : getNextToken strtod (GetTokPrecedence s).2 with
        | none => simp [h1] at h
        | some s2 =>
          simp only [h1] at h ⊢
          cases h2 : ParsePrimary strtod k s2 with
          | none => simp [h2] at h
          | some r2 =>
            rw [ihPrim _ _ h2]
            simp only [h2] at h
            obtain ⟨V, s3⟩ := r2
            cases V with
            | none => exact h
            | some RHS =>
              simp only [] at h ⊢
              by_cases c2 : (GetTokPrecedence s).1 < (GetTokPrecedence s3).1
              · simp only [c2, if_true] at h ⊢
                cases h3 : ParseBinOpRHS strtod k ((GetTokPrecedence s).1 + 1) RHS
                    (GetTokPrecedence s3).2 with
                | none => simp [h3] at h
                | some r3 =>
                  rw [ihBin _ _ _ _ h3]
                  simp only [h3] at h
                  obtain ⟨V1, s5⟩ := r3
                  cases V1 with
                  | none => exact h
                  | some RHS1 => exact ihBin _ _ _ _ h
              · simp only [c2, if_false] at h ⊢
                exact ihBin _ _ _ _ h
    · intro s r h
      rw [ParseExpression] at h ⊢
      cases h2 : ParsePrimary strtod k s with
      | none => simp [h2] at h
      | some r2 =>
        rw [ihPrim _ _ h2]
        simp only [h2] at h
        obtain ⟨V, s1⟩ := r2
        cases V with
        | none => exact h
        | some LHS => exact ihBin _ _ _ _ h

theorem ParsePrimary_fuel {ν : Type} (strtod : String → ν) {n : Nat} {s : ParserState ν}
    {r : Option (ExprAST ν) × ParserState ν} (h : ParsePrimary strtod n s = some r) :
    ∀ m, n ≤ m → ParsePrimary strtod m s = some r := by
  intro m hm
  induction hm with
  | refl => exact h
  | step _ ih => exact (parse_fuel_succ strtod _).2.2.2.1 _ _ ih

theorem ParseExpression_fuel {ν : Type} (strtod : String → ν) {n : Nat} {s : ParserState ν}
    {r : Option (ExprAST ν) × ParserState ν} (h : ParseExpression strtod n s = some r) :
    ∀ m, n ≤ m → ParseExpression strtod m s = some r := by
  intro m hm
  induction hm with
  | refl => exact h
  | step _ ih => exact (parse_fuel_succ strtod _).2.2.2.2.2 _ _ ih

theorem ParseBinOpRHS_fuel {ν : Type} (strtod : String → ν) {n : Nat} {p : Int} {e : ExprAST ν}
    {s : ParserState ν} {r : Option (ExprAST ν) × ParserState ν}
    (h : ParseBinOpRHS strtod n p e s = some r) :
    ∀ m, n ≤ m → ParseBinOpRHS strtod m p e s = some r := by
  intro m hm
  induction hm with
  | refl => exact h
  | step _ ih => exact (parse_fuel_succ strtod _).2.2.2.2.1 _ _ _ _ ih

theorem ParseCallArgs_fuel {ν : Type} (strtod : String → ν) {n : Nat} {a : List (ExprAST ν)}
    {s : ParserState ν} {r : Option (List (ExprAST ν)) × ParserState ν}
    (h : ParseCallArgs strtod n a s = some r) :
    ∀ m, n ≤ m → ParseCallArgs strtod m a s = some r := by
  intro m hm
  induction hm with
  | refl => exact h
  | step _ ih => exact (parse_fuel_succ strtod _).2.1 _ _ _ ih

/-! ## Relating the state after a parse to the state before -/

/-- A transitive relation that holds across `getNextToken`,
`GetTokPrecedence` and `LogError` holds across every function of the
expression parser. -/
theorem parse_preserves {ν : Type} (strtod : String → ν)
    (R : ParserState ν → ParserState ν → Prop)
    (htrans : ∀ s1 s2 s3, R s1 s2 → R s2 s3 → R s1 s3)
    (hnext : ∀ s s1, getNextToken strtod s = some s1 → R s s1)
    (hprec : ∀ s, R s (GetTokPrecedence s).2)
    (hlog : ∀ (msg : String) (s : ParserState ν),
      R s { s with stderr := s.stderr ++ [Output.error msg] }) : ∀ n : Nat,
    (∀ s r, ParseParenExpr strtod n s = some r → R s r.2) ∧
    (∀ a s r, ParseCallArgs strtod n a s = some r → R s r.2) ∧
    (∀ s r, ParseIdentifierExpr strtod n s = some r → R s r.2) ∧
    (∀ s r, ParsePrimary strtod n s = some r → R s r.2) ∧
    (∀ p e s r, ParseBinOpRHS strtod n p e s = some r → R s r.2) ∧
    (∀ s r, ParseExpression strtod n s = some r → R s r.2) := by
  intro n
  induction n with
  | zero =>
    refine ⟨?_, ?_, ?_, ?_, ?_, ?_⟩
    · intro s r h; simp [ParseParenExpr] at h
    · intro a s r h; simp [ParseCallArgs] at h
    · intro s r h; simp [ParseIdentifierExpr] at h
    · intro s r h; simp [ParsePrimary] at h
    · intro p e s r h; simp [ParseBinOpRHS] at h
    · intro s r h; simp [ParseExpression] at h
  | succ k ih =>
    obtain ⟨ihParen, ihArgs, ihId, ihPrim, ihBin, ihExpr⟩ := ih
    refine ⟨?_, ?_, ?_, ?_, ?_, ?_⟩
    · intro s r h
      rw [ParseParenExpr] at h
      cases h1 : getNextToken strtod s with
      | none => simp [h1] at h
      | some s1 =>
        simp only [h1] at h
        have r1 := hnext _ _ h1
        cases h2 : ParseExpression strtod k s1 with
        | none => simp [h2] at h
        | some r2 =>
          have r2' := ihExpr _ _ h2
          simp only [h2] at h
          obtain ⟨V, s2⟩ := r2
          cases V with
          | none =>
            simp only [Option.some.injEq] at h
            rw [← h]; exact htrans _ _ _ r1 r2'
          | some V =>
            simp only [] at h
            by_cases c1 : (s2.CurTok != 41) = true
            · simp only [c1, if_true, LogError, Option.some.injEq] at h
              rw [← h]; exact htrans _ _ _ r1 (htrans _ _ _ r2' (hlog _ _))
            · simp only [c1, Bool.false_eq_true, if_false] at h
              cases h3 : getNextToken strtod s2 with
              | none => simp [h3] at h
              | some s3 =>
                simp only [h3, Option.some.injEq] at h
                rw [← h]; exact htrans _ _ _ r1 (htrans _ _ _ r2' (hnext _ _ h3))
    · intro a s r h
      rw [ParseCallArgs] at h
      cases h2 : ParseExpression strtod k s with
      | none => simp [h2] at h
      | some r2 =>
        have r2' := ihExpr _ _ h2
        simp only [h2] at h
        obtain ⟨V, s1⟩ := r2
        cases V with
        | none =>
          simp only [Option.some.injEq] at h
          rw [← h]; exact r2'
        | some Arg =>
          simp only [] at h
          by_cases c1 : (s1.CurTok == 41) = true
          · simp only [c1, if_true, Option.some.injEq] at h
            rw [← h]; exact r2'
          · simp only [c1, Bool.false_eq_true, if_false] at h
            by_cases c2 : (s1.CurTok != 44) = true
            · simp only [c2, if_true, LogError, Option.some.injEq] at h
              rw [← h]; exact htrans _ _ _ r2' (hlog _ _)
            · simp only [c2, Bool.false_eq_true, if_false] at h
              cases h3 : getNextToken strtod s1 with
              | none => simp [h3] at h
              | some s2 =>
                simp only [h3] at h
                exact htrans _ _ _ r2' (htrans _ _ _ (hnext _ _ h3) (ihArgs _ _ _ h))
    · intro s r h
      rw [ParseIdentifierExpr] at h
      cases h1 : getNextToken strtod s with
      | none => simp [h1] at h
      | some s1 =>
        simp only [h1] at h
        have r1 := hnext _ _ h1
        by_cases c1 : (s1.CurTok != 40) = true
        · simp only [c1, if_true, Option.some.injEq] at h
          rw [← h]; exact r1
        · simp only [c1, Bool.false_eq_true, if_false] at h
          cases h2 : getNextToken strtod s1 with
          | none => simp [h2] at h
          | some s2 =>
            simp only [h2] at h
            have r2 := htrans _ _ _ r1 (hnext _ _ h2)
            by_cases c2 : (s2.CurTok != 41) = true
            · simp only [c2, if_true] at h
              cases h3 : ParseCallArgs strtod k [] s2 with
              | none => simp [h3] at h
              | some r3 =>
                have r3' := htrans _ _ _ r2 (ihArgs _ _ _ h3)
                simp only [h3] at h
                obtain ⟨V, s3⟩ := r3
                cases V with
                | none =>
                  simp only [Option.some.injEq] at h
                  rw [← h]; exact r3'
                | some Args =>
                  simp only [] at h
                  cases h4 : getNextToken strtod s3 with
                  | none => simp [h4] at h
                  | some s4 =>
                    simp only [h4, Option.some.injEq] at h
                    rw [← h]; exact htrans _ _ _ r3' (hnext _ _ h4)
            · simp only [c2, Bool.false_eq_true, if_false] at h
              cases h4 : getNextToken strtod s2 with
              | none => simp [h4] at h
              | some s4 =>
                simp only [h4, Option.some.injEq] at h
                rw [← h]; exact htrans _ _ _ r2 (hnext _ _ h4)
    · intro s r h
      rw [ParsePrimary] at h
      by_cases c1 : s.CurTok = tok_identifier
      · simp only [c1, if_true] at h; exact ihId _ _ h
      · simp only [c1, if_false] at h
        by_cases c2 : s.CurTok = tok_number
        · simp only [c2, if_true, ParseNumberExpr] at h
          cases h1 : getNextToken strtod s with
          | none => simp [h1] at h
          | some s1 =>
            simp only [h1, Option.some.injEq] at h
            rw [← h]; exact hnext _ _ h1
        · simp only [c2, if_false] at h
          by_cases c3 : s.CurTok = 40
          · simp only [c3, if_true] at h; exact ihParen _ _ h
          · simp only [c3, if_false, LogError, Option.some.injEq] at h
            rw [← h]; exact hlog _ _
    · intro p e s r h
      rw [ParseBinOpRHS] at h
      simp only [] at h
      have r0 := hprec s
      by_cases c1 : (GetTokPrecedence s).1 < p
      · simp only [c1, if_true, Option.some.injEq] at h
        rw [← h]; exact r0
      · simp only [c1, if_false] at h
        cases h1 : getNextToken strtod (GetTokPrecedence s).2 with
        | none => simp [h1] at h
        | some s2 =>
          simp only [h1] at h
          have r1 := htrans _ _ _ r0 (hnext _ _ h1)
          cases h2 : ParsePrimary strtod k s2 with
          | none => simp [h2] at h
          | some r2 =>
            have r2' := htrans _ _ _ r1 (ihPrim _ _ h2)
            simp only [h2] at h
            obtain ⟨V, s3⟩ := r2
            cases V with
            | none =>
              simp only [Option.some.injEq] at h
              rw [← h]; exact r2'
            | some RHS =>
              simp only [] at h
              have r3 := htrans _ _ _ r2' (hprec s3)
              by_cases c2 : (GetTokPrecedence s).1 < (GetTokPrecedence s3).1
              · simp only [c2, if_true] at h
                cases h3 : ParseBinOpRHS strtod k ((GetTokPrecedence s).1 + 1) RHS
                    (GetTokPrecedence s3).2 with
                | none => simp [h3] at h
                | some r4 =>
                  have r4' := htrans _ _ _ r3 (ihBin _ _ _ _ h3)
                  simp only [h3] at h
                  obtain ⟨V1, s5⟩ := r4
                  cases V1 with
                  | none =>
                    simp only [Option.some.injEq] at h
                    rw [← h]; exact r4'
                  | some RHS1 => exact htrans _ _ _ r4' (ihBin _ _ _ _ h)
              · simp only [c2, if_false] at h
                exact htrans _ _ _ r3 (ihBin _ _ _ _ h)
    · intro s r h
      rw [ParseExpression] at h
      cases h2 : ParsePrimary strtod k s with
      | none => simp [h2] at h
      | some r2 =>
        have r2' := ihPrim _ _ h2
        simp only [h2] at h
        obtain ⟨V, s1⟩ := r2
        cases V with
        | none =>
          simp only [Option.some.injEq] at h
          rw [← h]; exact r2'
        | some LHS => exact htrans _ _ _ r2' (ihBin _ _ _ _ h)

/-- Across `ParsePrimary` the table keeps yielding the same values. -/
theorem ParsePrimary_sameLookups {ν : Type} (strtod : String → ν) {n : Nat}
    {s : ParserState ν} {r : Option (ExprAST ν) × ParserState ν}
    (h : ParsePrimary strtod n s = some r) :
    sameLookups s.BinopPrecedence r.2.BinopPrecedence :=
  (parse_preserves strtod (fun a b => sameLookups a.BinopPrecedence b.BinopPrecedence)
    (fun _ _ _ => sameLookups_trans)
    (fun a b h => by
      show sameLookups a.BinopPrecedence b.BinopPrecedence
      rw [(getNextToken_table strtod h).1]; exact sameLookups_refl _)
    (fun s => (GetTokPrecedence_fields s).2.2.2)
    (fun _ _ => sameLookups_refl _) n).2.2.2.1 s r h

/-- Across `ParseExpression` the table keeps yielding the same values. -/
theorem ParseExpression_sameLookups {ν : Type} (strtod : String → ν) {n : Nat}
    {s : ParserState ν} {r : Option (ExprAST ν) × ParserState ν}
    (h : ParseExpression strtod n s = some r) :
    sameLookups s.BinopPrecedence r.2.BinopPrecedence :=
  (parse_preserves strtod (fun a b => sameLookups a.BinopPrecedence b.BinopPrecedence)
    (fun _ _ _ => sameLookups_trans)
    (fun a b h => by
      show sameLookups a.BinopPrecedence b.BinopPrecedence
      rw [(getNextToken_table strtod h).1]; exact sameLookups_refl _)
    (fun s => (GetTokPrecedence_fields s).2.2.2)
    (fun _ _ => sameLookups_refl _) n).2.2.2.2.2 s r h

/-! ## One turn of the loop of `ParseBinOpRHS` -/

theorem isascii_of_pos {ν : Type} (s : ParserState ν) (h : 0 < (GetTokPrecedence s).1) :
    isascii s.CurTok = true := by
  rcases GetTokPrecedence_eq s with ⟨_, h1⟩ | ⟨_, _, h1⟩ | ⟨a, _, _⟩
  · rw [h1] at h; simp only [] at h; omega
  · rw [h1] at h; simp only [] at h; omega
  · exact a

theorem toChar_code_of_isascii {c : Char} (h : isascii (code c) = true) :
    toChar (code c) = c := by
  apply toChar_code
  unfold isascii code at h
  simp only [Bool.and_eq_true, decide_eq_true_eq] at h
  omega

/-- The loop stops in front of a token that binds less tightly than `ExprPrec`. -/
theorem ParseBinOpRHS_stop {ν : Type} (strtod : String → ν) (n : Nat) (ExprPrec : Int)
    (LHS : ExprAST ν) (s : ParserState ν) (h : (GetTokPrecedence s).1 < ExprPrec) :
    ParseBinOpRHS strtod (n + 1) ExprPrec LHS s = some (some LHS, (GetTokPrecedence s).2) := by
  rw [ParseBinOpRHS]
  simp only [h, if_true]

/-- A turn that folds at once: the operator after the right operand does not
bind more tightly than the one just consumed. -/
theorem ParseBinOpRHS_fold {ν : Type} (strtod : String → ν) (n : Nat) (ExprPrec : Int)
    (LHS RHS : ExprAST ν) (s s2 s3 : ParserState ν)
    (h : ¬ (GetTokPrecedence s).1 < ExprPrec)
    (hn : getNextToken strtod (GetTokPrecedence s).2 = some s2)
    (hR : ParsePrimary strtod n s2 = some (some RHS, s3))
    (hnext : ¬ (GetTokPrecedence s).1 < (GetTokPrecedence s3).1) :
    ParseBinOpRHS strtod (n + 1) ExprPrec LHS s =
      ParseBinOpRHS strtod n ExprPrec (ExprAST.Binary (toChar s.CurTok) LHS RHS)
        (GetTokPrecedence s3).2 := by
  rw [ParseBinOpRHS]
  simp only [h, if_false, hn, hR, hnext, (GetTokPrecedence_fields s).2.1]

/-- A turn that first lets a tighter operator take the right operand. -/
theorem ParseBinOpRHS_climb {ν : Type} (strtod : String → ν) (n : Nat) (ExprPrec : Int)
    (LHS RHS RHS1 : ExprAST ν) (s s2 s3 s5 : ParserState ν)
    (h : ¬ (GetTokPrecedence s).1 < ExprPrec)
    (hn : getNextToken strtod (GetTokPrecedence s).2 = some s2)
    (hR : ParsePrimary strtod n s2 = some (some RHS, s3))
    (hnext : (GetTokPrecedence s).1 < (GetTokPrecedence s3).1)
    (hrec : ParseBinOpRHS strtod n ((GetTokPrecedence s).1 + 1) RHS (GetTokPrecedence s3).2 =
      some (some RHS1, s5)) :
    ParseBinOpRHS strtod (n + 1) ExprPrec LHS s =
      ParseBinOpRHS strtod n ExprPrec (ExprAST.Binary (toChar s.CurTok) LHS RHS1) s5 := by
  rw [ParseBinOpRHS]
  simp only [h, if_false, hn, hR, hnext, if_true, hrec, (GetTokPrecedence_fields s).2.1]

theorem ParsePrimary_fuel_pos {ν : Type} (strtod : String → ν) {n : Nat} {s : ParserState ν}
    {r : Option (ExprAST ν) × ParserState ν} (h : ParsePrimary strtod n s = some r) :
    0 < n := by
  cases n with
  | zero => simp [ParsePrimary] at h
  | succ n => exact Nat.succ_pos n

/-- The precedence of the current token, read against the table of an earlier
state that yields the same values. -/
theorem GetTokPrecedence_of_sameLookups {ν : Type} (s0 s : ParserState ν) (c : Char)
    (hc : s.CurTok = code c) (ht : sameLookups s0.BinopPrecedence s.BinopPrecedence) :
    (GetTokPrecedence s).1 = (GetTokPrecedence { s0 with CurTok := code c }).1 :=
  (GetTokPrecedence_congr { s0 with CurTok := code c } s hc.symm ht).symm

/-- C1. For every precedence table (that of `s0`) and operator characters `op1`,
`op2` with `0 < prec op1 < prec op2` (the precedences `GetTokPrecedence` reports
for them against that table): when the lookahead is at the start of the token
sequence `a op1 b op2 c` followed by a token of precedence `-1`, that is,
`ParsePrimary` builds `A` for `a` and stops on `op1`, builds `B` for `b` and
stops on `op2`, builds `C` for `c` and stops on a token of precedence `-1`,
then `ParseExpression` returns `Binary(op1, A, Binary(op2, B, C))`, with any
fuel from three above what the primaries need. -/
theorem ParseExpression_higher_precedence_on_right {ν : Type} (strtod : String → ν) (f : Nat)
    (s0 s1 s1n s2 s2n s3 : ParserState ν) (A B C : ExprAST ν) (op1 op2 : Char)
    (hA : ParsePrimary strtod f s0 = some (some A, s1))
    (hop1 : s1.CurTok = code op1)
    (hn1 : getNextToken strtod s1 = some s1n)
    (hB : ParsePrimary strtod f s1n = some (some B, s2))
    (hop2 : s2.CurTok = code op2)
    (hn2 : getNextToken strtod s2 = some s2n)
    (hC : ParsePrimary strtod f s2n = some (some C, s3))
    (hpos : 0 < (GetTokPrecedence { s0 with CurTok := code op1 }).1)
    (hlt : (GetTokPrecedence { s0 with CurTok := code op1 }).1 <
      (GetTokPrecedence { s0 with CurTok := code op2 }).1)
    (hend : (GetTokPrecedence s3).1 = -1) :
    ∀ fuel, f + 3 ≤ fuel →
      ParseExpression strtod fuel s0 =
        some (some (ExprAST.Binary op1 A (ExprAST.Binary op2 B C)), (GetTokPrecedence s3).2) := by
  intro fuel hfuel
  obtain ⟨n, rfl⟩ : ∃ n, fuel = n + 3 := ⟨fuel - 3, by omega⟩
  have hf : 0 < f := ParsePrimary_fuel_pos strtod hA
  obtain ⟨j, hj⟩ : ∃ j, n = j + 1 := ⟨n - 1, by omega⟩
  -- the table yields the same values all along
  have t1 : sameLookups s0.BinopPrecedence s1.BinopPrecedence := ParsePrimary_sameLookups strtod hA
  have t1n : sameLookups s0.BinopPrecedence s1n.BinopPrecedence := by
    rw [(getNextToken_table strtod hn1).1]; exact t1
  have t2 : sameLookups s0.BinopPrecedence s2.BinopPrecedence :=
    sameLookups_trans t1n (ParsePrimary_sameLookups strtod hB)
  have p1 := GetTokPrecedence_of_sameLookups s0 s1 op1 hop1 t1
  have p2 := GetTokPrecedence_of_sameLookups s0 s2 op2 hop2 t2
  rw [← p1] at hpos hlt
  rw [← p2] at hlt
  have e1 : (GetTokPrecedence s1).2 = s1 := GetTokPrecedence_of_pos s1 hpos
  have e2 : (GetTokPrecedence s2).2 = s2 := GetTokPrecedence_of_pos s2 (by omega)
  have c1 : toChar s1.CurTok = op1 := by
    have := isascii_of_pos s1 hpos
    rw [hop1] at this ⊢
    exact toChar_code_of_isascii this
  have c2 : toChar s2.CurTok = op2 := by
    have := isascii_of_pos s2 (by omega)
    rw [hop2] at this ⊢
    exact toChar_code_of_isascii this
  have i3 := GetTokPrecedence_idem s3
  -- the inner call climbs over `op2` and stops
  have inner : ParseBinOpRHS strtod (n + 1) ((GetTokPrecedence s1).1 + 1) B s2 =
      some (some (ExprAST.Binary op2 B C), (GetTokPrecedence s3).2) := by
    rw [ParseBinOpRHS_fold strtod n _ B C s2 s2n s3 (by omega) (by rw [e2]; exact hn2)
      (ParsePrimary_fuel strtod hC n (by omega)) (by omega), c2, hj]
    rw [ParseBinOpRHS_stop strtod j _ _ _ (by rw [i3]; omega), i3]
  rw [ParseExpression, ParsePrimary_fuel strtod hA (n + 2) (by omega)]
  simp only []
  rw [ParseBinOpRHS_climb strtod (n + 1) 0 A B (ExprAST.Binary op2 B C) s1 s1n s2
    (GetTokPrecedence s3).2 (by omega) (by rw [e1]; exact hn1)
    (ParsePrimary_fuel strtod hB (n + 1) (by omega)) hlt (by rw [e2]; exact inner), c1]
  rw [ParseBinOpRHS_stop strtod n _ _ _ (by rw [i3]; omega), i3]

/-- C2. For every precedence table (that of `s0`) and operator characters `op1`,
`op2` with `prec op1 ≥ prec op2 > 0` (in particular `op1 = op2`; the precedences
are those `GetTokPrecedence` reports against that table): when the lookahead
is at the start of the token sequence `a op1 b op2 c` followed by a token of
precedence `-1`, that is, `ParsePrimary` builds `A` for `a` and stops on `op1`,
builds `B` for `b` and stops on `op2`, builds `C` for `c` and stops on a token
of precedence `-1`, then `ParseExpression` returns
`Binary(op2, Binary(op1, A, B), C)`: equal precedence associates to the left. -/
theorem ParseExpression_left_associative {ν : Type} (strtod : String → ν) (f : Nat)
    (s0 s1 s1n s2 s2n s3 : ParserState ν) (A B C : ExprAST ν) (op1 op2 : Char)
    (hA : ParsePrimary strtod f s0 = some (some A, s1))
    (hop1 : s1.CurTok = code op1)
    (hn1 : getNextToken strtod s1 = some s1n)
    (hB : ParsePrimary strtod f s1n = some (some B, s2))
    (hop2 : s2.CurTok = code op2)
    (hn2 : getNextToken strtod s2 = some s2n)
    (hC : ParsePrimary strtod f s2n = some (some C, s3))
    (hpos : 0 < (GetTokPrecedence { s0 with CurTok := code op2 }).1)
    (hge : (GetTokPrecedence { s0 with CurTok := code op2 }).1 ≤
      (GetTokPrecedence { s0 with CurTok := code op1 }).1)
    (hend : (GetTokPrecedence s3).1 = -1) :
    ∀ fuel, f + 3 ≤ fuel →
      ParseExpression strtod fuel s0 =
        some (some (ExprAST.Binary op2 (ExprAST.Binary op1 A B) C), (GetTokPrecedence s3).2) := by
  intro fuel hfuel
  obtain ⟨n, rfl⟩ : ∃ n, fuel = n + 3 := ⟨fuel - 3, by omega⟩
  have hf : 0 < f := ParsePrimary_fuel_pos strtod hA
  have t1 : sameLookups s0.BinopPrecedence s1.BinopPrecedence := ParsePrimary_sameLookups strtod hA
  have t1n : sameLookups s0.BinopPrecedence s1n.BinopPrecedence := by
    rw [(getNextToken_table strtod hn1).1]; exact t1
  have t2 : sameLookups s0.BinopPrecedence s2.BinopPrecedence :=
    sameLookups_trans t1n (ParsePrimary_sameLookups strtod hB)
  have p1 := GetTokPrecedence_of_sameLookups s0 s1 op1 hop1 t1
  have p2 := GetTokPrecedence_of_sameLookups s0 s2 op2 hop2 t2
  rw [← p2] at hpos hge
  rw [← p1] at hge
  have e1 : (GetTokPrecedence s1).2 = s1 := GetTokPrecedence_of_pos s1 (by omega)
  have e2 : (GetTokPrecedence s2).2 = s2 := GetTokPrecedence_of_pos s2 hpos
  have c1 : toChar s1.CurTok = op1 := by
    have := isascii_of_pos s1 (by omega)
    rw [hop1] at this ⊢
    exact toChar_code_of_isascii this
  have c2 : toChar s2.CurTok = op2 := by
    have := isascii_of_pos s2 hpos
    rw [hop2] at this ⊢
    exact toChar_code_of_isascii this
  have i3 := GetTokPrecedence_idem s3
  rw [ParseExpression, ParsePrimary_fuel strtod hA (n + 2) (by omega)]
  simp only []
  rw [ParseBinOpRHS_fold strtod (n + 1) 0 A B s1 s1n s2 (by omega) (by rw [e1]; exact hn1)
    (ParsePrimary_fuel strtod hB (n + 1) (by omega)) (by omega), c1, e2]
  rw [ParseBinOpRHS_fold strtod n 0 _ C s2 s2n s3 (by omega) (by rw [e2]; exact hn2)
    (ParsePrimary_fuel strtod hC n (by omega)) (by omega), c2]
  obtain ⟨j, rfl⟩ : ∃ j, n = j + 1 := ⟨n - 1, by omega⟩
  rw [ParseBinOpRHS_stop strtod j _ _ _ (by rw [i3]; omega), i3]

/-! ## Calls and prototypes -/

/-- The argument loop collects the trees of a well-formed argument list in
order, after those it already holds. -/
theorem ParseCallArgs_of_CallArguments {ν : Type} (strtod : String → ν) (f : Nat)
    {s e : ParserState ν} {ts : List (ExprAST ν)} (h : CallArguments strtod f s ts e) :
    ∀ (n : Nat) (acc : List (ExprAST ν)), f + ts.length ≤ n →
      ParseCallArgs strtod n acc s = some (some (acc ++ ts), e) := by
  induction h with
  | last hE hrp =>
    intro n acc hn
    obtain ⟨k, rfl⟩ : ∃ k, n = k + 1 := ⟨n - 1, by simp at hn; omega⟩
    rw [ParseCallArgs, ParseExpression_fuel strtod hE k (by simp at hn; omega)]
    simp [hrp]
  | more hE hcomma hnext _ ih =>
    intro n acc hn
    obtain ⟨k, rfl⟩ : ∃ k, n = k + 1 := ⟨n - 1, by simp at hn; omega⟩
    rw [ParseCallArgs, ParseExpression_fuel strtod hE k (by simp at hn; omega)]
    simp only [hcomma, hnext]
    rw [ih k _ (by simp at hn ⊢; omega)]
    simp

/-- An expression cannot start with `')'`. -/
theorem ParseExpression_not_rparen {ν : Type} (strtod : String → ν) {n : Nat}
    {s s1 : ParserState ν} {t : ExprAST ν} (h : ParseExpression strtod n s = some (some t, s1)) :
    s.CurTok ≠ 41 := by
  intro hc
  cases n with
  | zero => simp [ParseExpression] at h
  | succ n =>
    rw [ParseExpression] at h
    cases n with
    | zero => simp [ParsePrimary] at h
    | succ n =>
      rw [ParsePrimary] at h
      simp [hc, tok_identifier, tok_number, LogError] at h

theorem CallArguments_not_rparen {ν : Type} (strtod : String → ν) {f : Nat}
    {s e : ParserState ν} {ts : List (ExprAST ν)} (h : CallArguments strtod f s ts e) :
    s.CurTok ≠ 41 := by
  cases h with
  | last hE _ => exact ParseExpression_not_rparen strtod hE
  | more hE _ _ _ => exact ParseExpression_not_rparen strtod hE

/-- The parameter loop collects the identifiers in order, after those it
already holds. -/
theorem ParsePrototypeArgs_of_ParameterNames {ν : Type} (strtod : String → ν)
    {s e : ParserState ν} {ps : List String} (h : ParameterNames strtod s ps e) :
    ∀ (n : Nat) (acc : List String), ps.length + 1 ≤ n →
      ParsePrototypeArgs strtod n acc s = some (acc ++ ps, e) := by
  induction h with
  | done hnext hne =>
    intro n acc hn
    obtain ⟨k, rfl⟩ : ∃ k, n = k + 1 := ⟨n - 1, by omega⟩
    rw [ParsePrototypeArgs]
    simp [hnext, hne]
  | param hnext hid _ ih =>
    intro n acc hn
    obtain ⟨k, rfl⟩ : ∃ k, n = k + 1 := ⟨n - 1, by omega⟩
    rw [ParsePrototypeArgs]
    simp only [hnext, hid, if_true]
    rw [ih k _ (by simp at hn ⊢; omega)]
    simp

/-- C3. With the lookahead on an identifier `f` that is followed by `'('`, then
by `n ≥ 0` argument expressions separated by `','` that `ParseExpression`
parses to `t_1 .. t_n` (each one completely: up to its `','` or the closing
`')'`), then by `')'`: `ParsePrimary` returns `Call(f, [t_1, .., t_n])`, the
arguments in source order, and leaves the lookahead on the token after `')'`. -/
theorem ParsePrimary_call {ν : Type} (strtod : String → ν) (f : Nat)
    (s0 s1 s2 e e1 : ParserState ν) (ts : List (ExprAST ν))
    (hid : s0.CurTok = tok_identifier)
    (hn0 : getNextToken strtod s0 = some s1) (hlp : s1.CurTok = 40)
    (hn1 : getNextToken strtod s1 = some s2)
    (hargs : (ts = [] ∧ s2.CurTok = 41 ∧ e = s2) ∨ CallArguments strtod f s2 ts e)
    (hn2 : getNextToken strtod e = some e1) :
    ∀ fuel, f + ts.length + 2 ≤ fuel →
      ParsePrimary strtod fuel s0 =
        some (some (ExprAST.Call s0.lexer.IdentifierStr ts), e1) := by
  intro fuel hfuel
  obtain ⟨n, rfl⟩ : ∃ n, fuel = n + 2 := ⟨fuel - 2, by omega⟩
  rw [ParsePrimary]
  simp only [hid, if_true]
  rw [ParseIdentifierExpr]
  simp only [hn0, hlp, hn1]
  rcases hargs with ⟨rfl, hrp, rfl⟩ | hargs
  · simp [hrp, hn2]
  · have hne := CallArguments_not_rparen strtod hargs
    rw [ParseCallArgs_of_CallArguments strtod f hargs n [] (by omega)]
    simp [hne, hn2]

/-! ## The lexer: keywords, comments, numbers, end of input, totality -/

/-- C5. For every input whose first non-whitespace character is a letter (the
characters still to come, retained one first, are a whitespace run `ws`, a
letter `c0`, a run `w` of letters and digits, and a rest that does not start
with a letter or digit), `gettok` sets the identifier payload to the maximal
run `c0 :: w` and returns `tok_def` iff the run is exactly `def`, `tok_extern`
iff it is exactly `extern`, and `tok_identifier` for every other run. -/
theorem gettok_identifier_or_keyword {ν : Type} (strtod : String → ν) (s : LexState ν)
    (c c0 : Char) (ws w rest : List Char) (hlast : s.LastChar = code c)
    (hstream : c :: s.stdin = ws ++ (c0 :: w) ++ rest)
    (hws : ∀ x ∈ ws, isspace (code x) = true)
    (h0 : isalpha (code c0) = true) (hw : ∀ x ∈ w, isalnum (code x) = true)
    (hrest : ∀ x, rest.head? = some x → isalnum (code x) = false) :
    ∃ t, gettok strtod s =
        some (t, { s with LastChar := (getchar rest).1, stdin := (getchar rest).2,
                          IdentifierStr := String.mk (c0 :: w) }) ∧
      (t = tok_def ↔ String.mk (c0 :: w) = "def") ∧
      (t = tok_extern ↔ String.mk (c0 :: w) = "extern") ∧
      (String.mk (c0 :: w) ≠ "def" → String.mk (c0 :: w) ≠ "extern" → t = tok_identifier) := by
  refine ⟨_, gettok_word strtod s c c0 ws w rest hlast hstream hws h0 hw hrest, ?_, ?_, ?_⟩
  · by_cases hd : String.mk (c0 :: w) = "def"
    · simp [hd]
    · by_cases he : String.mk (c0 :: w) = "extern"
      · simp [hd, he, tok_def, tok_extern]
      · simp [hd, he, tok_def, tok_identifier]
  · by_cases hd : String.mk (c0 :: w) = "def"
    · simp [hd, tok_def, tok_extern]
    · by_cases he : String.mk (c0 :: w) = "extern"
      · simp [hd, he]
      · simp [hd, he, tok_extern, tok_identifier]
  · intro hd he
    simp [hd, he]

/-- C5, witness: `define` and `externally` lex to `tok_identifier`, with the
whole word as the payload. -/
theorem gettok_identifier_or_keyword_witness :
    gettok (fun x => x) (LexState.init "" "define".toList) =
        some (tok_identifier, ⟨EOF, [], "", "define"⟩) ∧
      gettok (fun x => x) (LexState.init "" "externally".toList) =
        some (tok_identifier, ⟨EOF, [], "", "externally"⟩) := by
  obtain ⟨t, h, _, _, hid⟩ :=
    gettok_identifier_or_keyword (fun x => x) (LexState.init "" "define".toList) ' ' 'd' [' ']
      "efine".toList [] rfl rfl (by decide) (by decide) (by decide) (by simp)
  obtain ⟨t1, h1, _, _, hid1⟩ :=
    gettok_identifier_or_keyword (fun x => x) (LexState.init "" "externally".toList) ' ' 'e'
      [' '] "xternally".toList [] rfl rfl (by decide) (by decide) (by decide) (by simp)
  rw [hid (by decide) (by decide)] at h
  rw [hid1 (by decide) (by decide)] at h1
  exact ⟨h, h1⟩

/-- C6. A comment produces no token of its own: for every comment body without
`'\n'` and `'\r'` and every remaining input `rest`, `gettok` from the initial
state on `'#' ++ body ++ "\n" ++ rest` returns, and returns the same token
and the same state (so the same payloads) as from the initial state on `rest`. -/
theorem gettok_comment {ν : Type} (strtod : String → ν) (zero : ν) (body rest : List Char)
    (hbody : ∀ c ∈ body, c ≠ '\n' ∧ c ≠ '\r') :
    ∃ r, gettok strtod (LexState.init zero ('#' :: (body ++ '\n' :: rest))) = some r ∧
      gettok strtod (LexState.init zero rest) = some r := by
  obtain ⟨t, s1, h, _⟩ := gettokAux_total strtod (rest.length + 1) (LexState.init zero rest)
    (Nat.lt_succ_self _)
  refine ⟨(t, s1), ?_, h⟩
  have hsk : skipSpace 32 ('#' :: (body ++ '\n' :: rest)) = (35, body ++ '\n' :: rest) := by
    simp only [skipSpace]
    rw [if_pos (by decide)]
    exact skipSpace_of_not_isspace (by decide) _
  have hstep := gettokAux_after_comment strtod ((body ++ '\n' :: rest).length + 1)
    (LexState.init zero ('#' :: (body ++ '\n' :: rest))) (body ++ '\n' :: rest) 10 rest hsk
    (skipComment_run body hbody rest) (by decide)
  have hfuel := gettokAux_fuel strtod ((body ++ '\n' :: rest).length + 1)
    { LexState.init zero ('#' :: (body ++ '\n' :: rest)) with LastChar := 10, stdin := rest }
    (by simp; omega) (rest.length + 1) (by simp)
  have hcongr := gettokAux_congr strtod rest.length 10 32 rest rest zero ""
    (skipSpace_of_isspace (by decide) (by decide) rest)
  show gettokAux strtod ((body ++ '\n' :: rest).length + 1 + 1) _ = _
  rw [hstep, hfuel]
  exact hcongr.trans h

/-- C6, witness: `# comment\n42` yields `tok_number` with the payload of `42`,
because `42` alone does. -/
theorem gettok_comment_witness :
    gettok (fun x => x) (LexState.init "" "# comment\n42".toList) =
      some (tok_number, ⟨EOF, [], "42", ""⟩) := by
  obtain ⟨r, h1, h2⟩ :=
    gettok_comment (fun x => x) "" " comment".toList "42".toList (by decide)
  have h3 : gettok (fun x => x) (LexState.init "" "42".toList) =
      some (tok_number, ⟨EOF, [], "42", ""⟩) := rfl
  rw [h3] at h2
  rw [← h2] at h1
  exact h1

/-- C7. For every input whose first non-whitespace character is a digit or
`'.'` (the characters still to come, retained one first, are a whitespace run
`ws`, a non-empty run `c0 :: w` of digits and dots, and a rest that does not
start with a digit or dot), `gettok` returns `tok_number`, sets the numeric
payload to `strtod` of exactly that run, and retains the character after the
run unconsumed. -/
theorem gettok_number {ν : Type} (strtod : String → ν) (s : LexState ν) (c c0 : Char)
    (ws w rest : List Char) (hlast : s.LastChar = code c)
    (hstream : c :: s.stdin = ws ++ (c0 :: w) ++ rest)
    (hws : ∀ x ∈ ws, isspace (code x) = true)
    (h0 : (isdigit (code c0) || code c0 == 46) = true)
    (hw : ∀ x ∈ w, (isdigit (code x) || code x == 46) = true)
    (hrest : ∀ x, rest.head? = some x → (isdigit (code x) || code x == 46) = false) :
    gettok strtod s =
      some (tok_number,
        { s with LastChar := (getchar rest).1, stdin := (getchar rest).2,
                 NumVal := strtod (String.mk (c0 :: w)) }) :=
  gettok_numeral strtod s c c0 ws w rest hlast hstream hws h0 hw hrest

/-- C7, witness: `1.2.3` is not rejected; it lexes to `tok_number` with the
payload `strtod "1.2.3"` (here `strtod` is the identity, so the payload shows
the text that was handed over). -/
theorem gettok_number_witness :
    gettok (fun x => x) (LexState.init "" "1.2.3".toList) =
      some (tok_number, ⟨EOF, [], "1.2.3", ""⟩) :=
  gettok_number (fun x => x) (LexState.init "" "1.2.3".toList) ' ' '1' [' '] ".2.3".toList []
    rfl rfl (by decide) (by decide) (by decide) (by simp)

/-- C8. Once a call of `gettok` has returned `tok_eof`, every later call (the
last of `n + 1` further calls, for every `n`) returns `tok_eof` again and
leaves the lexer state (retained character, unread input, both payloads) as
the first one left it. -/
theorem gettok_eof_idempotent {ν : Type} (strtod : String → ν) (s s1 : LexState ν)
    (h : gettok strtod s = some (tok_eof, s1)) :
    ∀ n, gettokNth strtod n s1 = some (tok_eof, s1) := by
  have h1 : gettok strtod s1 = some (tok_eof, s1) :=
    gettok_at_EOF strtod s1 (gettokAux_eof strtod _ s s1 h)
  intro n
  induction n with
  | zero => exact h1
  | succ n ih => simp only [gettokNth, h1, ih]

/-- C8, witness: on the empty input the first call returns `tok_eof`, and so do
the next call and the one after it, the state staying the same. -/
theorem gettok_eof_idempotent_witness :
    gettok (fun x => x) (LexState.init "" []) = some (tok_eof, ⟨EOF, [], "", ""⟩) ∧
      gettokNth (fun x => x) 0 ⟨EOF, [], "", ""⟩ = some (tok_eof, ⟨EOF, [], "", ""⟩) ∧
      gettokNth (fun x => x) 1 ⟨EOF, [], "", ""⟩ = some (tok_eof, ⟨EOF, [], "", ""⟩) :=
  ⟨rfl,
    gettok_eof_idempotent (fun x => x) (LexState.init "" []) ⟨EOF, [], "", ""⟩ rfl 0,
    gettok_eof_idempotent (fun x => x) (LexState.init "" []) ⟨EOF, [], "", ""⟩ rfl 1⟩

/-- C10. The function `gettok` is total: for every lexer state (so every finite
input) it returns, with the fuel it is given and with any larger amount, and
the token is `tok_eof`, `tok_def`, `tok_extern`, `tok_identifier`,
`tok_number`, or the code of a single character of the input (the retained
one or an unread one). There is no failure result. -/
theorem gettok_total {ν : Type} (strtod : String → ν) (s : LexState ν) :
    ∃ t s1, gettok strtod s = some (t, s1) ∧
      (∀ fuel, s.stdin.length < fuel → gettokAux strtod fuel s = some (t, s1)) ∧
      (t = tok_eof ∨ t = tok_def ∨ t = tok_extern ∨ t = tok_identifier ∨ t = tok_number ∨
        t = s.LastChar ∨ ∃ c ∈ s.stdin, t = code c) := by
  obtain ⟨t, s1, h, hk⟩ := gettokAux_total strtod (s.stdin.length + 1) s (Nat.lt_succ_self _)
  refine ⟨t, s1, h, ?_, hk⟩
  intro fuel hfuel
  rw [gettokAux_fuel strtod fuel s hfuel (s.stdin.length + 1) (Nat.lt_succ_self _)]
  exact h

/-! ## Lexing punctuation, and a prototype from its text -/

/-- A character that is neither whitespace, a letter, a digit, `'.'` nor `'#'`
is returned as its own code, and the character after it is retained. -/
theorem gettok_punct {ν : Type} (strtod : String → ν) (s : LexState ν) (c c0 : Char)
    (ws rest : List Char) (hlast : s.LastChar = code c)
    (hstream : c :: s.stdin = ws ++ c0 :: rest)
    (hws : ∀ x ∈ ws, isspace (code x) = true)
    (hsp : isspace (code c0) = false) (hal : isalpha (code c0) = false)
    (hnum : (isdigit (code c0) || code c0 == 46) = false) (hco : (code c0 == 35) = false) :
    gettok strtod s =
      some (code c0, { s with LastChar := (getchar rest).1, stdin := (getchar rest).2 }) := by
  have hsk : skipSpace s.LastChar s.stdin = (code c0, rest) := by
    rw [hlast]
    exact skipSpace_run ws hws c0 hsp rest c s.stdin hstream
  have hne : (code c0 == EOF) = false := by
    simpa using code_ne_EOF c0
  simp only [gettok, gettokAux, hsk, hal, hnum, hco, Bool.false_eq_true, if_false, gettokChar,
    hne]

theorem isWhitespaceText_mem {ws : List Char} (h : isWhitespaceText ws = true) :
    ∀ x ∈ ws, isspace (code x) = true := by
  simpa [isWhitespaceText] using h

theorem isIdentifierText_cases {p : List Char} (h : isIdentifierText p = true) :
    ∃ c0 w, p = c0 :: w ∧ isalpha (code c0) = true ∧ (∀ x ∈ w, isalnum (code x) = true) ∧
      String.mk (c0 :: w) ≠ "def" ∧ String.mk (c0 :: w) ≠ "extern" := by
  cases p with
  | nil => simp [isIdentifierText] at h
  | cons c0 w =>
    simp only [isIdentifierText, Bool.and_eq_true, List.all_eq_true, decide_eq_true_eq] at h
    exact ⟨c0, w, rfl, h.1.1.1, h.1.1.2, h.1.2, h.2⟩

/-- Lexing a non-keyword identifier that is followed by something else than a
letter or digit: `getNextToken` makes it the lookahead. -/
theorem getNextToken_identifier {ν : Type} (strtod : String → ν) (s : ParserState ν) (c : Char)
    (ws p rest : List Char) (hlast : s.lexer.LastChar = code c)
    (hstream : c :: s.lexer.stdin = ws ++ p ++ rest)
    (hws : isWhitespaceText ws = true) (hp : isIdentifierText p = true)
    (hrest : ∀ x, rest.head? = some x → isalnum (code x) = false) :
    getNextToken strtod s =
      some { s with lexer := lexerAt s.lexer (String.mk p) rest, CurTok := tok_identifier } := by
  obtain ⟨c0, w, rfl, h0, hw, hd, he⟩ := isIdentifierText_cases hp
  have h := gettok_word strtod s.lexer c c0 ws w rest hlast hstream (isWhitespaceText_mem hws)
    h0 hw hrest
  rw [if_neg hd, if_neg he] at h
  simp only [getNextToken, h, lexerAt]

/-- Lexing `'('` or `')'`: `getNextToken` makes it the lookahead. -/
theorem getNextToken_paren {ν : Type} (strtod : String → ν) (s : ParserState ν) (c c0 : Char)
    (ws rest : List Char) (hlast : s.lexer.LastChar = code c)
    (hstream : c :: s.lexer.stdin = ws ++ c0 :: rest)
    (hws : isWhitespaceText ws = true) (hc0 : c0 = '(' ∨ c0 = ')') :
    getNextToken strtod s =
      some { s with lexer := lexerAt s.lexer s.lexer.IdentifierStr rest, CurTok := code c0 } := by
  have h := gettok_punct strtod s.lexer c c0 ws rest hlast hstream (isWhitespaceText_mem hws)
    (by rcases hc0 with rfl | rfl <;> decide) (by rcases hc0 with rfl | rfl <;> decide)
    (by rcases hc0 with rfl | rfl <;> decide) (by rcases hc0 with rfl | rfl <;> decide)
  simp only [getNextToken, h, lexerAt]

theorem isspace_not_isalnum {i : Int} (h : isspace i = true) : isalnum i = false := by
  unfold isspace at h
  unfold isalnum isalpha isdigit
  simp only [Bool.or_eq_true, Bool.and_eq_true, decide_eq_true_eq, beq_iff_eq] at h
  simp only [Bool.or_eq_false_iff, Bool.and_eq_false_iff, decide_eq_false_iff_not]
  omega

/-- Whitespace and then `')'` does not start with a letter or digit. -/
theorem head_close_not_isalnum (ws rest : List Char) (hws : isWhitespaceText ws = true) :
    ∀ x, (ws ++ ')' :: rest).head? = some x → isalnum (code x) = false := by
  intro x hx
  cases ws with
  | nil =>
    simp only [List.nil_append, List.head?_cons, Option.some.injEq] at hx
    subst hx; decide
  | cons a ws =>
    simp only [List.cons_append, List.head?_cons, Option.some.injEq] at hx
    subst hx
    exact isspace_not_isalnum (isWhitespaceText_mem hws _ (List.mem_cons_self _ _))

/-- The text of a well-separated parameter list, closed by `')'`, is read by
the parameter loop as exactly the names of the list, in order. -/
theorem ParameterNames_of_text {ν : Type} (strtod : String → ν)
    (wsEnd rest : List Char) (hwsEnd : isWhitespaceText wsEnd = true) :
    ∀ (params : List (List Char × List Char)), parametersSeparated params = true →
      ∀ (s : ParserState ν) (c : Char), s.lexer.LastChar = code c →
        c :: s.lexer.stdin = parameterText params ++ (wsEnd ++ ')' :: rest) →
        ParameterNames strtod s (params.map (fun p => String.mk p.2))
          (s.movedTo 41 (lastName s.lexer.IdentifierStr params) rest) := by
  intro params
  induction params with
  | nil =>
    intro _ s c hlast hstream
    have h := getNextToken_paren strtod s c ')' wsEnd rest hlast
      (by simpa [parameterText] using hstream) hwsEnd (Or.inr rfl)
    exact ParameterNames.done h (by show (41 : Int) ≠ tok_identifier; decide)
  | cons a tail ih =>
    intro hsep s c hlast hstream
    obtain ⟨ws, p⟩ := a
    -- what follows the first name does not start with a letter or digit
    have hparts : isWhitespaceText ws = true ∧ isIdentifierText p = true ∧
        parametersSeparated tail = true ∧
        ∀ x, (parameterText tail ++ (wsEnd ++ ')' :: rest)).head? = some x →
          isalnum (code x) = false := by
      cases tail with
      | nil =>
        simp only [parametersSeparated, Bool.and_eq_true] at hsep
        exact ⟨hsep.1, hsep.2, rfl, by
          simpa [parameterText] using head_close_not_isalnum wsEnd rest hwsEnd⟩
      | cons b tail1 =>
        obtain ⟨ws1, p1⟩ := b
        simp only [parametersSeparated, Bool.and_eq_true, Bool.not_eq_true',
          List.isEmpty_eq_false] at hsep
        refine ⟨hsep.1.1.1, hsep.1.1.2, hsep.2, ?_⟩
        have hws1 : isWhitespaceText ws1 = true := by
          have := hsep.2
          cases tail1 with
          | nil => simp only [parametersSeparated, Bool.and_eq_true] at this; exact this.1
          | cons b2 t2 =>
            obtain ⟨ws2, p2⟩ := b2
            simp only [parametersSeparated, Bool.and_eq_true] at this; exact this.1.1.1
        intro x hx
        cases ws1 with
        | nil => exact absurd rfl hsep.1.2
        | cons a1 ws1 =>
          simp only [parameterText, List.cons_append, List.head?_cons,
            Option.some.injEq] at hx
          subst hx
          exact isspace_not_isalnum (isWhitespaceText_mem hws1 _ (List.mem_cons_self _ _))
    obtain ⟨hws, hp, hsep1, hhead⟩ := hparts
    have h1 := getNextToken_identifier strtod s c ws p
      (parameterText tail ++ (wsEnd ++ ')' :: rest)) hlast
      (by rw [hstream]; simp [parameterText]) hws hp hhead
    -- the remaining text is not empty: it holds the closing parenthesis
    obtain ⟨r, rr, hr⟩ : ∃ r rr, parameterText tail ++ (wsEnd ++ ')' :: rest) = r :: rr := by
      cases h : parameterText tail ++ (wsEnd ++ ')' :: rest) with
      | nil => simp at h
      | cons r rr => exact ⟨r, rr, rfl⟩
    have ih1 := ih hsep1
      { s with lexer := lexerAt s.lexer (String.mk p)
                 (parameterText tail ++ (wsEnd ++ ')' :: rest)),
               CurTok := tok_identifier } r
      (by simp only [hr]; rfl) (by simp only [hr]; rfl)
    exact ParameterNames.param h1 rfl ih1

/-- On tokens: `def`, an identifier, `'('`, identifiers, `')'` and a body give
the function with that name, those parameters and that body. -/
theorem ParseDefinition_of_tokens {ν : Type} (strtod : String → ν) (f : Nat)
    (s0 s1 s2 e sb sEnd : ParserState ν) (ps : List String) (t : ExprAST ν)
    (hn0 : getNextToken strtod s0 = some s1) (hname : s1.CurTok = tok_identifier)
    (hn1 : getNextToken strtod s1 = some s2) (hlp : s2.CurTok = 40)
    (hps : ParameterNames strtod s2 ps e) (hrp : e.CurTok = 41)
    (hn2 : getNextToken strtod e = some sb)
    (hbody : ParseExpression strtod f sb = some (some t, sEnd)) :
    ∀ fuel, f + ps.length + 1 ≤ fuel →
      ParseDefinition strtod fuel s0 =
        some (some { Proto := { Name := s1.lexer.IdentifierStr, Args := ps }, Body := t },
          sEnd) := by
  intro fuel hfuel
  unfold ParseDefinition ParsePrototype
  simp only [hn0, hname, hn1, hlp]
  rw [ParsePrototypeArgs_of_ParameterNames strtod hps fuel [] (by omega)]
  simp [hrp, hn2, ParseExpression_fuel strtod hbody fuel (by omega)]

/-- C4. With the lookahead on the `def` token of `def f(p_1 ... p_n) body`: for
every non-keyword identifier `f`, every list of non-keyword identifiers
`p_1 .. p_n` (`n ≥ 0`) separated by whitespace only, and every body that
`ParseExpression` parses to a tree `t` (from the state in which the closing
`')'` is the lookahead, one `getNextToken` leads to `sb`, where the body is
parsed), `ParseDefinition` returns the function whose prototype has the name
`f` and exactly the parameters `[p_1, .., p_n]` in order, and whose body is `t`. -/
theorem ParseDefinition_ok {ν : Type} (strtod : String → ν) (s0 : ParserState ν) (c : Char)
    (ws0 fname ws1 wsEnd rest : List Char) (params : List (List Char × List Char))
    (fb : Nat) (sb sEnd : ParserState ν) (t : ExprAST ν)
    (hlast : s0.lexer.LastChar = code c)
    (hstream : c :: s0.lexer.stdin =
      ws0 ++ fname ++ ws1 ++ '(' :: (parameterText params ++ (wsEnd ++ ')' :: rest)))
    (hws0 : isWhitespaceText ws0 = true) (hf : isIdentifierText fname = true)
    (hws1 : isWhitespaceText ws1 = true) (hsep : parametersSeparated params = true)
    (hwsEnd : isWhitespaceText wsEnd = true)
    (hsb : getNextToken strtod (s0.movedTo 41 (lastName (String.mk fname) params) rest) = some sb)
    (hbody : ParseExpression strtod fb sb = some (some t, sEnd)) :
    ∀ fuel, fb + params.length + 1 ≤ fuel →
      ParseDefinition strtod fuel s0 =
        some (some { Proto := { Name := String.mk fname,
                                Args := params.map (fun p => String.mk p.2) },
                     Body := t }, sEnd) := by
  -- the name
  have h1 := getNextToken_identifier strtod s0 c ws0 fname
    (ws1 ++ '(' :: (parameterText params ++ (wsEnd ++ ')' :: rest))) hlast
    (by rw [hstream]; simp) hws0 hf (by
      intro x hx
      cases ws1 with
      | nil =>
        simp only [List.nil_append, List.head?_cons, Option.some.injEq] at hx
        subst hx; decide
      | cons a ws1 =>
        simp only [List.cons_append, List.head?_cons, Option.some.injEq] at hx
        subst hx
        exact isspace_not_isalnum (isWhitespaceText_mem hws1 _ (List.mem_cons_self _ _)))
  -- the opening parenthesis
  obtain ⟨r1, rr1, hr1⟩ :
      ∃ r rr, ws1 ++ '(' :: (parameterText params ++ (wsEnd ++ ')' :: rest)) = r :: rr := by
    cases h : ws1 ++ '(' :: (parameterText params ++ (wsEnd ++ ')' :: rest)) with
    | nil => simp at h
    | cons r rr => exact ⟨r, rr, rfl⟩
  have h2 := getNextToken_paren strtod
    { s0 with lexer := lexerAt s0.lexer (String.mk fname)
                (ws1 ++ '(' :: (parameterText params ++ (wsEnd ++ ')' :: rest))),
              CurTok := tok_identifier } r1 '(' ws1
    (parameterText params ++ (wsEnd ++ ')' :: rest))
    (by simp only [hr1]; rfl) (by simp only [hr1]; rfl) hws1 (Or.inl rfl)
  -- the parameters and the closing parenthesis
  obtain ⟨r2, rr2, hr2⟩ : ∃ r rr, parameterText params ++ (wsEnd ++ ')' :: rest) = r :: rr := by
    cases h : parameterText params ++ (wsEnd ++ ')' :: rest) with
    | nil => simp at h
    | cons r rr => exact ⟨r, rr, rfl⟩
  have h3 := ParameterNames_of_text strtod wsEnd rest hwsEnd params hsep
    { s0 with lexer := lexerAt s0.lexer (String.mk fname)
                (parameterText params ++ (wsEnd ++ ')' :: rest)),
              CurTok := code '(' } r2
    (by simp only [hr2]; rfl) (by simp only [hr2]; rfl)
  intro fuel hfuel
  exact ParseDefinition_of_tokens strtod fb s0 _ _ _ sb sEnd _ t h1 rfl h2 rfl h3 rfl hsb hbody
    fuel (by simpa using hfuel)

/-- C1, witness: with `'*'` above `'+'`, `1+2*3` gives
`Binary('+', Number(1), Binary('*', Number(2), Number(3)))` (the payload of a
number is shown as the text handed to `strtod`). -/
theorem ParseExpression_higher_precedence_on_right_witness :
    getNextToken (fun x => x) (ParserState.init "" [('*', 40), ('+', 20)] "1+2*3".toList) =
        some ⟨⟨43, "2*3".toList, "1", ""⟩, tok_number, [('*', 40), ('+', 20)], []⟩ ∧
      ParseExpression (fun x => x) 4
          ⟨⟨43, "2*3".toList, "1", ""⟩, tok_number, [('*', 40), ('+', 20)], []⟩ =
        some (some (ExprAST.Binary '+' (ExprAST.Number "1")
            (ExprAST.Binary '*' (ExprAST.Number "2") (ExprAST.Number "3"))),
          ⟨⟨EOF, [], "3", ""⟩, tok_eof, [('*', 40), ('+', 20)], []⟩) :=
  ⟨rfl,
    ParseExpression_higher_precedence_on_right (fun x => x) 1
      ⟨⟨43, "2*3".toList, "1", ""⟩, tok_number, [('*', 40), ('+', 20)], []⟩
      ⟨⟨50, "*3".toList, "1", ""⟩, 43, [('*', 40), ('+', 20)], []⟩
      ⟨⟨42, "3".toList, "2", ""⟩, tok_number, [('*', 40), ('+', 20)], []⟩
      ⟨⟨51, [], "2", ""⟩, 42, [('*', 40), ('+', 20)], []⟩
      ⟨⟨EOF, [], "3", ""⟩, tok_number, [('*', 40), ('+', 20)], []⟩
      ⟨⟨EOF, [], "3", ""⟩, tok_eof, [('*', 40), ('+', 20)], []⟩
      (ExprAST.Number "1") (ExprAST.Number "2") (ExprAST.Number "3") '+' '*'
      rfl rfl rfl rfl rfl rfl rfl (by decide) (by decide) rfl 4 (by decide)⟩

/-- C2, witness: `1-2-3` gives `Binary('-', Binary('-', Number(1), Number(2)),
Number(3))`. -/
theorem ParseExpression_left_associative_witness :
    getNextToken (fun x => x) (ParserState.init "" [('-', 20)] "1-2-3".toList) =
        some ⟨⟨45, "2-3".toList, "1", ""⟩, tok_number, [('-', 20)], []⟩ ∧
      ParseExpression (fun x => x) 4
          ⟨⟨45, "2-3".toList, "1", ""⟩, tok_number, [('-', 20)], []⟩ =
        some (some (ExprAST.Binary '-'
            (ExprAST.Binary '-' (ExprAST.Number "1") (ExprAST.Number "2")) (ExprAST.Number "3")),
          ⟨⟨EOF, [], "3", ""⟩, tok_eof, [('-', 20)], []⟩) :=
  ⟨rfl,
    ParseExpression_left_associative (fun x => x) 1
      ⟨⟨45, "2-3".toList, "1", ""⟩, tok_number, [('-', 20)], []⟩
      ⟨⟨50, "-3".toList, "1", ""⟩, 45, [('-', 20)], []⟩
      ⟨⟨45, "3".toList, "2", ""⟩, tok_number, [('-', 20)], []⟩
      ⟨⟨51, [], "2", ""⟩, 45, [('-', 20)], []⟩
      ⟨⟨EOF, [], "3", ""⟩, tok_number, [('-', 20)], []⟩
      ⟨⟨EOF, [], "3", ""⟩, tok_eof, [('-', 20)], []⟩
      (ExprAST.Number "1") (ExprAST.Number "2") (ExprAST.Number "3") '-' '-'
      rfl rfl rfl rfl rfl rfl rfl (by decide) (by decide) rfl 4 (by decide)⟩

/-- C3, witness: `foo(1, 2+3)` gives
`Call("foo", [Number(1), Binary('+', Number(2), Number(3))])`, and the
lookahead is left on the token after `')'`, here `tok_eof`. -/
theorem ParsePrimary_call_witness :
    getNextToken (fun x => x) (ParserState.init "" [('+', 20)] "foo(1, 2+3)".toList) =
        some ⟨⟨40, "1, 2+3)".toList, "", "foo"⟩, tok_identifier, [('+', 20)], []⟩ ∧
      ParsePrimary (fun x => x) 7
          ⟨⟨40, "1, 2+3)".toList, "", "foo"⟩, tok_identifier, [('+', 20)], []⟩ =
        some (some (ExprAST.Call "foo" [ExprAST.Number "1",
            ExprAST.Binary '+' (ExprAST.Number "2") (ExprAST.Number "3")]),
          ⟨⟨EOF, [], "3", "foo"⟩, tok_eof, [(')', 0), ('+', 20), (',', 0)], []⟩) :=
  ⟨rfl,
    ParsePrimary_call (fun x => x) 3
      ⟨⟨40, "1, 2+3)".toList, "", "foo"⟩, tok_identifier, [('+', 20)], []⟩
      ⟨⟨49, ", 2+3)".toList, "", "foo"⟩, 40, [('+', 20)], []⟩
      ⟨⟨44, " 2+3)".toList, "1", "foo"⟩, tok_number, [('+', 20)], []⟩
      ⟨⟨EOF, [], "3", "foo"⟩, 41, [(')', 0), ('+', 20), (',', 0)], []⟩
      ⟨⟨EOF, [], "3", "foo"⟩, tok_eof, [(')', 0), ('+', 20), (',', 0)], []⟩
      [ExprAST.Number "1", ExprAST.Binary '+' (ExprAST.Number "2") (ExprAST.Number "3")]
      rfl rfl rfl rfl
      (Or.inr (@CallArguments.more String (fun x => x) 3
        ⟨⟨44, " 2+3)".toList, "1", "foo"⟩, tok_number, [('+', 20)], []⟩
        ⟨⟨32, "2+3)".toList, "1", "foo"⟩, 44, [('+', 20), (',', 0)], []⟩
        ⟨⟨43, "3)".toList, "2", "foo"⟩, tok_number, [('+', 20), (',', 0)], []⟩
        ⟨⟨EOF, [], "3", "foo"⟩, 41, [(')', 0), ('+', 20), (',', 0)], []⟩
        (ExprAST.Number "1")
        [ExprAST.Binary '+' (ExprAST.Number "2") (ExprAST.Number "3")]
        rfl rfl rfl (CallArguments.last rfl rfl)))
      rfl 7 (by decide)⟩

/-- C4, witness: `def foo(x y) x+y` gives the prototype `foo` with parameters
`["x", "y"]` and the body `Binary('+', Variable("x"), Variable("y"))`. -/
theorem ParseDefinition_ok_witness :
    getNextToken (fun x => x) (ParserState.init "" [('+', 20)] "def foo(x y) x+y".toList) =
        some ⟨⟨32, "foo(x y) x+y".toList, "", "def"⟩, tok_def, [('+', 20)], []⟩ ∧
      ParseDefinition (fun x => x) 7
          ⟨⟨32, "foo(x y) x+y".toList, "", "def"⟩, tok_def, [('+', 20)], []⟩ =
        some (some { Proto := { Name := "foo", Args := ["x", "y"] },
                     Body := ExprAST.Binary '+' (ExprAST.Variable "x") (ExprAST.Variable "y") },
          ⟨⟨EOF, [], "", "y"⟩, tok_eof, [('+', 20)], []⟩) :=
  ⟨rfl,
    ParseDefinition_ok (fun x => x)
      ⟨⟨32, "foo(x y) x+y".toList, "", "def"⟩, tok_def, [('+', 20)], []⟩ ' '
      [' '] "foo".toList [] [] " x+y".toList [([], "x".toList), ([' '], "y".toList)] 4
      ⟨⟨43, "y".toList, "", "x"⟩, tok_identifier, [('+', 20)], []⟩
      ⟨⟨EOF, [], "", "y"⟩, tok_eof, [('+', 20)], []⟩
      (ExprAST.Binary '+' (ExprAST.Variable "x") (ExprAST.Variable "y"))
      rfl rfl rfl rfl rfl rfl rfl rfl rfl 7 (by decide)⟩

/-! ## The precedence of the current token -/

/-- C11. For every precedence table and every current token, `GetTokPrecedence`
returns `p` when the token is an ASCII character that the table maps to a
value `p > 0`, and `-1` in every other case: for a token that is not ASCII
(among them `tok_eof`, `tok_def`, `tok_extern`, `tok_identifier` and
`tok_number`, whatever the table holds), for a character without an entry,
and for a character mapped to a value `≤ 0`. -/
theorem GetTokPrecedence_value {ν : Type} (s : ParserState ν) :
    (GetTokPrecedence s).1 =
        (if isascii s.CurTok = true then
          match s.BinopPrecedence.lookup (toChar s.CurTok) with
          | some p => if 0 < p then p else -1
          | none => -1
        else -1) ∧
      (GetTokPrecedence { s with CurTok := tok_eof }).1 = -1 ∧
      (GetTokPrecedence { s with CurTok := tok_def }).1 = -1 ∧
      (GetTokPrecedence { s with CurTok := tok_extern }).1 = -1 ∧
      (GetTokPrecedence { s with CurTok := tok_identifier }).1 = -1 ∧
      (GetTokPrecedence { s with CurTok := tok_number }).1 = -1 := by
  refine ⟨?_, ?_, ?_, ?_, ?_, ?_⟩
  · rcases GetTokPrecedence_eq s with ⟨a, h⟩ | ⟨a, b, h⟩ | ⟨a, b, h⟩
    · rw [h]; simp [a]
    · rw [h]
      simp only [a, if_true]
      rw [mapIndex_fst] at b
      cases hl : s.BinopPrecedence.lookup (toChar s.CurTok) with
      | none => rfl
      | some p =>
        rw [hl] at b
        simp only [Option.getD_some] at b
        simp only [if_neg (not_lt.mpr b)]
    · rw [h]
      simp only [a, if_true]
      rw [mapIndex_fst] at b ⊢
      cases hl : s.BinopPrecedence.lookup (toChar s.CurTok) with
      | none => rw [hl] at b; simp at b
      | some p =>
        rw [hl] at b
        simp only [Option.getD_some] at b ⊢
        simp only [if_pos b]
  all_goals
    rcases GetTokPrecedence_eq { s with CurTok := _ } with ⟨_, h⟩ | ⟨a, _, _⟩ | ⟨a, _, _⟩
    · rw [h]
    · simp [isascii, tok_eof, tok_def, tok_extern, tok_identifier, tok_number] at a
    · simp [isascii, tok_eof, tok_def, tok_extern, tok_identifier, tok_number] at a

/-! ## Single-character tokens -/

/-- C16. For every input whose first non-whitespace character `c0` is not a
letter, not a digit, not `'.'` and not `'#'`, `gettok` returns the character
code of `c0` itself, consumes exactly that one character (the character after
it becomes the retained one), and the token is non-negative, so it differs
from `tok_eof`, `tok_def`, `tok_extern`, `tok_identifier` and `tok_number`. -/
theorem gettok_single_character {ν : Type} (strtod : String → ν) (s : LexState ν) (c c0 : Char)
    (ws rest : List Char) (hlast : s.LastChar = code c)
    (hstream : c :: s.stdin = ws ++ c0 :: rest)
    (hws : ∀ x ∈ ws, isspace (code x) = true)
    (hsp : isspace (code c0) = false) (hal : isalpha (code c0) = false)
    (hdig : isdigit (code c0) = false) (hdot : c0 ≠ '.') (hco : c0 ≠ '#') :
    gettok strtod s =
        some (code c0, { s with LastChar := (getchar rest).1, stdin := (getchar rest).2 }) ∧
      0 ≤ code c0 ∧ code c0 ≠ tok_eof ∧ code c0 ≠ tok_def ∧ code c0 ≠ tok_extern ∧
      code c0 ≠ tok_identifier ∧ code c0 ≠ tok_number := by
  have h46 : (code c0 == 46) = false := by
    rw [beq_eq_false_iff_ne]
    intro h; apply hdot; apply Char.ext; apply UInt32.ext
    unfold code at h; exact Int.ofNat.inj h
  have h35 : (code c0 == 35) = false := by
    rw [beq_eq_false_iff_ne]
    intro h; apply hco; apply Char.ext; apply UInt32.ext
    unfold code at h; exact Int.ofNat.inj h
  have hnn := code_nonneg c0
  refine ⟨gettok_punct strtod s c c0 ws rest hlast hstream hws hsp hal
    (by rw [hdig, h46]; rfl) h35, hnn, ?_, ?_, ?_, ?_, ?_⟩ <;>
  · intro h
    rw [h] at hnn
    exact absurd hnn (by decide)

/-- C16, witness: on ` +1` the token is the code of `'+'`, and `'1'` is retained. -/
theorem gettok_single_character_witness :
    gettok (fun x => x) (LexState.init "" " +1".toList) =
        some (43, ⟨49, [], "", ""⟩) ∧
      (0 : Int) ≤ 43 ∧ (43 : Int) ≠ tok_eof ∧ (43 : Int) ≠ tok_def ∧ (43 : Int) ≠ tok_extern ∧
      (43 : Int) ≠ tok_identifier ∧ (43 : Int) ≠ tok_number :=
  gettok_single_character (fun x => x) (LexState.init "" " +1".toList) ' ' '+' [' ', ' ']
    "1".toList rfl rfl (by decide) (by decide) (by decide) (by decide) (by decide) (by decide)

/-! ## Where the code departs from the specification -/

/-- C18, the code at the failing input: with the table `{'+' ↦ 20}` and `')'` as
the current token, `GetTokPrecedence` returns `-1` and leaves behind a table
with the new entry `')' ↦ 0`; parsing `foo(1)` with `ParsePrimary` leaves the
table with the same new entry. -/
theorem GetTokPrecedence_inserts_entry :
    (GetTokPrecedence (⟨⟨EOF, [], "", ""⟩, 41, [('+', 20)], []⟩ : ParserState String)).1 = -1 ∧
      (GetTokPrecedence
          (⟨⟨EOF, [], "", ""⟩, 41, [('+', 20)], []⟩ : ParserState String)).2.BinopPrecedence =
        [(')', 0), ('+', 20)] ∧
      ((getNextToken (fun x => x) (ParserState.init "" [('+', 20)] "foo(1)".toList)).bind
          (ParsePrimary (fun x => x) 6)).map (fun r => r.2.BinopPrecedence) =
        some [(')', 0), ('+', 20)] :=
  ⟨rfl, rfl, rfl⟩

/-! ## Relating the outcome of a parse to the state before -/

/-- A relation between the state before, whether a value is returned, and the
state after, that holds for `getNextToken`, `GetTokPrecedence` (both as
successes) and `LogError` (as a failure), and that composes a success with
whatever follows, holds for every function of the expression parser: a
failure is never followed by anything. -/
theorem parse_outcome {ν : Type} (strtod : String → ν)
    (Q : ParserState ν → Bool → ParserState ν → Prop)
    (hthen : ∀ s1 s2 s3 b, Q s1 true s2 → Q s2 b s3 → Q s1 b s3)
    (hnext : ∀ s s1, getNextToken strtod s = some s1 → Q s true s1)
    (hprec : ∀ s, Q s true (GetTokPrecedence s).2)
    (hlog : ∀ (msg : String) (s : ParserState ν),
      Q s false { s with stderr := s.stderr ++ [Output.error msg] }) : ∀ n : Nat,
    (∀ s r, ParseParenExpr strtod n s = some r → Q s r.1.isSome r.2) ∧
    (∀ a s r, ParseCallArgs strtod n a s = some r → Q s r.1.isSome r.2) ∧
    (∀ s r, ParseIdentifierExpr strtod n s = some r → Q s r.1.isSome r.2) ∧
    (∀ s r, ParsePrimary strtod n s = some r → Q s r.1.isSome r.2) ∧
    (∀ p e s r, ParseBinOpRHS strtod n p e s = some r → Q s r.1.isSome r.2) ∧
    (∀ s r, ParseExpression strtod n s = some r → Q s r.1.isSome r.2) := by
  intro n
  induction n with
  | zero =>
    refine ⟨?_, ?_, ?_, ?_, ?_, ?_⟩
    · intro s r h; simp [ParseParenExpr] at h
    · intro a s r h; simp [ParseCallArgs] at h
    · intro s r h; simp [ParseIdentifierExpr] at h
    · intro s r h; simp [ParsePrimary] at h
    · intro p e s r h; simp [ParseBinOpRHS] at h
    · intro s r h; simp [ParseExpression] at h
  | succ k ih =>
    obtain ⟨ihParen, ihArgs, ihId, ihPrim, ihBin, ihExpr⟩ := ih
    refine ⟨?_, ?_, ?_, ?_, ?_, ?_⟩
    · intro s r h
      rw [ParseParenExpr] at h
      cases h1 : getNextToken strtod s with
      | none => simp [h1] at h
      | some s1 =>
        simp only [h1] at h
        have r1 := hnext _ _ h1
        cases h2 : ParseExpression strtod k s1 with
        | none => simp [h2] at h
        | some r2 =>
          have r2' := ihExpr _ _ h2
          simp only [h2] at h
          obtain ⟨V, s2⟩ := r2
          cases V with
          | none =>
            simp only [Option.some.injEq] at h
            rw [← h]; exact hthen _ _ _ _ r1 r2'
          | some V =>
            simp only [] at h
            by_cases c1 : (s2.CurTok != 41) = true
            · simp only [c1, if_true, LogError, Option.some.injEq] at h
              rw [← h]; exact hthen _ _ _ _ r1 (hthen _ _ _ _ r2' (hlog _ _))
            · simp only [c1, Bool.false_eq_true, if_false] at h
              cases h3 : getNextToken strtod s2 with
              | none => simp [h3] at h
              | some s3 =>
                simp only [h3, Option.some.injEq] at h
                rw [← h]; exact hthen _ _ _ _ r1 (hthen _ _ _ _ r2' (hnext _ _ h3))
    · intro a s r h
      rw [ParseCallArgs] at h
      cases h2 : ParseExpression strtod k s with
      | none => simp [h2] at h
      | some r2 =>
        have r2' := ihExpr _ _ h2
        simp only [h2] at h
        obtain ⟨V, s1⟩ := r2
        cases V with
        | none =>
          simp only [Option.some.injEq] at h
          rw [← h]; exact r2'
        | some Arg =>
          simp only [] at h
          by_cases c1 : (s1.CurTok == 41) = true
          · simp only [c1, if_true, Option.some.injEq] at h
            rw [← h]; exact r2'
          · simp only [c1, Bool.false_eq_true, if_false] at h
            by_cases c2 : (s1.CurTok != 44) = true
            · simp only [c2, if_true, LogError, Option.some.injEq] at h
              rw [← h]; exact hthen _ _ _ _ r2' (hlog _ _)
            · simp only [c2, Bool.false_eq_true, if_false] at h
              cases h3 : getNextToken strtod s1 with
              | none => simp [h3] at h
              | some s2 =>
                simp only [h3] at h
                exact hthen _ _ _ _ r2' (hthen _ _ _ _ (hnext _ _ h3) (ihArgs _ _ _ h))
    · intro s r h
      rw [ParseIdentifierExpr] at h
      cases h1 : getNextToken strtod s with
      | none => simp [h1] at h
      | some s1 =>
        simp only [h1] at h
        have r1 := hnext _ _ h1
        by_cases c1 : (s1.CurTok != 40) = true
        · simp only [c1, if_true, Option.some.injEq] at h
          rw [← h]; exact r1
        · simp only [c1, Bool.false_eq_true, if_false] at h
          cases h2 : getNextToken strtod s1 with
          | none => simp [h2] at h
          | some s2 =>
            simp only [h2] at h
            have r2 := hthen _ _ _ _ r1 (hnext _ _ h2)
            by_cases c2 : (s2.CurTok != 41) = true
            · simp only [c2, if_true] at h
              cases h3 : ParseCallArgs strtod k [] s2 with
              | none => simp [h3] at h
              | some r3 =>
                have r3' := hthen _ _ _ _ r2 (ihArgs _ _ _ h3)
                simp only [h3] at h
                obtain ⟨V, s3⟩ := r3
                cases V with
                | none =>
                  simp only [Option.some.injEq] at h
                  rw [← h]; exact r3'
                | some Args =>
                  simp only [] at h
                  cases h4 : getNextToken strtod s3 with
                  | none => simp [h4] at h
                  | some s4 =>
                    simp only [h4, Option.some.injEq] at h
                    rw [← h]; exact hthen _ _ _ _ r3' (hnext _ _ h4)
            · simp only [c2, Bool.false_eq_true, if_false] at h
              cases h4 : getNextToken strtod s2 with
              | none => simp [h4] at h
              | some s4 =>
                simp only [h4, Option.some.injEq] at h
                rw [← h]; exact hthen _ _ _ _ r2 (hnext _ _ h4)
    · intro s r h
      rw [ParsePrimary] at h
      by_cases c1 : s.CurTok = tok_identifier
      · simp only [c1, if_true] at h; exact ihId _ _ h
      · simp only [c1, if_false] at h
        by_cases c2 : s.CurTok = tok_number
        · simp only [c2, if_true, ParseNumberExpr] at h
          cases h1 : getNextToken strtod s with
          | none => simp [h1] at h
          | some s1 =>
            simp only [h1, Option.some.injEq] at h
            rw [← h]; exact hnext _ _ h1
        · simp only [c2, if_false] at h
          by_cases c3 : s.CurTok = 40
          · simp only [c3, if_true] at h; exact ihParen _ _ h
          · simp only [c3, if_false, LogError, Option.some.injEq] at h
            rw [← h]; exact hlog _ _
    · intro p e s r h
      rw [ParseBinOpRHS] at h
      simp only [] at h
      have r0 := hprec s
      by_cases c1 : (GetTokPrecedence s).1 < p
      · simp only [c1, if_true, Option.some.injEq] at h
        rw [← h]; exact r0
      · simp only [c1, if_false] at h
        cases h1 : getNextToken strtod (GetTokPrecedence s).2 with
        | none => simp [h1] at h
        | some s2 =>
          simp only [h1] at h
          have r1 := hthen _ _ _ _ r0 (hnext _ _ h1)
          cases h2 : ParsePrimary strtod k s2 with
          | none => simp [h2] at h
          | some r2 =>
            have r2' := hthen _ _ _ _ r1 (ihPrim _ _ h2)
            simp only [h2] at h
            obtain ⟨V, s3⟩ := r2
            cases V with
            | none =>
              simp only [Option.some.injEq] at h
              rw [← h]; exact r2'
            | some RHS =>
              simp only [] at h
              have r3 := hthen _ _ _ _ r2' (hprec s3)
              by_cases c2 : (GetTokPrecedence s).1 < (GetTokPrecedence s3).1
              · simp only [c2, if_true] at h
                cases h3 : ParseBinOpRHS strtod k ((GetTokPrecedence s).1 + 1) RHS
                    (GetTokPrecedence s3).2 with
                | none => simp [h3] at h
                | some r4 =>
                  have r4' := hthen _ _ _ _ r3 (ihBin _ _ _ _ h3)
                  simp only [h3] at h
                  obtain ⟨V1, s5⟩ := r4
                  cases V1 with
                  | none =>
                    simp only [Option.some.injEq] at h
                    rw [← h]; exact r4'
                  | some RHS1 => exact hthen _ _ _ _ r4' (ihBin _ _ _ _ h)
              · simp only [c2, if_false] at h
                exact hthen _ _ _ _ r3 (ihBin _ _ _ _ h)
    · intro s r h
      rw [ParseExpression] at h
      cases h2 : ParsePrimary strtod k s with
      | none => simp [h2] at h
      | some r2 =>
        have r2' := ihPrim _ _ h2
        simp only [h2] at h
        obtain ⟨V, s1⟩ := r2
        cases V with
        | none =>
          simp only [Option.some.injEq] at h
          rw [← h]; exact r2'
        | some LHS => exact hthen _ _ _ _ r2' (ihBin _ _ _ _ h)

/-! ## One error message per failure -/

theorem emits_then {ν : Type} (s1 s2 s3 : ParserState ν) (b : Bool)
    (h1 : emitsOneErrorOnFailure s1 true s2) (h2 : emitsOneErrorOnFailure s2 b s3) :
    emitsOneErrorOnFailure s1 b s3 := by
  unfold emitsOneErrorOnFailure at *
  simp only [if_true] at h1
  rw [← h1]
  exact h2

theorem emits_getNextToken {ν : Type} (strtod : String → ν) (s s1 : ParserState ν)
    (h : getNextToken strtod s = some s1) : emitsOneErrorOnFailure s true s1 := by
  unfold emitsOneErrorOnFailure
  simp only [if_true]
  exact (getNextToken_table strtod h).2

theorem emits_LogError {ν : Type} (msg : String) (s : ParserState ν) :
    emitsOneErrorOnFailure s false { s with stderr := s.stderr ++ [Output.error msg] } := by
  unfold emitsOneErrorOnFailure
  simp only [Bool.false_eq_true, if_false]
  exact ⟨msg, rfl⟩

/-- The expression parser writes nothing on success and one error on failure. -/
theorem ParseExpression_emits {ν : Type} (strtod : String → ν) {n : Nat} {s : ParserState ν}
    {r : Option (ExprAST ν) × ParserState ν} (h : ParseExpression strtod n s = some r) :
    emitsOneErrorOnFailure s r.1.isSome r.2 :=
  (parse_outcome strtod emitsOneErrorOnFailure emits_then (emits_getNextToken strtod)
    (fun s => by
      unfold emitsOneErrorOnFailure
      simp only [if_true]
      exact (GetTokPrecedence_fields s).2.2.1)
    emits_LogError n).2.2.2.2.2 s r h

/-- The parameter loop writes nothing. -/
theorem ParsePrototypeArgs_stderr {ν : Type} (strtod : String → ν) :
    ∀ (n : Nat) (acc : List String) (s : ParserState ν) (r : List String × ParserState ν),
      ParsePrototypeArgs strtod n acc s = some r → r.2.stderr = s.stderr := by
  intro n
  induction n with
  | zero => intro acc s r h; simp [ParsePrototypeArgs] at h
  | succ k ih =>
    intro acc s r h
    rw [ParsePrototypeArgs] at h
    cases h1 : getNextToken strtod s with
    | none => simp [h1] at h
    | some s1 =>
      simp only [h1] at h
      have e1 := (getNextToken_table strtod h1).2
      by_cases c1 : s1.CurTok = tok_identifier
      · simp only [c1, if_true] at h
        rw [ih _ _ _ h, e1]
      · simp only [c1, if_false, Option.some.injEq] at h
        rw [← h]; exact e1

theorem ParsePrototype_emits {ν : Type} (strtod : String → ν) {n : Nat} {s : ParserState ν}
    {r : Option PrototypeAST × ParserState ν} (h : ParsePrototype strtod n s = some r) :
    emitsOneErrorOnFailure s r.1.isSome r.2 := by
  unfold ParsePrototype at h
  by_cases c0 : (s.CurTok != tok_identifier) = true
  · simp only [c0, if_true, LogError, Option.some.injEq] at h
    rw [← h]; exact emits_LogError _ _
  · simp only [c0, Bool.false_eq_true, if_false] at h
    cases h1 : getNextToken strtod s with
    | none => simp [h1] at h
    | some s1 =>
      simp only [h1] at h
      have e1 := emits_getNextToken strtod s s1 h1
      by_cases c1 : (s1.CurTok != 40) = true
      · simp only [c1, if_true, LogError, Option.some.injEq] at h
        rw [← h]; exact emits_then _ _ _ _ e1 (emits_LogError _ _)
      · simp only [c1, Bool.false_eq_true, if_false] at h
        cases h2 : ParsePrototypeArgs strtod n [] s1 with
        | none => simp [h2] at h
        | some r2 =>
          obtain ⟨names, s2⟩ := r2
          simp only [h2] at h
          have e2 : emitsOneErrorOnFailure s true s2 := by
            refine emits_then _ _ _ _ e1 ?_
            unfold emitsOneErrorOnFailure
            simp only [if_true]
            exact ParsePrototypeArgs_stderr strtod n [] s1 _ h2
          by_cases c2 : (s2.CurTok != 41) = true
          · simp only [c2, if_true, LogError, Option.some.injEq] at h
            rw [← h]; exact emits_then _ _ _ _ e2 (emits_LogError _ _)
          · simp only [c2, Bool.false_eq_true, if_false] at h
            cases h3 : getNextToken strtod s2 with
            | none => simp [h3] at h
            | some s3 =>
              simp only [h3, Option.some.injEq] at h
              rw [← h]; exact emits_then _ _ _ _ e2 (emits_getNextToken strtod _ _ h3)

theorem ParseExtern_emits {ν : Type} (strtod : String → ν) {n : Nat} {s : ParserState ν}
    {r : Option PrototypeAST × ParserState ν} (h : ParseExtern strtod n s = some r) :
    emitsOneErrorOnFailure s r.1.isSome r.2 := by
  unfold ParseExtern at h
  cases h1 : getNextToken strtod s with
  | none => simp [h1] at h
  | some s1 =>
    simp only [h1] at h
    exact emits_then _ _ _ _ (emits_getNextToken strtod s s1 h1) (ParsePrototype_emits strtod h)

theorem ParseDefinition_emits {ν : Type} (strtod : String → ν) {n : Nat} {s : ParserState ν}
    {r : Option (FunctionAST ν) × ParserState ν} (h : ParseDefinition strtod n s = some r) :
    emitsOneErrorOnFailure s r.1.isSome r.2 := by
  unfold ParseDefinition at h
  cases h1 : getNextToken strtod s with
  | none => simp [h1] at h
  | some s1 =>
    simp only [h1] at h
    have e1 := emits_getNextToken strtod s s1 h1
    cases h2 : ParsePrototype strtod n s1 with
    | none => simp [h2] at h
    | some r2 =>
      have e2 := emits_then _ _ _ _ e1 (ParsePrototype_emits strtod h2)
      simp only [h2] at h
      obtain ⟨P, s2⟩ := r2
      cases P with
      | none =>
        simp only [Option.some.injEq] at h
        rw [← h]; exact e2
      | some Proto =>
        simp only [] at h
        cases h3 : ParseExpression strtod n s2 with
        | none => simp [h3] at h
        | some r3 =>
          have e3 := emits_then _ _ _ _ e2 (ParseExpression_emits strtod h3)
          simp only [h3] at h
          obtain ⟨E, s3⟩ := r3
          cases E with
          | none =>
            simp only [Option.some.injEq] at h
            rw [← h]; exact e3
          | some E =>
            simp only [Option.some.injEq] at h
            rw [← h]; exact e3

/-- C12. For every parser state, a call of `ParseExpression`, `ParsePrototype`,
`ParseExtern` or `ParseDefinition` that returns no value has written exactly
one error message during the call, and a call that returns a value has written
none; and `ParseDefinition` returns no value whenever its body expression fails,
even though the prototype was parsed successfully. -/
theorem failure_emits_exactly_one_error {ν : Type} (strtod : String → ν) (fuel : Nat)
    (s : ParserState ν) :
    (∀ r, ParseExpression strtod fuel s = some r → emitsOneErrorOnFailure s r.1.isSome r.2) ∧
    (∀ r, ParsePrototype strtod fuel s = some r → emitsOneErrorOnFailure s r.1.isSome r.2) ∧
    (∀ r, ParseExtern strtod fuel s = some r → emitsOneErrorOnFailure s r.1.isSome r.2) ∧
    (∀ r, ParseDefinition strtod fuel s = some r → emitsOneErrorOnFailure s r.1.isSome r.2) ∧
    (∀ s1 Proto s2 s3, getNextToken strtod s = some s1 →
      ParsePrototype strtod fuel s1 = some (some Proto, s2) →
      ParseExpression strtod fuel s2 = some (none, s3) →
      ParseDefinition strtod fuel s = some (none, s3)) := by
  refine ⟨fun r h => ParseExpression_emits strtod h, fun r h => ParsePrototype_emits strtod h,
    fun r h => ParseExtern_emits strtod h, fun r h => ParseDefinition_emits strtod h, ?_⟩
  intro s1 Proto s2 s3 h1 h2 h3
  unfold ParseDefinition
  simp only [h1, h2, h3]

/-- C12, witness: on `def foo(x) )` the prototype is parsed, the body fails on
`')'`, the definition returns no value, and exactly one error was written;
on `1+2` the expression returns a value and nothing was written. -/
theorem failure_emits_exactly_one_error_witness :
    (ParseDefinition (fun x => x) 5
        (⟨⟨32, "foo(x) )".toList, "", "def"⟩, tok_def, [('+', 20)], []⟩ : ParserState String) =
      some (none, ⟨⟨EOF, [], "", "x"⟩, 41, [('+', 20)],
        [Output.error "unknown token when expecting an expression"]⟩) ∧
      emitsOneErrorOnFailure
        (⟨⟨32, "foo(x) )".toList, "", "def"⟩, tok_def, [('+', 20)], []⟩ : ParserState String)
        false
        ⟨⟨EOF, [], "", "x"⟩, 41, [('+', 20)],
          [Output.error "unknown token when expecting an expression"]⟩) ∧
    emitsOneErrorOnFailure
      (⟨⟨43, "2".toList, "1", ""⟩, tok_number, [('+', 20)], []⟩ : ParserState String)
      true ⟨⟨EOF, [], "2", ""⟩, tok_eof, [('+', 20)], []⟩ :=
  ⟨⟨rfl,
    (failure_emits_exactly_one_error (fun x => x) 5
      ⟨⟨32, "foo(x) )".toList, "", "def"⟩, tok_def, [('+', 20)], []⟩).2.2.2.1 _ rfl⟩,
   (failure_emits_exactly_one_error (fun x => x) 4
      ⟨⟨43, "2".toList, "1", ""⟩, tok_number, [('+', 20)], []⟩).1
      (some (ExprAST.Binary '+' (ExprAST.Number "1") (ExprAST.Number "2")),
        ⟨⟨EOF, [], "2", ""⟩, tok_eof, [('+', 20)], []⟩) rfl⟩

/-! ## The lookahead after an expression -/

/-- When `ParseBinOpRHS` returns a value, the lookahead it leaves binds less
tightly than `ExprPrec`. -/
theorem ParseBinOpRHS_lookahead {ν : Type} (strtod : String → ν) :
    ∀ (n : Nat) (p : Int) (e : ExprAST ν) (s : ParserState ν) (t : ExprAST ν)
      (s1 : ParserState ν), ParseBinOpRHS strtod n p e s = some (some t, s1) →
      (GetTokPrecedence s1).1 < p := by
  intro n
  induction n with
  | zero => intro p e s t s1 h; simp [ParseBinOpRHS] at h
  | succ k ih =>
    intro p e s t s1 h
    rw [ParseBinOpRHS] at h
    simp only [] at h
    by_cases c1 : (GetTokPrecedence s).1 < p
    · simp only [c1, if_true, Option.some.injEq, Prod.mk.injEq] at h
      rw [← h.2, GetTokPrecedence_idem]
      exact c1
    · simp only [c1, if_false] at h
      cases h1 : getNextToken strtod (GetTokPrecedence s).2 with
      | none => simp [h1] at h
      | some s2 =>
        simp only [h1] at h
        cases h2 : ParsePrimary strtod k s2 with
        | none => simp [h2] at h
        | some r2 =>
          simp only [h2] at h
          obtain ⟨V, s3⟩ := r2
          cases V with
          | none => simp at h
          | some RHS =>
            simp only [] at h
            by_cases c2 : (GetTokPrecedence s).1 < (GetTokPrecedence s3).1
            · simp only [c2, if_true] at h
              cases h3 : ParseBinOpRHS strtod k ((GetTokPrecedence s).1 + 1) RHS
                  (GetTokPrecedence s3).2 with
              | none => simp [h3] at h
              | some r3 =>
                simp only [h3] at h
                obtain ⟨V1, s5⟩ := r3
                cases V1 with
                | none => simp at h
                | some RHS1 => exact ih _ _ _ _ _ h
            · simp only [c2, if_false] at h
              exact ih _ _ _ _ _ h

/-- C20. For every precedence table and every parser state, if `ParseExpression`
returns a value then the lookahead it leaves behind has precedence `-1`
according to `GetTokPrecedence`: a successful expression parse never stops in
front of a usable infix operator. -/
theorem ParseExpression_lookahead {ν : Type} (strtod : String → ν) (fuel : Nat)
    (s s1 : ParserState ν) (t : ExprAST ν)
    (h : ParseExpression strtod fuel s = some (some t, s1)) :
    (GetTokPrecedence s1).1 = -1 := by
  cases fuel with
  | zero => simp [ParseExpression] at h
  | succ k =>
    rw [ParseExpression] at h
    cases h2 : ParsePrimary strtod k s with
    | none => simp [h2] at h
    | some r2 =>
      simp only [h2] at h
      obtain ⟨V, s2⟩ := r2
      cases V with
      | none => simp at h
      | some LHS =>
        have := ParseBinOpRHS_lookahead strtod k 0 LHS s2 t s1 h
        rcases GetTokPrecedence_range s1 with h0 | h0
        · exact h0
        · omega

/-- C20, witness: after `1+2` in `1+2)` the lookahead is `')'`, of precedence `-1`. -/
theorem ParseExpression_lookahead_witness :
    (GetTokPrecedence
      (⟨⟨EOF, [], "2", ""⟩, 41, [(')', 0), ('+', 20)], []⟩ : ParserState String)).1 = -1 :=
  ParseExpression_lookahead (fun x => x) 4
    ⟨⟨43, "2)".toList, "1", ""⟩, tok_number, [('+', 20)], []⟩
    ⟨⟨EOF, [], "2", ""⟩, 41, [(')', 0), ('+', 20)], []⟩
    (ExprAST.Binary '+' (ExprAST.Number "1") (ExprAST.Number "2")) rfl

/-! ## Every token but `tok_eof` uses up input -/

theorem skipSpace_unread (inp : List Char) :
    ∀ lc : Int, (skipSpace lc inp).2.length + (if (skipSpace lc inp).1 = EOF then 0 else 1) ≤
      inp.length + (if lc = EOF then 0 else 1) := by
  induction inp with
  | nil =>
    intro lc
    unfold skipSpace
    split
    · simp
    · simp
  | cons a inp ih =>
    intro lc
    unfold skipSpace
    split
    · have := ih (code a)
      rw [if_neg (code_ne_EOF a)] at this
      simp only [List.length_cons]
      omega
    · simp

theorem readIdentifier_unread (inp : List Char) :
    ∀ id : String, (readIdentifier id inp).2.2.length +
      (if (readIdentifier id inp).2.1 = EOF then 0 else 1) ≤ inp.length := by
  induction inp with
  | nil => intro id; simp [readIdentifier]
  | cons a inp ih =>
    intro id
    unfold readIdentifier
    split
    · have := ih (id.push (toChar (code a)))
      simp only [List.length_cons]
      omega
    · simp [code_ne_EOF]

theorem readNumber_unread (inp : List Char) :
    ∀ (ns : String) (lc : Int), (readNumber ns lc inp).2.2.length +
      (if (readNumber ns lc inp).2.1 = EOF then 0 else 1) ≤ inp.length := by
  induction inp with
  | nil => intro ns lc; simp [readNumber]
  | cons a inp ih =>
    intro ns lc
    unfold readNumber
    split
    · have := ih (ns.push (toChar lc)) (code a)
      simp only [List.length_cons]
      omega
    · simp [code_ne_EOF]

theorem skipComment_unread (inp : List Char) :
    (skipComment inp).2.length + (if (skipComment inp).1 = EOF then 0 else 1) ≤ inp.length := by
  induction inp with
  | nil => simp [skipComment]
  | cons a inp ih =>
    unfold skipComment
    split
    · simp only [List.length_cons]
      omega
    · simp [code_ne_EOF]

theorem getchar_unread (inp : List Char) :
    (getchar inp).2.length + (if (getchar inp).1 = EOF then 0 else 1) ≤ inp.length := by
  cases inp with
  | nil => simp [getchar]
  | cons a inp => simp [getchar, code_ne_EOF]

theorem isalpha_ne_EOF {i : Int} (h : isalpha i = true) : i ≠ EOF := by
  intro e; rw [e] at h; exact absurd h (by decide)

theorem numeric_ne_EOF {i : Int} (h : (isdigit i || i == 46) = true) : i ≠ EOF := by
  intro e; rw [e] at h; exact absurd h (by decide)

theorem unread_mk {ν : Type} (lc : Int) (inp : List Char) (nv : ν) (id : String) :
    unread ({ LastChar := lc, stdin := inp, NumVal := nv, IdentifierStr := id } : LexState ν) =
      inp.length + (if lc = EOF then 0 else 1) := rfl

/-- A call of `gettok` never gives input back, and uses some up unless it
returns `tok_eof`. -/
theorem gettokAux_unread {ν : Type} (strtod : String → ν) :
    ∀ (n : Nat) (s s1 : LexState ν) (t : Int), gettokAux strtod n s = some (t, s1) →
      unread s1 ≤ unread s ∧ (t ≠ tok_eof → unread s1 < unread s) := by
  intro n
  induction n with
  | zero => intro s s1 t h; simp [gettokAux] at h
  | succ n ih =>
    intro s s1 t h
    simp only [gettokAux] at h
    have hsk := skipSpace_unread s.stdin s.LastChar
    rcases hskeq : skipSpace s.LastChar s.stdin with ⟨lc, inp⟩
    rw [hskeq] at h hsk
    simp only [] at h hsk
    have hs : unread s = s.stdin.length + (if s.LastChar = EOF then 0 else 1) := rfl
    by_cases h1 : isalpha lc = true
    · simp only [h1, if_true] at h
      have hid := readIdentifier_unread inp (String.singleton (toChar lc))
      rw [if_neg (isalpha_ne_EOF h1)] at hsk
      have hlt : inp.length < unread s := by rw [hs]; omega
      have hu : unread s1 < unread s := by
        by_cases hd : (readIdentifier (String.singleton (toChar lc)) inp).1 = "def"
        · simp only [hd, if_true, Option.some.injEq, Prod.mk.injEq] at h
          rw [← h.2, unread_mk]
          exact Nat.lt_of_le_of_lt hid hlt
        · by_cases he : (readIdentifier (String.singleton (toChar lc)) inp).1 = "extern"
          · rw [if_neg hd, if_pos he] at h
            simp only [Option.some.injEq, Prod.mk.injEq] at h
            rw [← h.2, unread_mk]
            exact Nat.lt_of_le_of_lt hid hlt
          · rw [if_neg hd, if_neg he] at h
            simp only [Option.some.injEq, Prod.mk.injEq] at h
            rw [← h.2, unread_mk]
            exact Nat.lt_of_le_of_lt hid hlt
      exact ⟨Nat.le_of_lt hu, fun _ => hu⟩
    · simp only [h1, Bool.false_eq_true, if_false] at h
      by_cases h2 : (isdigit lc || lc == 46) = true
      · simp only [h2, if_true, Option.some.injEq, Prod.mk.injEq] at h
        have hnum := readNumber_unread inp "" lc
        rw [if_neg (numeric_ne_EOF h2)] at hsk
        have hlt : inp.length < unread s := by rw [hs]; omega
        have hu : unread s1 < unread s := by
          rw [← h.2, unread_mk]
          exact Nat.lt_of_le_of_lt hnum hlt
        exact ⟨Nat.le_of_lt hu, fun _ => hu⟩
      · simp only [h2, Bool.false_eq_true, if_false] at h
        by_cases h3 : (lc == 35) = true
        · simp only [h3, if_true] at h
          have h35 : lc = 35 := by simpa using h3
          have hco := skipComment_unread inp
          rw [if_neg (by rw [h35]; decide)] at hsk
          have hlt : inp.length < unread s := by rw [hs]; omega
          by_cases h4 : ((skipComment inp).1 != EOF) = true
          · simp only [h4, if_true] at h
            obtain ⟨ih1, _⟩ := ih _ _ _ h
            rw [unread_mk] at ih1
            have hu : unread s1 < unread s :=
              Nat.lt_of_le_of_lt ih1 (Nat.lt_of_le_of_lt hco hlt)
            exact ⟨Nat.le_of_lt hu, fun _ => hu⟩
          · simp only [h4, Bool.false_eq_true, if_false] at h
            simp only [gettokChar] at h
            by_cases h5 : ((skipComment inp).1 == EOF) = true
            · simp only [h5, if_true, Option.some.injEq, Prod.mk.injEq] at h
              have hu : unread s1 < unread s := by
                rw [← h.2, unread_mk]
                exact Nat.lt_of_le_of_lt hco hlt
              exact ⟨Nat.le_of_lt hu, fun _ => hu⟩
            · exfalso
              simp only [bne_iff_ne, ne_eq, Decidable.not_not] at h4
              simp only [beq_iff_eq] at h5
              exact h5 h4
        · simp only [h3, Bool.false_eq_true, if_false, gettokChar] at h
          by_cases h5 : (lc == EOF) = true
          · simp only [h5, if_true, Option.some.injEq, Prod.mk.injEq] at h
            refine ⟨?_, fun ht => absurd h.1.symm ht⟩
            rw [← h.2, unread_mk, hs]
            exact hsk
          · simp only [h5, Bool.false_eq_true, if_false, Option.some.injEq, Prod.mk.injEq] at h
            have h5' : lc ≠ EOF := by simpa using h5
            have hg := getchar_unread inp
            rw [if_neg h5'] at hsk
            have hlt : inp.length < unread s := by rw [hs]; omega
            have hu : unread s1 < unread s := by
              rw [← h.2, unread_mk]
              exact Nat.lt_of_le_of_lt hg hlt
            exact ⟨Nat.le_of_lt hu, fun _ => hu⟩

/-- The function `getNextToken` never gives input back; unless the new lookahead is
`tok_eof`, the lexer has used some up. -/
theorem getNextToken_unread {ν : Type} (strtod : String → ν) {s s1 : ParserState ν}
    (h : getNextToken strtod s = some s1) :
    unread s1.lexer ≤ unread s.lexer ∧
      (s1.CurTok ≠ tok_eof → unread s1.lexer < unread s.lexer) := by
  unfold getNextToken at h
  cases hg : gettok strtod s.lexer with
  | none => simp [hg] at h
  | some r =>
    obtain ⟨t, l⟩ := r
    simp only [hg, Option.some.injEq] at h
    rw [← h]
    exact gettokAux_unread strtod _ _ _ _ hg

/-! ## When a prototype is accepted -/

/-- What the parameter loop returns, it read as identifiers in front of a token
that is not an identifier. -/
theorem ParameterNames_of_ParsePrototypeArgs {ν : Type} (strtod : String → ν) :
    ∀ (n : Nat) (acc : List String) (s e : ParserState ν) (names : List String),
      ParsePrototypeArgs strtod n acc s = some (names, e) →
      ∃ ps, names = acc ++ ps ∧ ParameterNames strtod s ps e := by
  intro n
  induction n with
  | zero => intro acc s e names h; simp [ParsePrototypeArgs] at h
  | succ k ih =>
    intro acc s e names h
    rw [ParsePrototypeArgs] at h
    cases h1 : getNextToken strtod s with
    | none => simp [h1] at h
    | some s1 =>
      simp only [h1] at h
      by_cases c1 : s1.CurTok = tok_identifier
      · simp only [c1, if_true] at h
        obtain ⟨ps, hps, hchain⟩ := ih _ _ _ _ h
        exact ⟨s1.lexer.IdentifierStr :: ps, by rw [hps]; simp,
          ParameterNames.param h1 c1 hchain⟩
      · simp only [c1, if_false, Option.some.injEq, Prod.mk.injEq] at h
        refine ⟨[], by rw [← h.1]; simp, ?_⟩
        rw [← h.2]
        exact ParameterNames.done h1 c1

/-- The parameter loop returns once its fuel exceeds what the lexer has left. -/
theorem ParsePrototypeArgs_total {ν : Type} (strtod : String → ν) :
    ∀ (n : Nat) (acc : List String) (s : ParserState ν), unread s.lexer < n →
      ∃ r, ParsePrototypeArgs strtod n acc s = some r := by
  intro n
  induction n with
  | zero => intro acc s h; omega
  | succ k ih =>
    intro acc s h
    rw [ParsePrototypeArgs]
    obtain ⟨s1, h1⟩ := getNextToken_some strtod s
    simp only [h1]
    by_cases c1 : s1.CurTok = tok_identifier
    · simp only [c1, if_true]
      have hlt := (getNextToken_unread strtod h1).2 (by rw [c1]; decide)
      exact ih _ _ (by omega)
    · simp only [c1, if_false]
      exact ⟨_, rfl⟩

theorem ParsePrototypeArgs_fuel_succ {ν : Type} (strtod : String → ν) :
    ∀ (n : Nat) (acc : List String) (s : ParserState ν) (r : List String × ParserState ν),
      ParsePrototypeArgs strtod n acc s = some r →
      ParsePrototypeArgs strtod (n + 1) acc s = some r := by
  intro n
  induction n with
  | zero => intro acc s r h; simp [ParsePrototypeArgs] at h
  | succ k ih =>
    intro acc s r h
    rw [ParsePrototypeArgs] at h ⊢
    cases h1 : getNextToken strtod s with
    | none => simp [h1] at h
    | some s1 =>
      simp only [h1] at h ⊢
      by_cases c1 : s1.CurTok = tok_identifier
      · simp only [c1, if_true] at h ⊢
        exact ih _ _ _ h
      · simp only [c1, if_false] at h ⊢
        exact h

theorem ParsePrototypeArgs_fuel {ν : Type} (strtod : String → ν) {n : Nat} {acc : List String}
    {s : ParserState ν} {r : List String × ParserState ν}
    (h : ParsePrototypeArgs strtod n acc s = some r) :
    ∀ m, n ≤ m → ParsePrototypeArgs strtod m acc s = some r := by
  intro m hm
  induction hm with
  | refl => exact h
  | step _ ih => exact ParsePrototypeArgs_fuel_succ strtod _ _ _ _ ih

theorem ParsePrototype_fuel {ν : Type} (strtod : String → ν) {n : Nat} {s : ParserState ν}
    {r : Option PrototypeAST × ParserState ν} (h : ParsePrototype strtod n s = some r) :
    ∀ m, n ≤ m → ParsePrototype strtod m s = some r := by
  intro m hm
  unfold ParsePrototype at h ⊢
  by_cases c0 : (s.CurTok != tok_identifier) = true
  · simp only [c0, if_true] at h ⊢; exact h
  · simp only [c0, Bool.false_eq_true, if_false] at h ⊢
    cases h1 : getNextToken strtod s with
    | none => simp [h1] at h
    | some s1 =>
      simp only [h1] at h ⊢
      by_cases c1 : (s1.CurTok != 40) = true
      · simp only [c1, if_true] at h ⊢; exact h
      · simp only [c1, Bool.false_eq_true, if_false] at h ⊢
        cases h2 : ParsePrototypeArgs strtod n [] s1 with
        | none => simp [h2] at h
        | some r2 =>
          rw [ParsePrototypeArgs_fuel strtod h2 m hm]
          simp only [h2] at h
          exact h

/-- A prototype that is returned was read from tokens of the right shape. -/
theorem PrototypeTokens_of_ParsePrototype {ν : Type} (strtod : String → ν) {n : Nat}
    {s s1 : ParserState ν} {P : PrototypeAST}
    (h : ParsePrototype strtod n s = some (some P, s1)) : PrototypeTokens strtod s P s1 := by
  unfold ParsePrototype at h
  by_cases c0 : (s.CurTok != tok_identifier) = true
  · simp [c0, LogError] at h
  · simp only [c0, Bool.false_eq_true, if_false] at h
    have hid : s.CurTok = tok_identifier := by simpa using c0
    cases h1 : getNextToken strtod s with
    | none => simp [h1] at h
    | some s2 =>
      simp only [h1] at h
      by_cases c1 : (s2.CurTok != 40) = true
      · simp [c1, LogError] at h
      · simp only [c1, Bool.false_eq_true, if_false] at h
        have hlp : s2.CurTok = 40 := by simpa using c1
        cases h2 : ParsePrototypeArgs strtod n [] s2 with
        | none => simp [h2] at h
        | some r2 =>
          obtain ⟨names, e⟩ := r2
          simp only [h2] at h
          by_cases c2 : (e.CurTok != 41) = true
          · simp [c2, LogError] at h
          · simp only [c2, Bool.false_eq_true, if_false] at h
            have hrp : e.CurTok = 41 := by simpa using c2
            cases h3 : getNextToken strtod e with
            | none => simp [h3] at h
            | some s3 =>
              simp only [h3, Option.some.injEq, Prod.mk.injEq] at h
              obtain ⟨ps, hps, hchain⟩ := ParameterNames_of_ParsePrototypeArgs strtod _ _ _ _ _ h2
              simp only [List.nil_append] at hps
              rw [← h.1, ← h.2]
              exact ⟨hid, rfl, s2, e, h1, hlp, by rw [hps]; exact hchain, hrp, h3⟩

/-- Tokens of the right shape are accepted, with the fuel the parameters need. -/
theorem ParsePrototype_of_PrototypeTokens {ν : Type} (strtod : String → ν)
    {s s1 : ParserState ν} {P : PrototypeAST} (h : PrototypeTokens strtod s P s1) :
    ∀ n, P.Args.length + 1 ≤ n → ParsePrototype strtod n s = some (some P, s1) := by
  intro n hn
  obtain ⟨hid, hname, s2, e, h1, hlp, hchain, hrp, h3⟩ := h
  unfold ParsePrototype
  simp only [hid, h1, hlp]
  rw [ParsePrototypeArgs_of_ParameterNames strtod hchain n [] hn]
  obtain ⟨Name, Args⟩ := P
  simp only [] at hname
  simp [hrp, h3, hname]

/-- The function `ParsePrototype` returns once its fuel exceeds what the lexer has left. -/
theorem ParsePrototype_total {ν : Type} (strtod : String → ν) (n : Nat) (s : ParserState ν)
    (hn : unread s.lexer < n) : ∃ r, ParsePrototype strtod n s = some r := by
  unfold ParsePrototype
  by_cases c0 : (s.CurTok != tok_identifier) = true
  · simp only [c0, if_true]; exact ⟨_, rfl⟩
  · simp only [c0, Bool.false_eq_true, if_false]
    obtain ⟨s1, h1⟩ := getNextToken_some strtod s
    simp only [h1]
    by_cases c1 : (s1.CurTok != 40) = true
    · simp only [c1, if_true]; exact ⟨_, rfl⟩
    · simp only [c1, Bool.false_eq_true, if_false]
      have hle := (getNextToken_unread strtod h1).1
      obtain ⟨r2, h2⟩ := ParsePrototypeArgs_total strtod n [] s1 (by omega)
      obtain ⟨names, e⟩ := r2
      simp only [h2]
      by_cases c2 : (e.CurTok != 41) = true
      · simp only [c2, if_true]; exact ⟨_, rfl⟩
      · simp only [c2, Bool.false_eq_true, if_false]
        obtain ⟨s3, h3⟩ := getNextToken_some strtod e
        simp only [h3]
        exact ⟨_, rfl⟩

/-- C13. With more fuel than the lexer has characters left, `ParsePrototype`
succeeds if and only if the tokens starting at the lookahead are an identifier,
`'('`, `k ≥ 0` identifiers and `')'`; it then returns the prototype with that
name and exactly those `k` parameter names in order and leaves the lookahead
on the token after `')'`. In every other case it returns no value. -/
theorem ParsePrototype_succeeds_iff {ν : Type} (strtod : String → ν) (fuel : Nat)
    (s : ParserState ν) (hfuel : unread s.lexer < fuel) :
    (∀ P s1, ParsePrototype strtod fuel s = some (some P, s1) ↔ PrototypeTokens strtod s P s1) ∧
      ((¬ ∃ P s1, PrototypeTokens strtod s P s1) →
        ∃ s1, ParsePrototype strtod fuel s = some (none, s1)) := by
  constructor
  · intro P s1
    constructor
    · exact PrototypeTokens_of_ParsePrototype strtod
    · intro h
      obtain ⟨r, hr⟩ := ParsePrototype_total strtod fuel s hfuel
      have h1 := ParsePrototype_fuel strtod hr (max fuel (P.Args.length + 1)) (le_max_left _ _)
      have h2 := ParsePrototype_of_PrototypeTokens strtod h (max fuel (P.Args.length + 1))
        (le_max_right _ _)
      rw [h1] at h2
      rw [hr, h2]
  · intro hno
    obtain ⟨r, hr⟩ := ParsePrototype_total strtod fuel s hfuel
    obtain ⟨V, s1⟩ := r
    cases V with
    | none => exact ⟨s1, hr⟩
    | some P => exact absurd ⟨P, s1, PrototypeTokens_of_ParsePrototype strtod hr⟩ hno

/-- C13, witness: `foo(x y)` is accepted as the prototype `foo` with the
parameters `x` and `y`; `foo(x, y)` is not a prototype, because of the `','`. -/
theorem ParsePrototype_succeeds_iff_witness :
    PrototypeTokens (fun x => x)
        (⟨⟨40, "x y)".toList, "", "foo"⟩, tok_identifier, [], []⟩ : ParserState String)
        { Name := "foo", Args := ["x", "y"] }
        ⟨⟨EOF, [], "", "y"⟩, tok_eof, [], []⟩ ∧
      ParsePrototype (fun x => x) 6
          (⟨⟨40, "x, y)".toList, "", "foo"⟩, tok_identifier, [], []⟩ : ParserState String) =
        some (none, ⟨⟨32, "y)".toList, "", "x"⟩, 44, [],
          [Output.error "Expected ')' in prototype"]⟩) :=
  ⟨((ParsePrototype_succeeds_iff (fun x => x) 6
      ⟨⟨40, "x y)".toList, "", "foo"⟩, tok_identifier, [], []⟩ (by decide)).1
      { Name := "foo", Args := ["x", "y"] } ⟨⟨EOF, [], "", "y"⟩, tok_eof, [], []⟩).1 rfl,
   rfl⟩

/-! ## The parser uses up input -/

theorem pendingInput_getNextToken {ν : Type} (strtod : String → ν) {s s1 : ParserState ν}
    (h : getNextToken strtod s = some s1) :
    pendingInput s1 ≤ pendingInput s ∧ (s.CurTok ≠ tok_eof → pendingInput s1 < pendingInput s) := by
  obtain ⟨hle, hlt⟩ := getNextToken_unread strtod h
  unfold pendingInput
  by_cases c1 : s1.CurTok = tok_eof
  · by_cases c : s.CurTok = tok_eof
    · simp only [c1, c, if_true]
      exact ⟨by omega, fun hc => absurd rfl hc⟩
    · simp only [c1, c, if_true, if_false]
      exact ⟨by omega, fun _ => by omega⟩
  · have := hlt c1
    by_cases c : s.CurTok = tok_eof
    · simp only [c1, c, if_true, if_false]
      exact ⟨by omega, fun hc => absurd rfl hc⟩
    · simp only [c1, c, if_false]
      exact ⟨by omega, fun _ => by omega⟩

theorem pendingInput_GetTokPrecedence {ν : Type} (s : ParserState ν) :
    pendingInput (GetTokPrecedence s).2 = pendingInput s := by
  obtain ⟨h1, h2, _, _⟩ := GetTokPrecedence_fields s
  unfold pendingInput
  rw [h1, h2]

/-- No function of the expression parser gives input back. -/
theorem parse_pendingInput {ν : Type} (strtod : String → ν) (n : Nat) :
    (∀ s r, ParseParenExpr strtod n s = some r → pendingInput r.2 ≤ pendingInput s) ∧
    (∀ a s r, ParseCallArgs strtod n a s = some r → pendingInput r.2 ≤ pendingInput s) ∧
    (∀ s r, ParseIdentifierExpr strtod n s = some r → pendingInput r.2 ≤ pendingInput s) ∧
    (∀ s r, ParsePrimary strtod n s = some r → pendingInput r.2 ≤ pendingInput s) ∧
    (∀ p e s r, ParseBinOpRHS strtod n p e s = some r → pendingInput r.2 ≤ pendingInput s) ∧
    (∀ s r, ParseExpression strtod n s = some r → pendingInput r.2 ≤ pendingInput s) :=
  parse_preserves strtod (fun a b => pendingInput b ≤ pendingInput a)
    (fun _ _ _ h1 h2 => Nat.le_trans h2 h1)
    (fun _ _ h => (pendingInput_getNextToken strtod h).1)
    (fun s => Nat.le_of_eq (pendingInput_GetTokPrecedence s))
    (fun _ _ => Nat.le_refl _) n

/-- A primary that is returned used up at least its first token. -/
theorem ParsePrimary_pendingInput {ν : Type} (strtod : String → ν) {n : Nat}
    {s s1 : ParserState ν} {t : ExprAST ν} (h : ParsePrimary strtod n s = some (some t, s1)) :
    pendingInput s1 < pendingInput s := by
  cases n with
  | zero => simp [ParsePrimary] at h
  | succ k =>
    rw [ParsePrimary] at h
    by_cases c1 : s.CurTok = tok_identifier
    · simp only [c1, if_true] at h
      have hne : s.CurTok ≠ tok_eof := by rw [c1]; decide
      cases k with
      | zero => simp [ParseIdentifierExpr] at h
      | succ j =>
        rw [ParseIdentifierExpr] at h
        cases h1 : getNextToken strtod s with
        | none => simp [h1] at h
        | some s2 =>
          simp only [h1] at h
          have d1 := (pendingInput_getNextToken strtod h1).2 hne
          by_cases c2 : (s2.CurTok != 40) = true
          · simp only [c2, if_true, Option.some.injEq, Prod.mk.injEq] at h
            rw [← h.2]; exact d1
          · simp only [c2, Bool.false_eq_true, if_false] at h
            cases h2 : getNextToken strtod s2 with
            | none => simp [h2] at h
            | some s3 =>
              simp only [h2] at h
              have d2 := (pendingInput_getNextToken strtod h2).1
              by_cases c3 : (s3.CurTok != 41) = true
              · simp only [c3, if_true] at h
                cases h3 : ParseCallArgs strtod j [] s3 with
                | none => simp [h3] at h
                | some r3 =>
                  have d3 := (parse_pendingInput strtod j).2.1 _ _ _ h3
                  simp only [h3] at h
                  obtain ⟨V, s4⟩ := r3
                  cases V with
                  | none => simp at h
                  | some Args =>
                    simp only [] at h d3
                    cases h4 : getNextToken strtod s4 with
                    | none => simp [h4] at h
                    | some s5 =>
                      simp only [h4, Option.some.injEq, Prod.mk.injEq] at h
                      have d4 := (pendingInput_getNextToken strtod h4).1
                      rw [← h.2]; omega
              · simp only [c3, Bool.false_eq_true, if_false] at h
                cases h4 : getNextToken strtod s3 with
                | none => simp [h4] at h
                | some s5 =>
                  simp only [h4, Option.some.injEq, Prod.mk.injEq] at h
                  have d4 := (pendingInput_getNextToken strtod h4).1
                  rw [← h.2]; omega
    · simp only [c1, if_false] at h
      by_cases c2 : s.CurTok = tok_number
      · simp only [c2, if_true, ParseNumberExpr] at h
        have hne : s.CurTok ≠ tok_eof := by rw [c2]; decide
        cases h1 : getNextToken strtod s with
        | none => simp [h1] at h
        | some s2 =>
          simp only [h1, Option.some.injEq, Prod.mk.injEq] at h
          rw [← h.2]
          exact (pendingInput_getNextToken strtod h1).2 hne
      · simp only [c2, if_false] at h
        by_cases c3 : s.CurTok = 40
        · simp only [c3, if_true] at h
          have hne : s.CurTok ≠ tok_eof := by rw [c3]; decide
          cases k with
          | zero => simp [ParseParenExpr] at h
          | succ j =>
            rw [ParseParenExpr] at h
            cases h1 : getNextToken strtod s with
            | none => simp [h1] at h
            | some s2 =>
              simp only [h1] at h
              have d1 := (pendingInput_getNextToken strtod h1).2 hne
              cases h2 : ParseExpression strtod j s2 with
              | none => simp [h2] at h
              | some r2 =>
                have d2 := (parse_pendingInput strtod j).2.2.2.2.2 _ _ h2
                simp only [h2] at h
                obtain ⟨V, s3⟩ := r2
                cases V with
                | none => simp at h
                | some V =>
                  simp only [] at h d2
                  by_cases c4 : (s3.CurTok != 41) = true
                  · simp [c4, LogError] at h
                  · simp only [c4, Bool.false_eq_true, if_false] at h
                    cases h3 : getNextToken strtod s3 with
                    | none => simp [h3] at h
                    | some s4 =>
                      simp only [h3, Option.some.injEq, Prod.mk.injEq] at h
                      have d3 := (pendingInput_getNextToken strtod h3).1
                      rw [← h.2]; omega
        · simp [c3, LogError] at h

/-! ## The expression parser terminates -/

/-- Five units of fuel per pending piece of input, and a few more, are enough
for every function of the expression parser to return. -/
theorem parse_total {ν : Type} (strtod : String → ν) : ∀ k : Nat,
    (∀ s, s.CurTok ≠ tok_eof → 5 * pendingInput s + 1 ≤ k →
      ∃ r, ParseParenExpr strtod k s = some r) ∧
    (∀ a s, 5 * pendingInput s + 5 ≤ k → ∃ r, ParseCallArgs strtod k a s = some r) ∧
    (∀ s, s.CurTok ≠ tok_eof → 5 * pendingInput s + 1 ≤ k →
      ∃ r, ParseIdentifierExpr strtod k s = some r) ∧
    (∀ s, 5 * pendingInput s + 2 ≤ k → ∃ r, ParsePrimary strtod k s = some r) ∧
    (∀ p e s, 5 * pendingInput s + 3 ≤ k → ∃ r, ParseBinOpRHS strtod k p e s = some r) ∧
    (∀ s, 5 * pendingInput s + 4 ≤ k → ∃ r, ParseExpression strtod k s = some r) := by
  intro k
  induction k with
  | zero =>
    refine ⟨?_, ?_, ?_, ?_, ?_, ?_⟩ <;> intros <;> omega
  | succ k ih =>
    obtain ⟨ihParen, ihArgs, ihId, ihPrim, ihBin, ihExpr⟩ := ih
    refine ⟨?_, ?_, ?_, ?_, ?_, ?_⟩
    · intro s hne hk
      rw [ParseParenExpr]
      obtain ⟨s1, h1⟩ := getNextToken_some strtod s
      have d1 := (pendingInput_getNextToken strtod h1).2 hne
      simp only [h1]
      obtain ⟨r2, h2⟩ := ihExpr s1 (by omega)
      obtain ⟨V, s2⟩ := r2
      simp only [h2]
      cases V with
      | none => exact ⟨_, rfl⟩
      | some V =>
        simp only []
        by_cases c1 : (s2.CurTok != 41) = true
        · simp only [c1, if_true]; exact ⟨_, rfl⟩
        · simp only [c1, Bool.false_eq_true, if_false]
          obtain ⟨s3, h3⟩ := getNextToken_some strtod s2
          simp only [h3]; exact ⟨_, rfl⟩
    · intro a s hk
      rw [ParseCallArgs]
      obtain ⟨r2, h2⟩ := ihExpr s (by omega)
      have d2 := (parse_pendingInput strtod k).2.2.2.2.2 _ _ h2
      obtain ⟨V, s1⟩ := r2
      simp only [h2]
      cases V with
      | none => exact ⟨_, rfl⟩
      | some Arg =>
        simp only [] at d2 ⊢
        by_cases c1 : (s1.CurTok == 41) = true
        · simp only [c1, if_true]; exact ⟨_, rfl⟩
        · simp only [c1, Bool.false_eq_true, if_false]
          by_cases c2 : (s1.CurTok != 44) = true
          · simp only [c2, if_true]; exact ⟨_, rfl⟩
          · simp only [c2, Bool.false_eq_true, if_false]
            have hcomma : s1.CurTok = 44 := by simpa using c2
            obtain ⟨s2, h3⟩ := getNextToken_some strtod s1
            have d3 := (pendingInput_getNextToken strtod h3).2 (by rw [hcomma]; decide)
            simp only [h3]
            exact ihArgs _ s2 (by omega)
    · intro s hne hk
      rw [ParseIdentifierExpr]
      obtain ⟨s1, h1⟩ := getNextToken_some strtod s
      have d1 := (pendingInput_getNextToken strtod h1).2 hne
      simp only [h1]
      by_cases c1 : (s1.CurTok != 40) = true
      · simp only [c1, if_true]; exact ⟨_, rfl⟩
      · simp only [c1, Bool.false_eq_true, if_false]
        obtain ⟨s2, h2⟩ := getNextToken_some strtod s1
        have d2 := (pendingInput_getNextToken strtod h2).1
        simp only [h2]
        by_cases c2 : (s2.CurTok != 41) = true
        · simp only [c2, if_true]
          obtain ⟨r3, h3⟩ := ihArgs [] s2 (by omega)
          obtain ⟨V, s3⟩ := r3
          simp only [h3]
          cases V with
          | none => exact ⟨_, rfl⟩
          | some Args =>
            simp only []
            obtain ⟨s4, h4⟩ := getNextToken_some strtod s3
            simp only [h4]; exact ⟨_, rfl⟩
        · simp only [c2, Bool.false_eq_true, if_false]
          obtain ⟨s4, h4⟩ := getNextToken_some strtod s2
          simp only [h4]; exact ⟨_, rfl⟩
    · intro s hk
      rw [ParsePrimary]
      by_cases c1 : s.CurTok = tok_identifier
      · simp only [c1, if_true]
        exact ihId s (by rw [c1]; decide) (by omega)
      · simp only [c1, if_false]
        by_cases c2 : s.CurTok = tok_number
        · simp only [c2, if_true, ParseNumberExpr]
          obtain ⟨s1, h1⟩ := getNextToken_some strtod s
          simp only [h1]; exact ⟨_, rfl⟩
        · simp only [c2, if_false]
          by_cases c3 : s.CurTok = 40
          · simp only [c3, if_true]
            exact ihParen s (by rw [c3]; decide) (by omega)
          · simp only [c3, if_false]; exact ⟨_, rfl⟩
    · intro p e s hk
      rw [ParseBinOpRHS]
      simp only []
      by_cases c1 : (GetTokPrecedence s).1 < p
      · simp only [c1, if_true]; exact ⟨_, rfl⟩
      · simp only [c1, if_false]
        obtain ⟨s2, h1⟩ := getNextToken_some strtod (GetTokPrecedence s).2
        have d1 := (pendingInput_getNextToken strtod h1).1
        rw [pendingInput_GetTokPrecedence] at d1
        simp only [h1]
        obtain ⟨r2, h2⟩ := ihPrim s2 (by omega)
        obtain ⟨V, s3⟩ := r2
        simp only [h2]
        cases V with
        | none => exact ⟨_, rfl⟩
        | some RHS =>
          have d2 := ParsePrimary_pendingInput strtod h2
          have d3 := pendingInput_GetTokPrecedence s3
          simp only []
          by_cases c2 : (GetTokPrecedence s).1 < (GetTokPrecedence s3).1
          · simp only [c2, if_true]
            obtain ⟨r3, h3⟩ := ihBin ((GetTokPrecedence s).1 + 1) RHS (GetTokPrecedence s3).2
              (by omega)
            have d4 := (parse_pendingInput strtod k).2.2.2.2.1 _ _ _ _ h3
            obtain ⟨V1, s5⟩ := r3
            simp only [h3]
            cases V1 with
            | none => exact ⟨_, rfl⟩
            | some RHS1 =>
              simp only [] at d4 ⊢
              exact ihBin _ _ s5 (by omega)
          · simp only [c2, if_false]
            exact ihBin _ _ _ (by omega)
    · intro s hk
      rw [ParseExpression]
      obtain ⟨r2, h2⟩ := ihPrim s (by omega)
      have d2 := (parse_pendingInput strtod k).2.2.2.1 _ _ h2
      obtain ⟨V, s1⟩ := r2
      simp only [h2]
      cases V with
      | none => exact ⟨_, rfl⟩
      | some LHS =>
        simp only [] at d2 ⊢
        exact ihBin _ _ s1 (by omega)

/-! ## Progress of the top-level entry points -/

theorem pendingInput_setCurTok {ν : Type} (s : ParserState ν) (h : s.CurTok ≠ tok_eof) :
    pendingInput { s with CurTok := tok_eof } + 1 = pendingInput s := by
  simp only [pendingInput, if_true, if_neg h]

theorem unread_le_pendingInput {ν : Type} (s : ParserState ν) :
    unread s.lexer ≤ pendingInput s := by
  unfold pendingInput; omega

/-- The function `ParseIdentifierExpr` does not look at the lookahead token itself,
only at the identifier payload and at what follows. -/
theorem ParseIdentifierExpr_setCurTok {ν : Type} (strtod : String → ν) (n : Nat)
    (s : ParserState ν) (c : Int) :
    ParseIdentifierExpr strtod n { s with CurTok := c } = ParseIdentifierExpr strtod n s := by
  cases n with
  | zero => rfl
  | succ k => rw [ParseIdentifierExpr, ParseIdentifierExpr]; rfl

/-- The function `ParseParenExpr` does not look at the lookahead token itself. -/
theorem ParseParenExpr_setCurTok {ν : Type} (strtod : String → ν) (n : Nat)
    (s : ParserState ν) (c : Int) :
    ParseParenExpr strtod n { s with CurTok := c } = ParseParenExpr strtod n s := by
  cases n with
  | zero => rfl
  | succ k => rw [ParseParenExpr, ParseParenExpr]; rfl

/-- Whatever `ParsePrimary` returns, it used up input, or it stopped with an
error on a lookahead that is not `tok_eof`. -/
theorem ParsePrimary_progress {ν : Type} (strtod : String → ν) {n : Nat} {s : ParserState ν}
    {r : Option (ExprAST ν) × ParserState ν} (h : ParsePrimary strtod n s = some r)
    (hne : s.CurTok ≠ tok_eof) :
    pendingInput r.2 < pendingInput s ∨
      (r.1 = none ∧ r.2.CurTok ≠ tok_eof ∧ pendingInput r.2 ≤ pendingInput s) := by
  cases n with
  | zero => simp [ParsePrimary] at h
  | succ k =>
    rw [ParsePrimary] at h
    have hset := pendingInput_setCurTok s hne
    by_cases c1 : s.CurTok = tok_identifier
    · simp only [c1, if_true] at h
      rw [← ParseIdentifierExpr_setCurTok strtod k s tok_eof] at h
      have := (parse_pendingInput strtod k).2.2.1 _ _ h
      exact Or.inl (by omega)
    · simp only [c1, if_false] at h
      by_cases c2 : s.CurTok = tok_number
      · simp only [c2, if_true, ParseNumberExpr] at h
        cases h1 : getNextToken strtod s with
        | none => simp [h1] at h
        | some s2 =>
          simp only [h1, Option.some.injEq] at h
          rw [← h]
          exact Or.inl ((pendingInput_getNextToken strtod h1).2 hne)
      · simp only [c2, if_false] at h
        by_cases c3 : s.CurTok = 40
        · simp only [c3, if_true] at h
          rw [← ParseParenExpr_setCurTok strtod k s tok_eof] at h
          have := (parse_pendingInput strtod k).1 _ _ h
          exact Or.inl (by omega)
        · simp only [c3, if_false, LogError, Option.some.injEq] at h
          rw [← h]
          exact Or.inr ⟨rfl, hne, Nat.le_refl _⟩

/-- Whatever `ParseExpression` returns, it used up input, or it stopped with an
error on a lookahead that is not `tok_eof`. -/
theorem ParseExpression_progress {ν : Type} (strtod : String → ν) {n : Nat}
    {s : ParserState ν} {r : Option (ExprAST ν) × ParserState ν}
    (h : ParseExpression strtod n s = some r) (hne : s.CurTok ≠ tok_eof) :
    pendingInput r.2 < pendingInput s ∨
      (r.1 = none ∧ r.2.CurTok ≠ tok_eof ∧ pendingInput r.2 ≤ pendingInput s) := by
  cases n with
  | zero => simp [ParseExpression] at h
  | succ k =>
    rw [ParseExpression] at h
    cases h2 : ParsePrimary strtod k s with
    | none => simp [h2] at h
    | some r2 =>
      have d2 := ParsePrimary_progress strtod h2 hne
      simp only [h2] at h
      obtain ⟨V, s1⟩ := r2
      cases V with
      | none =>
        simp only [Option.some.injEq] at h
        rw [← h]; exact d2
      | some LHS =>
        simp only [] at h d2
        have d3 := (parse_pendingInput strtod k).2.2.2.2.1 _ _ _ _ h
        rcases d2 with d2 | ⟨d2, _⟩
        · exact Or.inl (by omega)
        · exact absurd d2 (by simp)

theorem ParsePrototypeArgs_pendingInput {ν : Type} (strtod : String → ν) :
    ∀ (n : Nat) (acc : List String) (s : ParserState ν) (r : List String × ParserState ν),
      ParsePrototypeArgs strtod n acc s = some r → pendingInput r.2 ≤ pendingInput s := by
  intro n
  induction n with
  | zero => intro acc s r h; simp [ParsePrototypeArgs] at h
  | succ k ih =>
    intro acc s r h
    rw [ParsePrototypeArgs] at h
    cases h1 : getNextToken strtod s with
    | none => simp [h1] at h
    | some s1 =>
      simp only [h1] at h
      have d1 := (pendingInput_getNextToken strtod h1).1
      by_cases c1 : s1.CurTok = tok_identifier
      · simp only [c1, if_true] at h
        have := ih _ _ _ h
        omega
      · simp only [c1, if_false, Option.some.injEq] at h
        rw [← h]; exact d1

theorem ParsePrototype_pendingInput {ν : Type} (strtod : String → ν) {n : Nat}
    {s : ParserState ν} {r : Option PrototypeAST × ParserState ν}
    (h : ParsePrototype strtod n s = some r) : pendingInput r.2 ≤ pendingInput s := by
  unfold ParsePrototype at h
  by_cases c0 : (s.CurTok != tok_identifier) = true
  · simp only [c0, if_true, LogError, Option.some.injEq] at h
    rw [← h]; exact Nat.le_refl _
  · simp only [c0, Bool.false_eq_true, if_false] at h
    cases h1 : getNextToken strtod s with
    | none => simp [h1] at h
    | some s1 =>
      simp only [h1] at h
      have d1 := (pendingInput_getNextToken strtod h1).1
      by_cases c1 : (s1.CurTok != 40) = true
      · simp only [c1, if_true, LogError, Option.some.injEq] at h
        rw [← h]; exact d1
      · simp only [c1, Bool.false_eq_true, if_false] at h
        cases h2 : ParsePrototypeArgs strtod n [] s1 with
        | none => simp [h2] at h
        | some r2 =>
          have d2 := ParsePrototypeArgs_pendingInput strtod n [] s1 _ h2
          obtain ⟨names, s2⟩ := r2
          simp only [h2] at h
          simp only [] at d2
          by_cases c2 : (s2.CurTok != 41) = true
          · simp only [c2, if_true, LogError, Option.some.injEq] at h
            rw [← h]; exact Nat.le_trans d2 d1
          · simp only [c2, Bool.false_eq_true, if_false] at h
            cases h3 : getNextToken strtod s2 with
            | none => simp [h3] at h
            | some s3 =>
              simp only [h3, Option.some.injEq] at h
              have d3 := (pendingInput_getNextToken strtod h3).1
              rw [← h]
              exact Nat.le_trans d3 (Nat.le_trans d2 d1)

/-- The function `HandleDefinition` returns, given enough fuel, and has then used up input. -/
theorem HandleDefinition_progress {ν : Type} (strtod : String → ν) (fuel : Nat)
    (s : ParserState ν) (hne : s.CurTok ≠ tok_eof) (hfuel : 5 * pendingInput s + 4 ≤ fuel) :
    ∃ s1, HandleDefinition strtod fuel s = some s1 ∧ pendingInput s1 < pendingInput s := by
  unfold HandleDefinition ParseDefinition
  obtain ⟨s1, h1⟩ := getNextToken_some strtod s
  have d1 := (pendingInput_getNextToken strtod h1).2 hne
  simp only [h1]
  obtain ⟨r2, h2⟩ := ParsePrototype_total strtod fuel s1
    (by have := unread_le_pendingInput s1; omega)
  have d2 := ParsePrototype_pendingInput strtod h2
  obtain ⟨P, s2⟩ := r2
  simp only [h2]
  cases P with
  | none =>
    simp only [] at d2 ⊢
    obtain ⟨s3, h3⟩ := getNextToken_some strtod s2
    have d3 := (pendingInput_getNextToken strtod h3).1
    exact ⟨s3, h3, by omega⟩
  | some Proto =>
    simp only [] at d2 ⊢
    obtain ⟨r3, h3⟩ := (parse_total strtod fuel).2.2.2.2.2 s2 (by omega)
    have d3 := (parse_pendingInput strtod fuel).2.2.2.2.2 _ _ h3
    obtain ⟨E, s3⟩ := r3
    simp only [h3]
    cases E with
    | none =>
      simp only [] at d3 ⊢
      obtain ⟨s4, h4⟩ := getNextToken_some strtod s3
      have d4 := (pendingInput_getNextToken strtod h4).1
      exact ⟨s4, h4, by omega⟩
    | some E =>
      simp only [] at d3 ⊢
      exact ⟨_, rfl, by show pendingInput s3 < _; omega⟩

/-- The function `HandleExtern` returns, given enough fuel, and has then used up input. -/
theorem HandleExtern_progress {ν : Type} (strtod : String → ν) (fuel : Nat)
    (s : ParserState ν) (hne : s.CurTok ≠ tok_eof) (hfuel : 5 * pendingInput s + 4 ≤ fuel) :
    ∃ s1, HandleExtern strtod fuel s = some s1 ∧ pendingInput s1 < pendingInput s := by
  unfold HandleExtern ParseExtern
  obtain ⟨s1, h1⟩ := getNextToken_some strtod s
  have d1 := (pendingInput_getNextToken strtod h1).2 hne
  simp only [h1]
  obtain ⟨r2, h2⟩ := ParsePrototype_total strtod fuel s1
    (by have := unread_le_pendingInput s1; omega)
  have d2 := ParsePrototype_pendingInput strtod h2
  obtain ⟨P, s2⟩ := r2
  simp only [h2]
  cases P with
  | none =>
    simp only [] at d2 ⊢
    obtain ⟨s3, h3⟩ := getNextToken_some strtod s2
    have d3 := (pendingInput_getNextToken strtod h3).1
    exact ⟨s3, h3, by omega⟩
  | some Proto =>
    simp only [] at d2 ⊢
    exact ⟨_, rfl, by show pendingInput s2 < _; omega⟩

/-- The function `HandleTopLevelExpression` returns, given enough fuel, and has then
used up input: a failed expression that used nothing up stopped on a token
that the recovery skips. -/
theorem HandleTopLevelExpression_progress {ν : Type} (strtod : String → ν) (fuel : Nat)
    (s : ParserState ν) (hne : s.CurTok ≠ tok_eof) (hfuel : 5 * pendingInput s + 4 ≤ fuel) :
    ∃ s1, HandleTopLevelExpression strtod fuel s = some s1 ∧
      pendingInput s1 < pendingInput s := by
  unfold HandleTopLevelExpression ParseTopLevelExpr
  obtain ⟨r3, h3⟩ := (parse_total strtod fuel).2.2.2.2.2 s hfuel
  have d3 := ParseExpression_progress strtod h3 hne
  obtain ⟨E, s3⟩ := r3
  simp only [h3]
  cases E with
  | none =>
    simp only [] at d3 ⊢
    obtain ⟨s4, h4⟩ := getNextToken_some strtod s3
    have d4 := pendingInput_getNextToken strtod h4
    refine ⟨s4, h4, ?_⟩
    rcases d3 with d3 | ⟨_, d3, d5⟩
    · omega
    · have := d4.2 d3; omega
  | some E =>
    simp only [] at d3 ⊢
    rcases d3 with d3 | ⟨d3, _⟩
    · exact ⟨_, rfl, d3⟩
    · exact absurd d3 (by simp)

/-! ## Relations kept by the top-level entry points -/

theorem StepInvariant.parse {ν : Type} {strtod : String → ν}
    {R : ParserState ν → ParserState ν → Prop} (hR : StepInvariant strtod R) {n : Nat}
    {s : ParserState ν} {r : Option (ExprAST ν) × ParserState ν}
    (h : ParseExpression strtod n s = some r) : R s r.2 :=
  (parse_preserves strtod R hR.trans hR.next hR.prec (fun msg s => hR.out (Output.error msg) s)
    n).2.2.2.2.2 s r h

theorem StepInvariant.prototypeArgs {ν : Type} {strtod : String → ν}
    {R : ParserState ν → ParserState ν → Prop} (hR : StepInvariant strtod R) :
    ∀ (n : Nat) (acc : List String) (s : ParserState ν) (r : List String × ParserState ν),
      ParsePrototypeArgs strtod n acc s = some r → R s r.2 := by
  intro n
  induction n with
  | zero => intro acc s r h; simp [ParsePrototypeArgs] at h
  | succ k ih =>
    intro acc s r h
    rw [ParsePrototypeArgs] at h
    cases h1 : getNextToken strtod s with
    | none => simp [h1] at h
    | some s1 =>
      simp only [h1] at h
      have d1 := hR.next _ _ h1
      by_cases c1 : s1.CurTok = tok_identifier
      · simp only [c1, if_true] at h
        exact hR.trans _ _ _ d1 (ih _ _ _ h)
      · simp only [c1, if_false, Option.some.injEq] at h
        rw [← h]; exact d1

theorem StepInvariant.prototype {ν : Type} {strtod : String → ν}
    {R : ParserState ν → ParserState ν → Prop} (hR : StepInvariant strtod R) {n : Nat}
    {s : ParserState ν} {r : Option PrototypeAST × ParserState ν}
    (h : ParsePrototype strtod n s = some r) : R s r.2 := by
  unfold ParsePrototype at h
  by_cases c0 : (s.CurTok != tok_identifier) = true
  · simp only [c0, if_true, LogError, Option.some.injEq] at h
    rw [← h]; exact hR.out _ _
  · simp only [c0, Bool.false_eq_true, if_false] at h
    cases h1 : getNextToken strtod s with
    | none => simp [h1] at h
    | some s1 =>
      simp only [h1] at h
      have d1 := hR.next _ _ h1
      by_cases c1 : (s1.CurTok != 40) = true
      · simp only [c1, if_true, LogError, Option.some.injEq] at h
        rw [← h]; exact hR.trans _ _ _ d1 (hR.out _ _)
      · simp only [c1, Bool.false_eq_true, if_false] at h
        cases h2 : ParsePrototypeArgs strtod n [] s1 with
        | none => simp [h2] at h
        | some r2 =>
          have d2 := hR.prototypeArgs n [] s1 _ h2
          obtain ⟨names, s2⟩ := r2
          simp only [h2] at h
          simp only [] at d2
          by_cases c2 : (s2.CurTok != 41) = true
          · simp only [c2, if_true, LogError, Option.some.injEq] at h
            rw [← h]; exact hR.trans _ _ _ d1 (hR.trans _ _ _ d2 (hR.out _ _))
          · simp only [c2, Bool.false_eq_true, if_false] at h
            cases h3 : getNextToken strtod s2 with
            | none => simp [h3] at h
            | some s3 =>
              simp only [h3, Option.some.injEq] at h
              have d3 := hR.next _ _ h3
              rw [← h]
              exact hR.trans _ _ _ d1 (hR.trans _ _ _ d2 d3)

theorem StepInvariant.handleDefinition {ν : Type} {strtod : String → ν}
    {R : ParserState ν → ParserState ν → Prop} (hR : StepInvariant strtod R) {n : Nat}
    {s s1 : ParserState ν} (h : HandleDefinition strtod n s = some s1) : R s s1 := by
  unfold HandleDefinition ParseDefinition at h
  cases h1 : getNextToken strtod s with
  | none => simp [h1] at h
  | some sa =>
    simp only [h1] at h
    have d1 := hR.next _ _ h1
    cases h2 : ParsePrototype strtod n sa with
    | none => simp [h2] at h
    | some r2 =>
      have d2 := hR.prototype h2
      obtain ⟨P, sb⟩ := r2
      simp only [h2] at h
      cases P with
      | none =>
        simp only [] at h d2
        exact hR.trans _ _ _ d1 (hR.trans _ _ _ d2 (hR.next _ _ h))
      | some Proto =>
        simp only [] at h d2
        cases h3 : ParseExpression strtod n sb with
        | none => simp [h3] at h
        | some r3 =>
          have d3 := hR.parse h3
          obtain ⟨E, sc⟩ := r3
          simp only [h3] at h
          cases E with
          | none =>
            simp only [] at h d3
            exact hR.trans _ _ _ d1 (hR.trans _ _ _ d2 (hR.trans _ _ _ d3 (hR.next _ _ h)))
          | some E =>
            simp only [Option.some.injEq] at h d3
            rw [← h]
            exact hR.trans _ _ _ d1 (hR.trans _ _ _ d2 (hR.trans _ _ _ d3 (hR.out _ _)))

theorem StepInvariant.handleExtern {ν : Type} {strtod : String → ν}
    {R : ParserState ν → ParserState ν → Prop} (hR : StepInvariant strtod R) {n : Nat}
    {s s1 : ParserState ν} (h : HandleExtern strtod n s = some s1) : R s s1 := by
  unfold HandleExtern ParseExtern at h
  cases h1 : getNextToken strtod s with
  | none => simp [h1] at h
  | some sa =>
    simp only [h1] at h
    have d1 := hR.next _ _ h1
    cases h2 : ParsePrototype strtod n sa with
    | none => simp [h2] at h
    | some r2 =>
      have d2 := hR.prototype h2
      obtain ⟨P, sb⟩ := r2
      simp only [h2] at h
      cases P with
      | none =>
        simp only [] at h d2
        exact hR.trans _ _ _ d1 (hR.trans _ _ _ d2 (hR.next _ _ h))
      | some Proto =>
        simp only [Option.some.injEq] at h d2
        rw [← h]
        exact hR.trans _ _ _ d1 (hR.trans _ _ _ d2 (hR.out _ _))

theorem StepInvariant.handleTopLevelExpression {ν : Type} {strtod : String → ν}
    {R : ParserState ν → ParserState ν → Prop} (hR : StepInvariant strtod R) {n : Nat}
    {s s1 : ParserState ν} (h : HandleTopLevelExpression strtod n s = some s1) : R s s1 := by
  unfold HandleTopLevelExpression ParseTopLevelExpr at h
  cases h3 : ParseExpression strtod n s with
  | none => simp [h3] at h
  | some r3 =>
    have d3 := hR.parse h3
    obtain ⟨E, sc⟩ := r3
    simp only [h3] at h
    cases E with
    | none =>
      simp only [] at h d3
      exact hR.trans _ _ _ d3 (hR.next _ _ h)
    | some E =>
      simp only [Option.some.injEq] at h d3
      rw [← h]; exact d3

theorem StepInvariant.mainLoopSwitch {ν : Type} {strtod : String → ν}
    {R : ParserState ν → ParserState ν → Prop} (hR : StepInvariant strtod R) {n : Nat}
    {s : ParserState ν} {r : Bool × ParserState ν}
    (h : MainLoopSwitch strtod n s = some r) : R s r.2 := by
  unfold MainLoopSwitch at h
  by_cases c0 : s.CurTok = tok_eof
  · simp only [c0, if_true, Option.some.injEq] at h
    rw [← h]; exact hR.refl _
  · simp only [c0, if_false] at h
    by_cases c1 : s.CurTok = 59
    · simp only [c1, if_true, Option.map_eq_some'] at h
      obtain ⟨a, ha, rfl⟩ := h
      exact hR.next _ _ ha
    · simp only [c1, if_false] at h
      by_cases c2 : s.CurTok = tok_def
      · simp only [c2, if_true, Option.map_eq_some'] at h
        obtain ⟨a, ha, rfl⟩ := h
        exact hR.handleDefinition ha
      · simp only [c2, if_false] at h
        by_cases c3 : s.CurTok = tok_extern
        · simp only [c3, if_true, Option.map_eq_some'] at h
          obtain ⟨a, ha, rfl⟩ := h
          exact hR.handleExtern ha
        · simp only [c3, if_false, Option.map_eq_some'] at h
          obtain ⟨a, ha, rfl⟩ := h
          exact hR.handleTopLevelExpression ha

/-! ## Counting the tokens read -/

theorem gettokNth_comp {ν : Type} (strtod : String → ν) :
    ∀ (a : Nat) (l : LexState ν) (t : Int) (l1 : LexState ν),
      gettokNth strtod a l = some (t, l1) →
      ∀ (b : Nat) (r : Int × LexState ν), gettokNth strtod b l1 = some r →
        gettokNth strtod (a + b + 1) l = some r := by
  intro a
  induction a with
  | zero =>
    intro l t l1 h b r hb
    rw [gettokNth] at h
    rw [Nat.zero_add, gettokNth]
    simp only [h]; exact hb
  | succ k ih =>
    intro l t l1 h b r hb
    rw [gettokNth] at h
    have e : k + 1 + b + 1 = (k + b + 1) + 1 := by omega
    rw [e, gettokNth]
    cases h1 : gettok strtod l with
    | none => simp [h1] at h
    | some q =>
      obtain ⟨t0, l0⟩ := q
      simp only [h1] at h ⊢
      exact ih _ _ _ h b r hb

theorem tokensRead_stepInvariant {ν : Type} (strtod : String → ν) :
    StepInvariant strtod (fun s s1 : ParserState ν => ∃ n, tokensRead strtod n s s1) where
  refl := fun s => ⟨0, rfl, rfl⟩
  trans := by
    intro s1 s2 s3 ⟨a, ha⟩ ⟨b, hb⟩
    cases a with
    | zero =>
      obtain ⟨e1, e2⟩ := ha
      cases b with
      | zero => exact ⟨0, hb.1.trans e1, hb.2.trans e2⟩
      | succ j => exact ⟨j + 1, by simp only [tokensRead] at hb ⊢; rw [← e1]; exact hb⟩
    | succ k =>
      cases b with
      | zero =>
        refine ⟨k + 1, ?_⟩
        simp only [tokensRead] at ha hb ⊢
        rw [hb.1, hb.2]; exact ha
      | succ j =>
        refine ⟨(k + j + 1) + 1, ?_⟩
        simp only [tokensRead] at ha hb ⊢
        exact gettokNth_comp strtod k _ _ _ ha j _ hb
  next := by
    intro s s1 h
    refine ⟨1, ?_⟩
    simp only [tokensRead, gettokNth]
    unfold getNextToken at h
    cases h1 : gettok strtod s.lexer with
    | none => simp [h1] at h
    | some q =>
      obtain ⟨t, l⟩ := q
      simp only [h1, Option.some.injEq] at h
      rw [← h]
  prec := fun s => ⟨0, (GetTokPrecedence_fields s).1, (GetTokPrecedence_fields s).2.1⟩
  out := fun _ _ => ⟨0, rfl, rfl⟩

theorem pendingInput_of_tokensRead_zero {ν : Type} (strtod : String → ν) {s s1 : ParserState ν}
    (h : tokensRead strtod 0 s s1) : pendingInput s1 = pendingInput s := by
  obtain ⟨e1, e2⟩ := h
  simp only [pendingInput, e1, e2]

/-! ## The driver terminates -/

theorem HandleDefinition_fuel {ν : Type} (strtod : String → ν) {n : Nat} {s s1 : ParserState ν}
    (h : HandleDefinition strtod n s = some s1) :
    ∀ m, n ≤ m → HandleDefinition strtod m s = some s1 := by
  intro m hm
  unfold HandleDefinition ParseDefinition at h ⊢
  cases h1 : getNextToken strtod s with
  | none => simp [h1] at h
  | some sa =>
    simp only [h1] at h ⊢
    cases h2 : ParsePrototype strtod n sa with
    | none => simp [h2] at h
    | some r2 =>
      rw [ParsePrototype_fuel strtod h2 m hm]
      obtain ⟨P, sb⟩ := r2
      simp only [h2] at h
      cases P with
      | none => exact h
      | some Proto =>
        simp only [] at h ⊢
        cases h3 : ParseExpression strtod n sb with
        | none => simp [h3] at h
        | some r3 =>
          rw [ParseExpression_fuel strtod h3 m hm]
          simp only [h3] at h
          exact h

theorem HandleExtern_fuel {ν : Type} (strtod : String → ν) {n : Nat} {s s1 : ParserState ν}
    (h : HandleExtern strtod n s = some s1) :
    ∀ m, n ≤ m → HandleExtern strtod m s = some s1 := by
  intro m hm
  unfold HandleExtern ParseExtern at h ⊢
  cases h1 : getNextToken strtod s with
  | none => simp [h1] at h
  | some sa =>
    simp only [h1] at h ⊢
    cases h2 : ParsePrototype strtod n sa with
    | none => simp [h2] at h
    | some r2 =>
      rw [ParsePrototype_fuel strtod h2 m hm]
      simp only [h2] at h
      exact h

theorem HandleTopLevelExpression_fuel {ν : Type} (strtod : String → ν) {n : Nat}
    {s s1 : ParserState ν} (h : HandleTopLevelExpression strtod n s = some s1) :
    ∀ m, n ≤ m → HandleTopLevelExpression strtod m s = some s1 := by
  intro m hm
  unfold HandleTopLevelExpression ParseTopLevelExpr at h ⊢
  cases h3 : ParseExpression strtod n s with
  | none => simp [h3] at h
  | some r3 =>
    rw [ParseExpression_fuel strtod h3 m hm]
    simp only [h3] at h
    exact h

theorem MainLoopSwitch_fuel {ν : Type} (strtod : String → ν) {n : Nat} {s : ParserState ν}
    {r : Bool × ParserState ν} (h : MainLoopSwitch strtod n s = some r) :
    ∀ m, n ≤ m → MainLoopSwitch strtod m s = some r := by
  intro m hm
  unfold MainLoopSwitch at h ⊢
  by_cases c0 : s.CurTok = tok_eof
  · simp only [c0, if_true] at h ⊢; exact h
  · simp only [c0, if_false] at h ⊢
    by_cases c1 : s.CurTok = 59
    · simp only [c1, if_true] at h ⊢; exact h
    · simp only [c1, if_false] at h ⊢
      by_cases c2 : s.CurTok = tok_def
      · simp only [c2, if_true, Option.map_eq_some'] at h ⊢
        obtain ⟨a, ha, e⟩ := h
        exact ⟨a, HandleDefinition_fuel strtod ha m hm, e⟩
      · simp only [c2, if_false] at h ⊢
        by_cases c3 : s.CurTok = tok_extern
        · simp only [c3, if_true, Option.map_eq_some'] at h ⊢
          obtain ⟨a, ha, e⟩ := h
          exact ⟨a, HandleExtern_fuel strtod ha m hm, e⟩
        · simp only [c3, if_false, Option.map_eq_some'] at h ⊢
          obtain ⟨a, ha, e⟩ := h
          exact ⟨a, HandleTopLevelExpression_fuel strtod ha m hm, e⟩

theorem MainLoopWhile_fuel {ν : Type} (strtod : String → ν) :
    ∀ (n : Nat) (s s1 : ParserState ν), MainLoopWhile strtod n s = some s1 →
      ∀ m, n ≤ m → MainLoopWhile strtod m s = some s1 := by
  intro n
  induction n with
  | zero => intro s s1 h; simp [MainLoopWhile] at h
  | succ k ih =>
    intro s s1 h m hm
    obtain ⟨j, rfl⟩ : ∃ j, m = j + 1 := ⟨m - 1, by omega⟩
    rw [MainLoopWhile] at h ⊢
    cases h1 : MainLoopSwitch strtod k { s with stderr := s.stderr ++ [Output.prompt] } with
    | none => simp [h1] at h
    | some r =>
      rw [MainLoopSwitch_fuel strtod h1 j (by omega)]
      obtain ⟨b, s2⟩ := r
      simp only [h1] at h
      cases b with
      | true => exact h
      | false => exact ih _ _ h j (by omega)

theorem MainLoop_fuel {ν : Type} (strtod : String → ν) {n : Nat} {s s1 : ParserState ν}
    (h : MainLoop strtod n s = some s1) : ∀ m, n ≤ m → MainLoop strtod m s = some s1 := by
  intro m hm
  unfold MainLoop at h ⊢
  cases h1 : MainLoopSwitch strtod n s with
  | none => simp [h1] at h
  | some r =>
    rw [MainLoopSwitch_fuel strtod h1 m hm]
    obtain ⟨b, s2⟩ := r
    simp only [h1] at h
    cases b with
    | true => exact h
    | false => exact MainLoopWhile_fuel strtod _ _ _ h m hm

/-- One turn of the dispatch on a lookahead other than `tok_eof` returns, given
enough fuel, does not leave the loop, and has used up input. -/
theorem MainLoopSwitch_progress {ν : Type} (strtod : String → ν) (fuel : Nat)
    (s : ParserState ν) (hne : s.CurTok ≠ tok_eof) (hfuel : 5 * pendingInput s + 4 ≤ fuel) :
    ∃ s1, MainLoopSwitch strtod fuel s = some (false, s1) ∧
      pendingInput s1 < pendingInput s := by
  unfold MainLoopSwitch
  simp only [if_neg hne]
  by_cases c1 : s.CurTok = 59
  · simp only [c1, if_true]
    obtain ⟨s1, h1⟩ := getNextToken_some strtod s
    exact ⟨s1, by rw [h1]; rfl, (pendingInput_getNextToken strtod h1).2 hne⟩
  · simp only [c1, if_false]
    by_cases c2 : s.CurTok = tok_def
    · simp only [c2, if_true]
      obtain ⟨s1, h1, d⟩ := HandleDefinition_progress strtod fuel s hne hfuel
      exact ⟨s1, by rw [h1]; rfl, d⟩
    · simp only [c2, if_false]
      by_cases c3 : s.CurTok = tok_extern
      · simp only [c3, if_true]
        obtain ⟨s1, h1, d⟩ := HandleExtern_progress strtod fuel s hne hfuel
        exact ⟨s1, by rw [h1]; rfl, d⟩
      · simp only [c3, if_false]
        obtain ⟨s1, h1, d⟩ := HandleTopLevelExpression_progress strtod fuel s hne hfuel
        exact ⟨s1, by rw [h1]; rfl, d⟩

theorem MainLoopSwitch_eof {ν : Type} (strtod : String → ν) (fuel : Nat) (s : ParserState ν)
    (h : s.CurTok = tok_eof) : MainLoopSwitch strtod fuel s = some (true, s) := by
  unfold MainLoopSwitch
  simp only [h, if_true]

theorem MainLoopWhile_terminates {ν : Type} (strtod : String → ν) :
    ∀ (fuel : Nat) (s : ParserState ν), 5 * pendingInput s + 5 ≤ fuel →
      ∃ s1, MainLoopWhile strtod fuel s = some s1 ∧ s1.CurTok = tok_eof := by
  intro fuel
  induction fuel with
  | zero => intro s h; omega
  | succ k ih =>
    intro s h
    rw [MainLoopWhile]
    have hp : pendingInput { s with stderr := s.stderr ++ [Output.prompt] } = pendingInput s := rfl
    by_cases c0 : s.CurTok = tok_eof
    · rw [MainLoopSwitch_eof strtod k { s with stderr := s.stderr ++ [Output.prompt] } c0]
      exact ⟨_, rfl, c0⟩
    · obtain ⟨s1, h1, d⟩ := MainLoopSwitch_progress strtod k
        { s with stderr := s.stderr ++ [Output.prompt] } c0 (by rw [hp]; omega)
      rw [h1]
      exact ih s1 (by rw [hp] at d; omega)

theorem MainLoop_total {ν : Type} (strtod : String → ν) (fuel : Nat) (s : ParserState ν)
    (hfuel : 5 * pendingInput s + 5 ≤ fuel) :
    ∃ s1, MainLoop strtod fuel s = some s1 ∧ s1.CurTok = tok_eof := by
  unfold MainLoop
  by_cases c0 : s.CurTok = tok_eof
  · rw [MainLoopSwitch_eof strtod fuel _ c0]
    exact ⟨_, rfl, c0⟩
  · obtain ⟨s1, h1, d⟩ := MainLoopSwitch_progress strtod fuel s c0 (by omega)
    rw [h1]
    exact MainLoopWhile_terminates strtod fuel s1 (by omega)

/-- C15. For every input and every precedence table (every state `s`), `MainLoop`
terminates: there is a final state, with lookahead `tok_eof`, that `MainLoop`
returns for every amount of fuel from `5 * pendingInput s + 5` on; and every
turn of the dispatch taken while the lookahead is not `tok_eof` stays in the
loop and reads at least one token, which leaves strictly less input. -/
theorem MainLoop_terminates {ν : Type} (strtod : String → ν) (s : ParserState ν) :
    (∃ s1, s1.CurTok = tok_eof ∧
      ∀ fuel, 5 * pendingInput s + 5 ≤ fuel → MainLoop strtod fuel s = some s1) ∧
    (∀ fuel b s1, s.CurTok ≠ tok_eof → MainLoopSwitch strtod fuel s = some (b, s1) →
      b = false ∧ pendingInput s1 < pendingInput s ∧
        ∃ n, 0 < n ∧ tokensRead strtod n s s1) := by
  constructor
  · obtain ⟨s1, h1, e⟩ := MainLoop_total strtod (5 * pendingInput s + 5) s (Nat.le_refl _)
    exact ⟨s1, e, fun fuel hf => MainLoop_fuel strtod h1 fuel hf⟩
  · intro fuel b s1 hne h
    obtain ⟨s2, h2, d⟩ := MainLoopSwitch_progress strtod (max fuel (5 * pendingInput s + 4)) s
      hne (Nat.le_max_right _ _)
    have h3 := MainLoopSwitch_fuel strtod h _ (Nat.le_max_left fuel (5 * pendingInput s + 4))
    rw [h2] at h3
    simp only [Option.some.injEq, Prod.mk.injEq] at h3
    obtain ⟨e1, e2⟩ := h3
    subst e2
    refine ⟨e1.symm, d, ?_⟩
    obtain ⟨n, hn⟩ := (tokensRead_stepInvariant strtod).mainLoopSwitch h
    cases n with
    | zero =>
      have := pendingInput_of_tokensRead_zero strtod hn
      simp only [] at this
      omega
    | succ k => exact ⟨k + 1, Nat.succ_pos _, hn⟩

/-- C15, witness: on `) 1;` the first turn fails on `')'` and skips it, the second
parses `1`, the third skips `';'`, and the loop returns on `tok_eof`; one more
unit of fuel gives the same result. -/
theorem MainLoop_terminates_witness :
    (MainLoop (fun x => x) 25
        (⟨⟨32, "1;".toList, "", ""⟩, 41, [('+', 20)], []⟩ : ParserState String) =
      some ⟨⟨EOF, [], "1", ""⟩, tok_eof, [('+', 20), (';', 0)],
        [Output.error "unknown token when expecting an expression",
          Output.prompt, Output.prompt, Output.prompt]⟩ ∧
      MainLoop (fun x => x) 26
          (⟨⟨32, "1;".toList, "", ""⟩, 41, [('+', 20)], []⟩ : ParserState String) =
        MainLoop (fun x => x) 25 ⟨⟨32, "1;".toList, "", ""⟩, 41, [('+', 20)], []⟩) ∧
    (MainLoopSwitch (fun x => x) 25
        (⟨⟨32, "1;".toList, "", ""⟩, 41, [('+', 20)], []⟩ : ParserState String) =
      some (false, ⟨⟨59, [], "1", ""⟩, tok_number, [('+', 20)],
        [Output.error "unknown token when expecting an expression"]⟩) ∧
      pendingInput (⟨⟨59, [], "1", ""⟩, tok_number, [('+', 20)],
          [Output.error "unknown token when expecting an expression"]⟩ : ParserState String) <
        pendingInput (⟨⟨32, "1;".toList, "", ""⟩, 41, [('+', 20)], []⟩ : ParserState String)) :=
  ⟨⟨rfl,
    match (MainLoop_terminates (fun x => x)
      (⟨⟨32, "1;".toList, "", ""⟩, 41, [('+', 20)], []⟩ : ParserState String)).1 with
    | ⟨_, _, h⟩ => (h 26 (by decide)).trans (h 25 (by decide)).symm⟩,
   rfl,
   ((MainLoop_terminates (fun x => x)
      (⟨⟨32, "1;".toList, "", ""⟩, 41, [('+', 20)], []⟩ : ParserState String)).2 25 false
      ⟨⟨59, [], "1", ""⟩, tok_number, [('+', 20)],
        [Output.error "unknown token when expecting an expression"]⟩ (by decide) rfl).2.1⟩

/-! ## Parsing keeps the order of operands and operators -/

theorem ParsePrimary_of_Operand {ν : Type} (strtod : String → ν) {s s1 : ParserState ν}
    {x : ExprAST ν} (h : Operand strtod s x s1) (n : Nat) :
    ParsePrimary strtod (n + 2) s = some (some x, s1) ∧ inorder x = [Item.operand x] := by
  obtain ⟨hn, h | h⟩ := h
  · obtain ⟨c, rfl⟩ := h
    refine ⟨?_, rfl⟩
    have c1 : s.CurTok ≠ tok_identifier := by rw [c]; decide
    rw [ParsePrimary, if_neg c1, if_pos c]
    simp only [ParseNumberExpr, hn]
  · obtain ⟨c, hp, rfl⟩ := h
    refine ⟨?_, rfl⟩
    rw [ParsePrimary]
    simp only [c, if_true]
    rw [ParseIdentifierExpr]
    simp only [hn]
    have : (s1.CurTok != 40) = true := by simpa using hp
    simp only [this, if_true]

theorem chainItems_append {ν : Type} (c d : List (Char × ExprAST ν)) :
    chainItems (c ++ d) = chainItems c ++ chainItems d := by
  induction c with
  | nil => rfl
  | cons a c ih =>
    obtain ⟨op, x⟩ := a
    show Item.operator op :: Item.operand x :: chainItems (c ++ d) = _
    rw [ih]; rfl

theorem OperatorChain_prec {ν : Type} (strtod : String → ν) {s e : ParserState ν}
    {c : List (Char × ExprAST ν)} (h : OperatorChain strtod s c e) :
    OperatorChain strtod (GetTokPrecedence s).2 c e := by
  cases h with
  | done hd =>
    have := @OperatorChain.done ν strtod (GetTokPrecedence s).2
      (by rw [GetTokPrecedence_idem]; exact hd)
    rw [GetTokPrecedence_idem] at this
    exact this
  | step hc hp hn ho hr =>
    rw [GetTokPrecedence_of_pos s hp]
    exact OperatorChain.step hc hp hn ho hr

theorem OperatorChain_end {ν : Type} (strtod : String → ν) {s e : ParserState ν}
    {c : List (Char × ExprAST ν)} (h : OperatorChain strtod s c e)
    (hneg : (GetTokPrecedence s).1 < 0) : c = [] ∧ e = (GetTokPrecedence s).2 := by
  cases h with
  | done hd => exact ⟨rfl, rfl⟩
  | step hc hp hn ho hr => omega

/-- Over an operator chain `ParseBinOpRHS` returns, given enough fuel: it takes a
front part of the chain, and the tree it builds lists `LHS` and that part in
the order of the input. -/
theorem ParseBinOpRHS_chain {ν : Type} (strtod : String → ν) :
    ∀ (n : Nat) (c : List (Char × ExprAST ν)) (s e : ParserState ν) (p : Int) (LHS : ExprAST ν),
      OperatorChain strtod s c e → c.length + 3 ≤ n → 0 ≤ p →
      ∃ t s1 c1 c2, ParseBinOpRHS strtod n p LHS s = some (some t, s1) ∧ c = c1 ++ c2 ∧
        OperatorChain strtod s1 c2 e ∧ inorder t = inorder LHS ++ chainItems c1 ∧
        (GetTokPrecedence s1).1 < p ∧ (GetTokPrecedence s1).2 = s1 := by
  intro n
  induction n with
  | zero => intro c s e p LHS _ h; omega
  | succ k ih =>
    intro c s e p LHS hc hk hp
    by_cases hstop : (GetTokPrecedence s).1 < p
    · refine ⟨LHS, (GetTokPrecedence s).2, [], c, ParseBinOpRHS_stop strtod k p LHS s hstop, rfl,
        OperatorChain_prec strtod hc, by simp [chainItems], ?_, ?_⟩
      · rw [GetTokPrecedence_idem]; exact hstop
      · rw [GetTokPrecedence_idem]
    · cases hc with
      | done hd => omega
      | @step _ sa sb _ op x rest hcur hpos hn ho hr =>
        simp only [List.length_cons] at hk
        have hsame := GetTokPrecedence_of_pos s hpos
        obtain ⟨j, rfl⟩ : ∃ j, k = j + 2 := ⟨k - 2, by omega⟩
        obtain ⟨hprim, hleaf⟩ := ParsePrimary_of_Operand strtod ho j
        have hop : toChar s.CurTok = op := by
          have := isascii_of_pos s hpos
          rw [hcur] at this ⊢
          exact toChar_code_of_isascii this
        by_cases hnext : (GetTokPrecedence s).1 < (GetTokPrecedence sb).1
        · obtain ⟨R1, s5, c1, c2, h5, e5, ch5, in5, _, _⟩ :=
            ih rest (GetTokPrecedence sb).2 e ((GetTokPrecedence s).1 + 1) x
              (OperatorChain_prec strtod hr) (by omega) (by omega)
          have hlen : c2.length ≤ rest.length := by rw [e5]; simp
          obtain ⟨t, s6, d1, d2, h6, e6, ch6, in6, lt6, id6⟩ :=
            ih c2 s5 e p (ExprAST.Binary op LHS R1) ch5 (by omega) hp
          refine ⟨t, s6, (op, x) :: (c1 ++ d1), d2, ?_, ?_, ch6, ?_, lt6, id6⟩
          · rw [ParseBinOpRHS_climb strtod (j + 2) p LHS x R1 s sa sb s5 hstop
              (by rw [hsame]; exact hn) hprim hnext h5, hop]
            exact h6
          · rw [e5, e6]; simp
          · rw [in6, inorder, in5, hleaf]
            simp [chainItems, chainItems_append]
        · obtain ⟨t, s6, d1, d2, h6, e6, ch6, in6, lt6, id6⟩ :=
            ih rest (GetTokPrecedence sb).2 e p (ExprAST.Binary op LHS x)
              (OperatorChain_prec strtod hr) (by omega) hp
          refine ⟨t, s6, (op, x) :: d1, d2, ?_, ?_, ch6, ?_, lt6, id6⟩
          · rw [ParseBinOpRHS_fold strtod (j + 2) p LHS x s sa sb hstop
              (by rw [hsame]; exact hn) hprim hnext, hop]
            exact h6
          · rw [e6]; simp
          · rw [in6, inorder, hleaf]
            simp [chainItems]

/-- C19. For every precedence table (that of `s`) and every token sequence
`x_0 o_1 x_1 ... o_n x_n` from the lookahead of `s` on, with every `x_i` a number
token or an identifier token not followed by `'('` and every `o_i` a character
of positive precedence, followed by a token of precedence `-1`:
`ParseExpression` succeeds with any fuel from `n + 4` on, stops on that token,
and the in-order traversal of the tree it returns is exactly
`x_0, o_1, x_1, ..., o_n, x_n`. -/
theorem ParseExpression_inorder {ν : Type} (strtod : String → ν) (fuel : Nat)
    (s s1 e : ParserState ν) (x0 : ExprAST ν) (c : List (Char × ExprAST ν))
    (h0 : Operand strtod s x0 s1) (hc : OperatorChain strtod s1 c e)
    (hfuel : c.length + 4 ≤ fuel) :
    ∃ t, ParseExpression strtod fuel s = some (some t, e) ∧
      inorder t = Item.operand x0 :: chainItems c := by
  obtain ⟨k, rfl⟩ : ∃ k, fuel = (k + 2) + 1 := ⟨fuel - 3, by omega⟩
  obtain ⟨hprim, hleaf⟩ := ParsePrimary_of_Operand strtod h0 k
  obtain ⟨t, s2, c1, c2, h2, e2, ch2, in2, lt2, id2⟩ :=
    ParseBinOpRHS_chain strtod (k + 2) c s1 e 0 x0 hc (by omega) (Int.le_refl 0)
  obtain ⟨rfl, rfl⟩ := OperatorChain_end strtod ch2 lt2
  refine ⟨t, ?_, ?_⟩
  · rw [ParseExpression]
    simp only [hprim, h2, id2]
  · rw [in2, hleaf, e2]
    simp

/-- C19, witness: the tree of `1+x*3` lists `1`, `+`, `x`, `*`, `3` in this order. -/
theorem ParseExpression_inorder_witness :
    (ParseExpression (fun x => x) 6
        (⟨⟨43, "x*3".toList, "1", ""⟩, tok_number, [('*', 40), ('+', 20)], []⟩ :
          ParserState String)).map (fun r => r.1.map inorder) =
      some (some [Item.operand (ExprAST.Number "1"), Item.operator '+',
        Item.operand (ExprAST.Variable "x"), Item.operator '*',
        Item.operand (ExprAST.Number "3")]) :=
  match ParseExpression_inorder (fun x => x) 6
      (⟨⟨43, "x*3".toList, "1", ""⟩, tok_number, [('*', 40), ('+', 20)], []⟩ :
        ParserState String)
      ⟨⟨120, "*3".toList, "1", ""⟩, 43, [('*', 40), ('+', 20)], []⟩
      ⟨⟨EOF, [], "3", "x"⟩, tok_eof, [('*', 40), ('+', 20)], []⟩
      (ExprAST.Number "1")
      [('+', ExprAST.Variable "x"), ('*', ExprAST.Number "3")]
      ⟨rfl, Or.inl ⟨rfl, rfl⟩⟩
      (@OperatorChain.step String (fun x => x)
        ⟨⟨120, "*3".toList, "1", ""⟩, 43, [('*', 40), ('+', 20)], []⟩
        ⟨⟨42, "3".toList, "1", "x"⟩, tok_identifier, [('*', 40), ('+', 20)], []⟩
        ⟨⟨51, [], "1", "x"⟩, 42, [('*', 40), ('+', 20)], []⟩
        ⟨⟨EOF, [], "3", "x"⟩, tok_eof, [('*', 40), ('+', 20)], []⟩
        '+' (ExprAST.Variable "x") [('*', ExprAST.Number "3")]
        rfl (by decide) rfl ⟨rfl, Or.inr ⟨rfl, by decide, rfl⟩⟩
        (@OperatorChain.step String (fun x => x)
          ⟨⟨51, [], "1", "x"⟩, 42, [('*', 40), ('+', 20)], []⟩
          ⟨⟨EOF, [], "3", "x"⟩, tok_number, [('*', 40), ('+', 20)], []⟩
          ⟨⟨EOF, [], "3", "x"⟩, tok_eof, [('*', 40), ('+', 20)], []⟩
          ⟨⟨EOF, [], "3", "x"⟩, tok_eof, [('*', 40), ('+', 20)], []⟩
          '*' (ExprAST.Number "3") []
          rfl (by decide) rfl ⟨rfl, Or.inl ⟨rfl, rfl⟩⟩
          (@OperatorChain.done String (fun x => x)
            ⟨⟨EOF, [], "3", "x"⟩, tok_eof, [('*', 40), ('+', 20)], []⟩ (by decide))))
      (by decide) with
  | ⟨_, h, hi⟩ => by rw [h]; exact congrArg (fun l => some (some l)) hi

/-! ## Grouping by precedence -/

theorem code_toChar_of_isascii {i : Int} (h : isascii i = true) : code (toChar i) = i := by
  unfold isascii at h
  simp only [Bool.and_eq_true, decide_eq_true_eq] at h
  obtain ⟨n, rfl⟩ : ∃ n : Nat, i = n := ⟨i.toNat, by omega⟩
  unfold code toChar
  have h1 : ((n : Int) % 256).toNat = n := by omega
  rw [h1]
  have hv : n.isValidChar := Or.inl (by omega)
  simp only [Char.ofNat, hv, dif_pos]
  rfl

theorem Along_stepInvariant {ν : Type} (strtod : String → ν) :
    StepInvariant strtod (Along strtod : ParserState ν → ParserState ν → Prop) where
  refl := fun s => ⟨Nat.le_refl _, sameLookups_refl _, (tokensRead_stepInvariant strtod).refl s⟩
  trans := fun a b c h1 h2 =>
    ⟨Nat.le_trans h2.1 h1.1, sameLookups_trans h1.2.1 h2.2.1,
      (tokensRead_stepInvariant strtod).trans a b c h1.2.2 h2.2.2⟩
  next := fun a b h =>
    ⟨(getNextToken_unread strtod h).1,
      by rw [(getNextToken_table strtod h).1]; exact sameLookups_refl _,
      (tokensRead_stepInvariant strtod).next a b h⟩
  prec := fun s =>
    ⟨by rw [(GetTokPrecedence_fields s).1], (GetTokPrecedence_fields s).2.2.2,
      (tokensRead_stepInvariant strtod).prec s⟩
  out := fun x s =>
    ⟨Nat.le_refl _, sameLookups_refl _, (tokensRead_stepInvariant strtod).out x s⟩

theorem parse_Along {ν : Type} (strtod : String → ν) (n : Nat) :
    (∀ s r, ParseParenExpr strtod n s = some r → Along strtod s r.2) ∧
    (∀ a s r, ParseCallArgs strtod n a s = some r → Along strtod s r.2) ∧
    (∀ s r, ParseIdentifierExpr strtod n s = some r → Along strtod s r.2) ∧
    (∀ s r, ParsePrimary strtod n s = some r → Along strtod s r.2) ∧
    (∀ p e s r, ParseBinOpRHS strtod n p e s = some r → Along strtod s r.2) ∧
    (∀ s r, ParseExpression strtod n s = some r → Along strtod s r.2) :=
  parse_preserves strtod (Along strtod) (Along_stepInvariant strtod).trans
    (Along_stepInvariant strtod).next (Along_stepInvariant strtod).prec
    (fun msg s => (Along_stepInvariant strtod).out (Output.error msg) s) n

theorem NoLParen_Along {ν : Type} (strtod : String → ν) {u v : Nat} {a b : ParserState ν}
    (h : NoLParen strtod u a) (hab : Along strtod a b) (huv : u ≤ v) : NoLParen strtod v b := by
  intro k s1 hk hu
  obtain ⟨n, hn⟩ := (tokensRead_stepInvariant strtod).trans a b s1 hab.2.2 ⟨k, hk⟩
  exact h n s1 hn (Nat.le_trans huv hu)

theorem NoLParen_here {ν : Type} (strtod : String → ν) {u : Nat} {s : ParserState ν}
    (h : NoLParen strtod u s) (hu : u ≤ unread s.lexer) : s.CurTok ≠ 40 :=
  h 0 s ⟨rfl, rfl⟩ hu

/-- Where no token is `'('`, a primary is a number or a variable. -/
theorem ParsePrimary_leaf {ν : Type} (strtod : String → ν) {n : Nat} {s s1 : ParserState ν}
    {x : ExprAST ν} (h : ParsePrimary strtod n s = some (some x, s1))
    (hno : NoLParen strtod (unread s1.lexer) s) :
    (∃ v, x = ExprAST.Number v) ∨ (∃ v, x = ExprAST.Variable v) := by
  have hs : s.CurTok ≠ 40 := NoLParen_here strtod hno ((parse_Along strtod n).2.2.2.1 _ _ h).1
  cases n with
  | zero => simp [ParsePrimary] at h
  | succ k =>
    rw [ParsePrimary] at h
    by_cases c1 : s.CurTok = tok_identifier
    · simp only [c1, if_true] at h
      cases k with
      | zero => simp [ParseIdentifierExpr] at h
      | succ j =>
        rw [ParseIdentifierExpr] at h
        cases h1 : getNextToken strtod s with
        | none => simp [h1] at h
        | some s2 =>
          simp only [h1] at h
          have a2 := (Along_stepInvariant strtod).next _ _ h1
          by_cases c2 : (s2.CurTok != 40) = true
          · simp only [c2, if_true, Option.some.injEq, Prod.mk.injEq] at h
            exact Or.inr ⟨_, h.1.symm⟩
          · exfalso
            simp only [c2, Bool.false_eq_true, if_false] at h
            have e2 : s2.CurTok = 40 := by simpa using c2
            apply NoLParen_here strtod (NoLParen_Along strtod hno a2 (Nat.le_refl _)) _ e2
            cases h3 : getNextToken strtod s2 with
            | none => simp [h3] at h
            | some s3 =>
              simp only [h3] at h
              have a3 := (getNextToken_unread strtod h3).1
              by_cases c3 : (s3.CurTok != 41) = true
              · simp only [c3, if_true] at h
                cases h4 : ParseCallArgs strtod j [] s3 with
                | none => simp [h4] at h
                | some r4 =>
                  have a4 := ((parse_Along strtod j).2.1 _ _ _ h4).1
                  obtain ⟨A, s4⟩ := r4
                  simp only [h4] at h
                  cases A with
                  | none => simp at h
                  | some Args =>
                    simp only [] at h a4
                    cases h5 : getNextToken strtod s4 with
                    | none => simp [h5] at h
                    | some s5 =>
                      simp only [h5, Option.some.injEq, Prod.mk.injEq] at h
                      have a5 := (getNextToken_unread strtod h5).1
                      rw [← h.2]; omega
              · simp only [c3, Bool.false_eq_true, if_false] at h
                cases h5 : getNextToken strtod s3 with
                | none => simp [h5] at h
                | some s5 =>
                  simp only [h5, Option.some.injEq, Prod.mk.injEq] at h
                  have a5 := (getNextToken_unread strtod h5).1
                  rw [← h.2]; omega
    · simp only [c1, if_false] at h
      by_cases c2 : s.CurTok = tok_number
      · simp only [c2, if_true, ParseNumberExpr] at h
        cases h1 : getNextToken strtod s with
        | none => simp [h1] at h
        | some s2 =>
          simp only [h1, Option.some.injEq, Prod.mk.injEq] at h
          exact Or.inl ⟨_, h.1.symm⟩
      · simp only [c2, if_false, if_neg hs, LogError, Option.some.injEq, Prod.mk.injEq] at h
        exact absurd h.1 (by simp)

theorem Grouped_leaf {ν : Type} (prec : Char → Int) {x : ExprAST ν}
    (h : (∃ v, x = ExprAST.Number v) ∨ (∃ v, x = ExprAST.Variable v)) :
    Grouped prec x ∧ ∀ op a b, x ≠ ExprAST.Binary op a b := by
  rcases h with ⟨v, rfl⟩ | ⟨v, rfl⟩
  · exact ⟨Grouped.number v, fun _ _ _ h => by cases h⟩
  · exact ⟨Grouped.variable v, fun _ _ _ h => by cases h⟩

/-- Where no token is `'('`, the tree `ParseBinOpRHS` returns is grouped by
precedence when `LHS` is and the lookahead does not bind tighter than the
operator at the top of `LHS`; its top operator, when it is not `LHS` itself,
has at least the precedence `ExprPrec`. -/
theorem ParseBinOpRHS_grouped {ν : Type} (strtod : String → ν) (s0 : ParserState ν) :
    ∀ (n : Nat) (p : Int) (LHS : ExprAST ν) (s : ParserState ν) (t : ExprAST ν)
      (s1 : ParserState ν), ParseBinOpRHS strtod n p LHS s = some (some t, s1) → 0 ≤ p →
      sameLookups s0.BinopPrecedence s.BinopPrecedence →
      NoLParen strtod (unread s1.lexer) s → Grouped (precedenceOf s0) LHS →
      (∀ op a b, LHS = ExprAST.Binary op a b → (GetTokPrecedence s).1 ≤ precedenceOf s0 op) →
      Grouped (precedenceOf s0) t ∧
        (t = LHS ∨ ∃ op a b, t = ExprAST.Binary op a b ∧ p ≤ precedenceOf s0 op) := by
  intro n
  induction n with
  | zero => intro p LHS s t s1 h; simp [ParseBinOpRHS] at h
  | succ k ih =>
    intro p LHS s t s1 h hp hsl hno hG hL
    rw [ParseBinOpRHS] at h
    simp only [] at h
    by_cases c1 : (GetTokPrecedence s).1 < p
    · simp only [c1, if_true, Option.some.injEq, Prod.mk.injEq] at h
      rw [← h.1]
      exact ⟨hG, Or.inl rfl⟩
    · simp only [c1, if_false] at h
      have hpos : 0 < (GetTokPrecedence s).1 := by
        rcases GetTokPrecedence_range s with h0 | h0
        · omega
        · exact h0
      have hsame := GetTokPrecedence_of_pos s hpos
      rw [hsame] at h
      have hcode : s.CurTok = code (toChar s.CurTok) :=
        (code_toChar_of_isascii (isascii_of_pos s hpos)).symm
      have hprec : (GetTokPrecedence s).1 = precedenceOf s0 (toChar s.CurTok) :=
        GetTokPrecedence_of_sameLookups s0 s (toChar s.CurTok) hcode hsl
      cases h1 : getNextToken strtod s with
      | none => simp [h1] at h
      | some s2 =>
        simp only [h1] at h
        have a2 := (Along_stepInvariant strtod).next _ _ h1
        cases h2 : ParsePrimary strtod k s2 with
        | none => simp [h2] at h
        | some r2 =>
          have a3 := (parse_Along strtod k).2.2.2.1 _ _ h2
          simp only [h2] at h
          obtain ⟨V, s3⟩ := r2
          cases V with
          | none => simp at h
          | some RHS =>
            simp only [] at h a3
            have a4 : Along strtod s3 (GetTokPrecedence s3).2 :=
              (Along_stepInvariant strtod).prec s3
            have a04 : Along strtod s (GetTokPrecedence s3).2 :=
              (Along_stepInvariant strtod).trans _ _ _ a2
                ((Along_stepInvariant strtod).trans _ _ _ a3 a4)
            have hsl4 : sameLookups s0.BinopPrecedence (GetTokPrecedence s3).2.BinopPrecedence :=
              sameLookups_trans hsl a04.2.1
            by_cases c2 : (GetTokPrecedence s).1 < (GetTokPrecedence s3).1
            · simp only [c2, if_true] at h
              cases h3 : ParseBinOpRHS strtod k ((GetTokPrecedence s).1 + 1) RHS
                  (GetTokPrecedence s3).2 with
              | none => simp [h3] at h
              | some r3 =>
                have a5 := (parse_Along strtod k).2.2.2.2.1 _ _ _ _ h3
                simp only [h3] at h
                obtain ⟨V1, s5⟩ := r3
                cases V1 with
                | none => simp at h
                | some RHS1 =>
                  simp only [] at h a5
                  have a6 := (parse_Along strtod k).2.2.2.2.1 _ _ _ _ h
                  simp only [] at a6
                  have hleaf := Grouped_leaf (precedenceOf s0) (ParsePrimary_leaf strtod h2
                    (NoLParen_Along strtod hno a2
                      (Nat.le_trans a6.1 (Nat.le_trans a5.1 a4.1))))
                  obtain ⟨g1, top1⟩ := ih _ _ _ _ _ h3 (by omega) hsl4
                    (NoLParen_Along strtod hno a04 a6.1) hleaf.1
                    (fun op a b e => absurd e (hleaf.2 op a b))
                  have look := ParseBinOpRHS_lookahead strtod k _ _ _ _ _ h3
                  have gN : Grouped (precedenceOf s0)
                      (ExprAST.Binary (toChar s.CurTok) LHS RHS1) := by
                    refine Grouped.binary _ _ _ hG g1 ?_ ?_
                    · intro op1 a b e
                      rcases top1 with top1 | ⟨op2, a2, b2, e2, le2⟩
                      · rw [top1] at e; exact absurd e (hleaf.2 op1 a b)
                      · rw [e2] at e
                        injection e with e _ _
                        rw [← e, ← hprec]; omega
                    · intro op1 a b e
                      rw [← hprec]; exact hL op1 a b e
                  obtain ⟨g, top⟩ := ih _ _ _ _ _ h hp
                    (sameLookups_trans hsl4 a5.2.1)
                    (NoLParen_Along strtod hno
                      ((Along_stepInvariant strtod).trans _ _ _ a04 a5) (Nat.le_refl _)) gN
                    (fun op a b e => by
                      injection e with e _ _
                      rw [← e, ← hprec]; omega)
                  refine ⟨g, Or.inr ?_⟩
                  rcases top with top | top
                  · exact ⟨_, _, _, top, by rw [← hprec]; omega⟩
                  · exact top
            · simp only [c2, if_false] at h
              have a6 := (parse_Along strtod k).2.2.2.2.1 _ _ _ _ h
              simp only [] at a6
              have hleaf := Grouped_leaf (precedenceOf s0) (ParsePrimary_leaf strtod h2
                (NoLParen_Along strtod hno a2 (Nat.le_trans a6.1 a4.1)))
              have gN : Grouped (precedenceOf s0)
                  (ExprAST.Binary (toChar s.CurTok) LHS RHS) := by
                refine Grouped.binary _ _ _ hG hleaf.1 ?_ ?_
                · intro op1 a b e
                  exact absurd e (hleaf.2 op1 a b)
                · intro op1 a b e
                  rw [← hprec]; exact hL op1 a b e
              obtain ⟨g, top⟩ := ih _ _ _ _ _ h hp hsl4
                (NoLParen_Along strtod hno a04 (Nat.le_refl _)) gN
                (fun op a b e => by
                  injection e with e _ _
                  rw [← e, ← hprec, GetTokPrecedence_idem]; omega)
              refine ⟨g, Or.inr ?_⟩
              rcases top with top | top
              · exact ⟨_, _, _, top, by rw [← hprec]; omega⟩
              · exact top

/-- C17. For every precedence table (that of `s`) and every token sequence without
a `'('` token (from the lookahead of `s` up to the lookahead the call stops on)
that `ParseExpression` parses successfully, the tree returned satisfies at
every `Binary` node: a right child `Binary(op1, _, _)` has
`prec(op1) > prec(op)`, a left child `Binary(op1, _, _)` has
`prec(op1) ≥ prec(op)`, with `prec` what `GetTokPrecedence` reports against
that table. -/
theorem ParseExpression_grouped {ν : Type} (strtod : String → ν) (fuel : Nat)
    (s s1 : ParserState ν) (t : ExprAST ν)
    (h : ParseExpression strtod fuel s = some (some t, s1))
    (hno : NoLParen strtod (unread s1.lexer) s) : Grouped (precedenceOf s) t := by
  cases fuel with
  | zero => simp [ParseExpression] at h
  | succ k =>
    rw [ParseExpression] at h
    cases h2 : ParsePrimary strtod k s with
    | none => simp [h2] at h
    | some r2 =>
      have a2 := (parse_Along strtod k).2.2.2.1 _ _ h2
      simp only [h2] at h
      obtain ⟨V, s2⟩ := r2
      cases V with
      | none => simp at h
      | some LHS =>
        simp only [] at h a2
        have a3 := (parse_Along strtod k).2.2.2.2.1 _ _ _ _ h
        simp only [] at a3
        have hleaf := Grouped_leaf (precedenceOf s) (ParsePrimary_leaf strtod h2
          (NoLParen_Along strtod hno ((Along_stepInvariant strtod).refl s) a3.1))
        exact (ParseBinOpRHS_grouped strtod s k 0 LHS s2 t s1 h (Int.le_refl 0) a2.2.1
          (NoLParen_Along strtod hno a2 (Nat.le_refl _)) hleaf.1
          (fun op a b e => absurd e (hleaf.2 op a b))).1

theorem gettokNth_unread {ν : Type} (strtod : String → ν) :
    ∀ (k : Nat) (l : LexState ν) (t : Int) (l1 : LexState ν),
      gettokNth strtod k l = some (t, l1) → unread l1 ≤ unread l := by
  intro k
  induction k with
  | zero =>
    intro l t l1 h
    rw [gettokNth] at h
    exact (gettokAux_unread strtod _ _ _ _ h).1
  | succ j ih =>
    intro l t l1 h
    rw [gettokNth] at h
    cases h1 : gettok strtod l with
    | none => simp [h1] at h
    | some q =>
      obtain ⟨t0, l0⟩ := q
      simp only [h1] at h
      exact Nat.le_trans (ih _ _ _ h) (gettokAux_unread strtod _ _ _ _ h1).1

theorem tokensRead_unread {ν : Type} (strtod : String → ν) {k : Nat} {s s1 : ParserState ν}
    (h : tokensRead strtod k s s1) : unread s1.lexer ≤ unread s.lexer := by
  cases k with
  | zero => rw [h.1]
  | succ j => exact gettokNth_unread strtod j _ _ _ h

/-- Past the point where `u` characters are unread there is nothing to check. -/
theorem NoLParen_of_unread_lt {ν : Type} (strtod : String → ν) {u : Nat} {s : ParserState ν}
    (h : unread s.lexer < u) : NoLParen strtod u s := by
  intro k s1 hk hu
  have := tokensRead_unread strtod hk
  omega

/-- The tokens from `s` on are the lookahead of `s` and the tokens from the next
state on. -/
theorem NoLParen_step {ν : Type} (strtod : String → ν) {u : Nat} {s s2 : ParserState ν}
    (hn : getNextToken strtod s = some s2) (h : s.CurTok ≠ 40) (h2 : NoLParen strtod u s2) :
    NoLParen strtod u s := by
  intro k s1 hk hu
  unfold getNextToken at hn
  cases h1 : gettok strtod s.lexer with
  | none => simp [h1] at hn
  | some q =>
    obtain ⟨t0, l0⟩ := q
    simp only [h1, Option.some.injEq] at hn
    cases k with
    | zero => rw [hk.2]; exact h
    | succ j =>
      cases j with
      | zero =>
        simp only [tokensRead, gettokNth, h1, Option.some.injEq, Prod.mk.injEq] at hk
        refine h2 0 s1 ⟨?_, ?_⟩ hu
        · rw [← hn]; exact hk.2.symm
        · rw [← hn]; exact hk.1.symm
      | succ i =>
        simp only [tokensRead, gettokNth, h1] at hk
        refine h2 (i + 1) s1 ?_ hu
        simp only [tokensRead]
        rw [← hn]; exact hk

/-- C17, witness: `1-2*3` in `1-2*3;(`, where the `'('` comes after the token the
call stops on. -/
theorem ParseExpression_grouped_witness :
    Grouped
      (precedenceOf
        (⟨⟨45, "2*3;(".toList, "1", ""⟩, tok_number, [('*', 40), ('+', 20), ('-', 20)], []⟩ :
          ParserState String))
      (ExprAST.Binary '-' (ExprAST.Number "1")
        (ExprAST.Binary '*' (ExprAST.Number "2") (ExprAST.Number "3"))) :=
  ParseExpression_grouped (fun x => x) 5
    ⟨⟨45, "2*3;(".toList, "1", ""⟩, tok_number, [('*', 40), ('+', 20), ('-', 20)], []⟩
    ⟨⟨40, [], "3", ""⟩, 59, [('*', 40), ('+', 20), ('-', 20), (';', 0)], []⟩
    (ExprAST.Binary '-' (ExprAST.Number "1")
      (ExprAST.Binary '*' (ExprAST.Number "2") (ExprAST.Number "3")))
    rfl
    (@NoLParen_step String (fun x => x) 1
      ⟨⟨45, "2*3;(".toList, "1", ""⟩, tok_number, [('*', 40), ('+', 20), ('-', 20)], []⟩
      ⟨⟨50, "*3;(".toList, "1", ""⟩, 45, [('*', 40), ('+', 20), ('-', 20)], []⟩
      rfl (by decide)
      (@NoLParen_step String (fun x => x) 1
        ⟨⟨50, "*3;(".toList, "1", ""⟩, 45, [('*', 40), ('+', 20), ('-', 20)], []⟩
        ⟨⟨42, "3;(".toList, "2", ""⟩, tok_number, [('*', 40), ('+', 20), ('-', 20)], []⟩
        rfl (by decide)
        (@NoLParen_step String (fun x => x) 1
          ⟨⟨42, "3;(".toList, "2", ""⟩, tok_number, [('*', 40), ('+', 20), ('-', 20)], []⟩
          ⟨⟨51, ";(".toList, "2", ""⟩, 42, [('*', 40), ('+', 20), ('-', 20)], []⟩
          rfl (by decide)
          (@NoLParen_step String (fun x => x) 1
            ⟨⟨51, ";(".toList, "2", ""⟩, 42, [('*', 40), ('+', 20), ('-', 20)], []⟩
            ⟨⟨59, "(".toList, "3", ""⟩, tok_number, [('*', 40), ('+', 20), ('-', 20)], []⟩
            rfl (by decide)
            (@NoLParen_step String (fun x => x) 1
              ⟨⟨59, "(".toList, "3", ""⟩, tok_number, [('*', 40), ('+', 20), ('-', 20)], []⟩
              ⟨⟨40, [], "3", ""⟩, 59, [('*', 40), ('+', 20), ('-', 20)], []⟩
              rfl (by decide)
              (@NoLParen_step String (fun x => x) 1
                ⟨⟨40, [], "3", ""⟩, 59, [('*', 40), ('+', 20), ('-', 20)], []⟩
                ⟨⟨EOF, [], "3", ""⟩, 40, [('*', 40), ('+', 20), ('-', 20)], []⟩
                rfl (by decide)
                (@NoLParen_of_unread_lt String (fun x => x) 1
                  ⟨⟨EOF, [], "3", ""⟩, 40, [('*', 40), ('+', 20), ('-', 20)], []⟩ (by decide))))))))

/-! ## Where a failed parse stops -/

theorem chktok_fold_alnum (w : List Char) (hw : ∀ x ∈ w, isalnum (code x) = true) :
    ∀ acc : List Char,
      w.foldl (fun acc c => if isalnum (code c) then acc.push c else acc) (String.mk acc) =
        String.mk (acc ++ w) := by
  induction w with
  | nil => intro acc; simp
  | cons x w ih =>
    intro acc
    have hx := hw x (List.mem_cons_self x w)
    simp only [List.foldl_cons, hx, if_true]
    have : (String.mk acc).push x = String.mk (acc ++ [x]) := rfl
    rw [this, ih (fun y hy => hw y (List.mem_cons_of_mem x hy))]
    simp

/-- C14, as stated, fails: the text `de f` starts with a letter, `chktok` classifies
it as `tok_def`, because its loop keeps the letters after the blank, while the
first token `gettok` returns on it is `tok_identifier`, with the payload `de`. -/
theorem chktok_differs_from_gettok :
    isalpha (code 'd') = true ∧ chktok "de f" = tok_def ∧
      gettok (fun x => x) (LexState.init "" "de f".toList) =
        some (tok_identifier, ⟨32, "f".toList, "", "de"⟩) ∧
      tok_def ≠ tok_identifier :=
  ⟨by decide, by decide, rfl, by decide⟩

/-- C14, amended. For every text fragment that is a letter followed by letters and
digits only, or that starts with a digit or `'.'`, `chktok` returns the kind of
the first token that `gettok` returns from the initial lexer state on that
text. -/
theorem chktok_eq_gettok_on_token_text {ν : Type} (strtod : String → ν) (zero : ν) (s : String)
    (h : isTokenText s.data = true) :
    ∃ l, gettok strtod (LexState.init zero s.data) = some (chktok s, l) := by
  unfold chktok
  cases hs : s.data with
  | nil => rw [hs] at h; simp [isTokenText] at h
  | cons c0 w =>
    rw [hs] at h
    simp only [isTokenText, Bool.or_eq_true, Bool.and_eq_true, List.all_eq_true] at h
    by_cases ha : isalpha (code c0) = true
    · have hw : ∀ x ∈ w, isalnum (code x) = true := by
        rcases h with h | h
        · exact h.2
        · have := numeric_not_isalpha (by simpa using h)
          rw [ha] at this
          exact absurd this (by decide)
      have hword := gettok_word strtod (LexState.init zero (c0 :: w)) ' ' c0 [' '] w [] rfl
        (by simp [LexState.init]) (by decide) ha hw (by simp)
      have hfold := chktok_fold_alnum w hw [c0]
      have hsing : String.singleton c0 = String.mk [c0] := rfl
      simp only [ha, if_true, hsing, hfold, List.singleton_append]
      exact ⟨_, hword⟩
    · have hnum : (isdigit (code c0) || code c0 == 46) = true := by
        rcases h with h | h
        · exact absurd h.1 ha
        · simpa using h
      simp only [ha, Bool.false_eq_true, if_false, hnum, if_true]
      have hsplit : w = w.takeWhile (fun x => isdigit (code x) || code x == 46) ++
          w.dropWhile (fun x => isdigit (code x) || code x == 46) :=
        (List.takeWhile_append_dropWhile _ w).symm
      refine ⟨_, gettok_numeral strtod (LexState.init zero (c0 :: w)) ' ' c0 [' ']
        (w.takeWhile (fun x => isdigit (code x) || code x == 46))
        (w.dropWhile (fun x => isdigit (code x) || code x == 46)) rfl ?_ (by decide) hnum ?_ ?_⟩
      · show ' ' :: (c0 :: w) = _
        simp [LexState.init, List.takeWhile_append_dropWhile]
      · intro x hx
        have := List.mem_takeWhile_imp hx
        exact this
      · intro x hx
        have := List.head?_dropWhile_not (fun x => isdigit (code x) || code x == 46) w
        rw [hx] at this
        simpa using this

/-- C14, witness: `extern` is classified as `tok_extern` by both, `x1` as
`tok_identifier`, and `1.5e` as `tok_number`. -/
theorem chktok_eq_gettok_on_token_text_witness :
    (gettok (fun x => x) (LexState.init "" "extern".toList)).map Prod.fst =
        some (chktok "extern") ∧ chktok "extern" = tok_extern ∧
      (gettok (fun x => x) (LexState.init "" "1.5e".toList)).map Prod.fst =
        some (chktok "1.5e") ∧ chktok "1.5e" = tok_number :=
  ⟨match chktok_eq_gettok_on_token_text (fun x => x) "" "extern" (by decide) with
    | ⟨_, h⟩ => congrArg (Option.map Prod.fst) h,
   by decide,
   match chktok_eq_gettok_on_token_text (fun x => x) "" "1.5e" (by decide) with
    | ⟨_, h⟩ => congrArg (Option.map Prod.fst) h,
   by decide⟩

end Kaleidoscope
